import Mathlib

/-!
Verification of the TabuEQCol solver (Tabu-Search heuristic for the Equitable
Coloring Problem).  The C++ source (`solution.hpp` / `main.cpp`) is shallowly
embedded: C++ `int`/`long long` fields become `Int`, `std::vector` cells become
total maps `Nat → Int` (resp. `Int → Int` for color-indexed tables) updated
pointwise, and the conflicting-vertex list stays a `List Nat`.  The mt19937 +
`uniform_int_distribution` random draws are modelled by an oracle stream
`rng : Nat → Nat` consumed one value per draw, reduced modulo the distribution
width, and `std::shuffle` results are modelled as arbitrary permutations.
-/

set_option maxHeartbeats 1000000

namespace TabuEqcol

/-- Pointwise update of a total map (models writing one cell of a vector). -/
def updF {α β : Type} [DecidableEq α] (f : α → β) (i : α) (x : β) : α → β :=
  fun j => if j = i then x else f j

/-- Immutable graph instance after `build_adj`: vertex count and adjacency
lists (mirrors `tabueqcol::Instance`). -/
structure Instance where
  n : Nat
  adj : Nat → List Nat

/-- The mutable solution state of `tabueqcol::SolutionManager`. -/
structure SolState where
  n : Nat
  k : Nat
  color : Nat → Int
  classSize : Int → Int
  conflicts : Nat → Int
  conflictingVertices : List Nat
  conflictingIndex : Nat → Int
  obj : Int
  floor_size : Int
  big_size : Int

/-- `SolutionManager::init`: fresh empty state for a given instance and `k`
(`color ≡ -1`, all counters zero, `floor_size = n / k`, `big_size = floor+1`). -/
def initState (I : Instance) (k : Nat) : SolState :=
  { n := I.n
    k := k
    color := fun _ => -1
    classSize := fun _ => 0
    conflicts := fun _ => 0
    conflictingVertices := []
    conflictingIndex := fun _ => -1
    obj := 0
    floor_size := ((I.n / k : Nat) : Int)
    big_size := ((I.n / k : Nat) : Int) + 1 }

/-- Ground truth for `conflicts[v]`: the number of neighbours of `v` that
carry the same (real, i.e. `≠ -1`) color as `v`. -/
def confSpec (I : Instance) (color : Nat → Int) (v : Nat) : Int :=
  if color v = -1 then 0
  else ((I.adj v).countP (fun u => color u == color v) : Int)

/-- Ground truth for `classSize[c]`: number of vertices of color `c`. -/
def sizeSpec (I : Instance) (color : Nat → Int) (c : Int) : Int :=
  (((List.range I.n).countP (fun v => color v == c)) : Int)

/-- Sum of per-vertex conflict counts; every conflicting edge contributes 2. -/
def objSpec (I : Instance) (color : Nat → Int) : Int :=
  ∑ v ∈ Finset.range I.n, confSpec I color v

/-- `SolutionManager::recompute_objective_slow`: recompute the objective from
scratch over adjacency lists, dividing the doubled count by two. -/
def recompute_objective_slow (I : Instance) (s : SolState) : Int :=
  (((List.range s.n).map
      (fun v => ((I.adj v).countP (fun u => s.color u == s.color v) : Int))).sum) / 2

/-- `SolutionManager::update_conflict_status`: O(1) membership maintenance of
`conflictingVertices` (append when a vertex gains conflicts, swap-with-last
removal when it loses all of them). -/
def update_conflict_status (s : SolState) (x : Nat) : SolState :=
  if 0 < s.conflicts x then
    if s.conflictingIndex x = -1 then
      { s with
        conflictingIndex := updF s.conflictingIndex x (s.conflictingVertices.length : Int)
        conflictingVertices := s.conflictingVertices ++ [x] }
    else s
  else
    if s.conflictingIndex x = -1 then s
    else
      let idx := (s.conflictingIndex x).toNat
      let lastVal := (s.conflictingVertices.getLast?).getD 0
      { s with
        conflictingVertices := (s.conflictingVertices.set idx lastVal).dropLast
        conflictingIndex := fun y =>
          if y = x then -1 else if y = lastVal then (idx : Int) else s.conflictingIndex y }

/-- One iteration of the conflict loops of `apply_move`: if neighbour `u`
carries color `cc`, adjust `obj` and the conflict counters of `v` and `u` by
`δ`, calling `update_conflict_status` after each counter change.  The first
loop of the source is `δ = -1, cc = old_c`, the second `δ = 1, cc = new_c`. -/
def conflictAdjStep (δ cc : Int) (v : Nat) (t : SolState) (u : Nat) : SolState :=
  if t.color u = cc then
    let a := update_conflict_status
      { t with obj := t.obj + δ, conflicts := updF t.conflicts v (t.conflicts v + δ) } v
    update_conflict_status
      { a with conflicts := updF a.conflicts u (a.conflicts u + δ) } u
  else t

/-- `SolutionManager::apply_move`: recolor `v` to `new_c`, updating class
sizes, then both conflict loops over `adj[v]`. -/
def apply_move (I : Instance) (s : SolState) (v : Nat) (new_c : Int) : SolState :=
  let old_c := s.color v
  let size1 := updF s.classSize old_c (s.classSize old_c - 1)
  let s0 := { s with
    color := updF s.color v new_c
    classSize := updF size1 new_c (size1 new_c + 1) }
  let s1 := (I.adj v).foldl (conflictAdjStep (-1) old_c v) s0
  (I.adj v).foldl (conflictAdjStep 1 new_c v) s1

/-- `SolutionManager::apply_swap_safe`: two sequential `apply_move`s. -/
def apply_swap_safe (I : Instance) (s : SolState) (v u : Nat) : SolState :=
  let c_v := s.color v
  let s1 := apply_move I s v (s.color u)
  apply_move I s1 u c_v

/-- `SolutionManager::get_move_delta`: objective change of recoloring `v`
from `old_c` to `new_c` (skipping uncolored neighbours). -/
def get_move_delta (I : Instance) (s : SolState) (v : Nat) (old_c new_c : Int) : Int :=
  (I.adj v).foldl (fun d u =>
    if s.color u = -1 then d
    else if s.color u = old_c then d - 1
    else if s.color u = new_c then d + 1
    else d) 0

/-- `SolutionManager::get_swap_delta`: objective change of exchanging the
colors of `v` and `u`; the direct edge `(u,v)` is skipped in both loops. -/
def get_swap_delta (I : Instance) (s : SolState) (v u : Nat) : Int :=
  if s.color v = s.color u then 0
  else
    (I.adj u).foldl (fun d w =>
      if w = v then d
      else if s.color w = s.color u then d - 1
      else if s.color w = s.color v then d + 1
      else d)
      ((I.adj v).foldl (fun d w =>
        if w = u then d
        else if s.color w = s.color v then d - 1
        else if s.color w = s.color u then d + 1
        else d) 0)

/-- The inline conflict/objective update performed right after a greedy
construction colors vertex `v` with `chosen` (shared verbatim by
`construct_greedy_initial` and `construct_greedy_from_previous`). -/
def greedyConflictStep (v : Nat) (chosen : Int) (t : SolState) (u : Nat) : SolState :=
  if t.color u = -1 then t
  else if t.color u = chosen then
    let c1 := updF t.conflicts v (t.conflicts v + 1)
    let t1 := { t with obj := t.obj + 1, conflicts := updF c1 u (c1 u + 1) }
    let t2 :=
      if t1.conflicts v = 1 ∧ t1.conflictingIndex v = -1 then
        { t1 with
          conflictingIndex := updF t1.conflictingIndex v (t1.conflictingVertices.length : Int)
          conflictingVertices := t1.conflictingVertices ++ [v] }
      else t1
    if t2.conflicts u = 1 ∧ t2.conflictingIndex u = -1 then
      { t2 with
        conflictingIndex := updF t2.conflictingIndex u (t2.conflictingVertices.length : Int)
        conflictingVertices := t2.conflictingVertices ++ [u] }
    else t2
  else t

/-- The `I.empty()` fallback of `construct_greedy_initial`: color with the
currently smallest class (`chosenColor = 0; for c ... if smaller take c`). -/
def argminClassSize (s : SolState) (k : Nat) : Nat :=
  (List.range k).foldl
    (fun (best c : Nat) => if s.classSize (c : Int) < s.classSize (best : Int) then c else best) 0

/-- One step of the shared greedy placement loop.  The accumulator is
`(state, current_r, rng index)`; `fallback` is the (dead under the equity
invariant) `I.empty()` branch, which differs between the two constructions:
`argminClassSize` in `construct_greedy_initial`, the constant `0` in
`construct_greedy_from_previous`. -/
def greedyPlaceStep (I : Instance) (kk floor_nk max_r : Nat)
    (fallback : SolState → Nat) (rng : Nat → Nat)
    (acc : SolState × Nat × Nat) (v : Nat) : SolState × Nat × Nat :=
  let s := acc.1
  let current_r := acc.2.1
  let rix := acc.2.2
  let M : Int := if current_r < max_r then (floor_nk : Int) + 1 else (floor_nk : Int)
  let Iset := (List.range kk).filter (fun (c : Nat) => decide (s.classSize (c : Int) ≤ M - 1))
  let firstFit := Iset.find? (fun (c : Nat) => (I.adj v).all (fun u => !(s.color u == (c : Int))))
  let chosen : Nat :=
    match firstFit with
    | some c => c
    | none => if Iset.isEmpty then fallback s else Iset.getD (rng rix % Iset.length) 0
  let rix' : Nat :=
    match firstFit with
    | some _ => rix
    | none => if Iset.isEmpty then rix else rix + 1
  let s1 := { s with
    color := updF s.color v (chosen : Int)
    classSize := updF s.classSize (chosen : Int) (s.classSize (chosen : Int) + 1) }
  let current_r' := if s1.classSize (chosen : Int) = (floor_nk : Int) + 1 then current_r + 1 else current_r
  ((I.adj v).foldl (greedyConflictStep v (chosen : Int)) s1, current_r', rix')

/-- `SolutionManager::construct_greedy_initial`.  The `std::shuffle` of the
vertex vector is abstracted by the parameter `order` (a permutation of
`range n`); the random choice inside `I` consumes the `rng` oracle. -/
def construct_greedy_initial (I : Instance) (k : Nat) (order : List Nat) (rng : Nat → Nat) : SolState :=
  let s0 := initState I k
  let floor_nk := s0.n / s0.k
  let max_r := s0.n - s0.k * floor_nk
  (order.foldl (greedyPlaceStep I s0.k floor_nk max_r (fun s => argminClassSize s s0.k) rng)
    (s0, 0, 0)).1

/-- The uncolored ("orphan") vertices of the warm start: those whose previous
color is the removed one, collected in increasing vertex order. -/
def uncolored_of (n : Nat) (prevColor : Nat → Int) (removed : Int) : List Nat :=
  (List.range n).filter (fun v => prevColor v == removed)

/-- The `color_map` built by `construct_greedy_from_previous`: surviving color
`perm[i]` (for `i < prev_k - 1`) is mapped to `i`; everything else to `-1`. -/
def colorMapOf (perm : List Nat) (prev_k : Nat) : Int → Int :=
  (List.range (prev_k - 1)).foldl
    (fun m i => updF m ((perm.getD i 0 : Nat) : Int) (i : Int)) (fun _ => -1)

/-- `SolutionManager::construct_greedy_from_previous`: seed a `k`-state from a
`k+1`-state `prev`.  `perm` abstracts the shuffled permutation of
`range prev.k` (its last entry is the removed color) and `shuffled` the
shuffled list of orphan vertices. -/
def construct_greedy_from_previous (I : Instance) (k : Nat) (prev : SolState)
    (perm : List Nat) (shuffled : List Nat) (rng : Nat → Nat) : SolState :=
  let s0 := initState I k
  let prev_k := prev.k
  let removed : Int := ((perm.getD (prev_k - 1) 0 : Nat) : Int)
  let cmap := colorMapOf perm prev_k
  -- step 3: transfer surviving colors and rebuild class sizes
  let s1 := (List.range s0.n).foldl (fun t v =>
      let old_c := prev.color v
      if old_c = removed then t
      else
        let nc := cmap old_c
        { t with
          color := updF t.color v nc
          classSize := updF t.classSize nc (t.classSize nc + 1) }) s0
  -- step 4: inherit obj and conflicts, subtracting edges inside the removed class
  let s2 := { s1 with obj := prev.obj }
  let s3 := (List.range s0.n).foldl (fun t v =>
      if prev.color v = removed then
        let newObj := (I.adj v).foldl
          (fun o u => if v < u ∧ prev.color u = removed then o - 1 else o) t.obj
        let t1 := if 0 < prev.conflicts v then { t with obj := newObj } else t
        { t1 with
          conflicts := updF t1.conflicts v 0
          conflictingIndex := updF t1.conflictingIndex v (-1) }
      else
        let t1 := { t with conflicts := updF t.conflicts v (prev.conflicts v) }
        if 0 < t1.conflicts v then
          { t1 with
            conflictingIndex := updF t1.conflictingIndex v (t1.conflictingVertices.length : Int)
            conflictingVertices := t1.conflictingVertices ++ [v] }
        else
          { t1 with conflictingIndex := updF t1.conflictingIndex v (-1) }) s2
  -- step 5: recount current_r, then run the greedy placement on the orphans
  let floor_nk := s0.n / s0.k
  let max_r := s0.n - s0.k * floor_nk
  let current_r0 := (List.range s0.k).foldl
    (fun r c => if (floor_nk : Int) + 1 ≤ s3.classSize (c : Int) then r + 1 else r) 0
  (shuffled.foldl (greedyPlaceStep I s0.k floor_nk max_r (fun _ => 0) rng)
    (s3, current_r0, 0)).1

/-- `TabuConfig` (the fields the engine reads).  `alpha` and
`perturbation_strength` are exact rationals standing for the C++ doubles. -/
structure TabuConfig where
  max_iter : Nat
  alpha : ℚ
  beta : Nat
  perturbation_limit : Int
  perturbation_strength : ℚ
  aspiration : Int
deriving DecidableEq

/-- `TabuResult`: solved flag, iterations run, and final ("SF") objective. -/
structure TabuResult where
  solved : Bool
  iterations : Nat
  final_obj : Int
deriving DecidableEq, Repr

/-- Ghost tag recording which of the exit paths of `run_tabu_search` fired. -/
inductive ExitKind where
  | entryZero
  | objZero
  | maxIterHit
  | timeout
  | stuck
deriving DecidableEq, Repr

/-- Everything `run_tabu_search` leaves behind: the mutated state, the tabu
matrix, the returned `TabuResult`, the (ghost) exit kind and the final
`best_obj_found`. -/
structure EngineOut where
  st : SolState
  tabu : Nat → Int → Int
  result : TabuResult
  kind : ExitKind
  best : Int

/-- `CandidateMove` (type 0 = transfer/move, 1 = swap; `target` is the
destination color resp. the exchanged vertex). -/
structure CandidateMove where
  type : Nat
  v : Nat
  target : Nat
deriving DecidableEq, Repr

/-- Best-improvement tie-pool accumulation: strictly better delta clears the
pool, an equal delta appends. -/
def cand_accum (acc : Int × List CandidateMove) (delta : Int) (m : CandidateMove) :
    Int × List CandidateMove :=
  if delta < acc.1 then (delta, [m])
  else if delta = acc.1 then (acc.1, acc.2 ++ [m])
  else acc

/-- The tabu predicate: an entry is tabu iff it strictly exceeds the current
iteration counter (`tabu_matrix[v][c] > iter`). -/
def isTabuAt (entry : Int) (iter : Nat) : Bool :=
  decide ((iter : Int) < entry)

/-- Admission test for a tabu-checked transfer: `!is_tabu || (aspiration &&
config.aspiration)`. -/
def transferAdmit (is_tabu : Bool) (obj delta best : Int) (cfgAsp : Int) : Bool :=
  !is_tabu || (decide (obj + delta < best) && decide (cfgAsp ≠ 0))

/-- Admission test for a tabu-checked swap: `!is_tabu || aspiration` (the
config flag is not consulted). -/
def swapAdmit (is_tabu : Bool) (obj delta best : Int) : Bool :=
  !is_tabu || decide (obj + delta < best)

/-- Transfer (Move) neighborhood scan of `run_tabu_search`. -/
def scan_transfers (I : Instance) (cfg : TabuConfig) (s : SolState)
    (tb : Nat → Int → Int) (iter : Nat) (best : Int)
    (acc0 : Int × List CandidateMove) : Int × List CandidateMove :=
  s.conflictingVertices.foldl (fun acc v =>
    let c_v := s.color v
    if s.classSize c_v = s.big_size then
      (List.range s.k).foldl (fun acc2 (j : Nat) =>
        if s.classSize (j : Int) = s.floor_size then
          let delta := get_move_delta I s v c_v (j : Int)
          let is_tabu := isTabuAt (tb v (j : Int)) iter
          if transferAdmit is_tabu s.obj delta best cfg.aspiration then
            cand_accum acc2 delta ⟨0, v, j⟩
          else acc2
        else acc2) acc
    else acc) acc0

/-- Swap (Exchange) neighborhood scan of `run_tabu_search`. -/
def scan_swaps (I : Instance) (s : SolState)
    (tb : Nat → Int → Int) (iter : Nat) (best : Int)
    (acc0 : Int × List CandidateMove) : Int × List CandidateMove :=
  s.conflictingVertices.foldl (fun acc v =>
    let c_v := s.color v
    (List.range s.n).foldl (fun acc2 (u : Nat) =>
      if u = v then acc2
      else
        let c_u := s.color u
        if c_v = c_u then acc2
        else if decide (0 < s.conflicts u) && decide (c_v < c_u) then acc2
        else
          let delta := get_swap_delta I s v u
          let is_tabu := isTabuAt (tb v c_u) iter || isTabuAt (tb u c_v) iter
          if swapAdmit is_tabu s.obj delta best then
            cand_accum acc2 delta ⟨1, v, u⟩
          else acc2) acc) acc0

/-- Number of iterations of `for (int p = 0; p < n * perturbation_strength; ++p)`:
the set of naturals `p` with `(p : ℚ) < n·strength` is exactly
`{0, …, ⌈n·strength⌉ - 1}` (see `perturb_count_spec`). -/
def perturb_count (n : Nat) (strength : ℚ) : Nat :=
  Nat.ceil ((n : ℚ) * strength)

/-- One perturbation attempt: draw two vertices; swap only if they are
distinct and have distinct colors.  Returns the state, the advanced rng
index, and (ghost) 1 if the swap was applied. -/
def perturb_attempt (I : Instance) (s : SolState) (rng : Nat → Nat) (rix : Nat) :
    SolState × Nat × Nat :=
  let v1 := rng rix % s.n
  let v2 := rng (rix + 1) % s.n
  if v1 ≠ v2 ∧ s.color v1 ≠ s.color v2 then (apply_swap_safe I s v1 v2, rix + 2, 1)
  else (s, rix + 2, 0)

/-- One iteration of the `for p` loop, on the accumulator
`(state, rng index, ghost applied-swap count)`. -/
def perturb_step (I : Instance) (rng : Nat → Nat) (acc : SolState × Nat × Nat)
    (_p : Nat) : SolState × Nat × Nat :=
  let r := perturb_attempt I acc.1 rng acc.2.1
  (r.1, r.2.1, acc.2.2 + r.2.2)

/-- The whole perturbation pass (the `for p` loop); third component counts
(ghost) how many swaps were actually applied. -/
def perturb_pass (I : Instance) (cfg : TabuConfig) (s : SolState)
    (rng : Nat → Nat) (rix : Nat) : SolState × Nat × Nat :=
  (List.range (perturb_count s.n cfg.perturbation_strength)).foldl
    (perturb_step I rng) (s, rix, 0)

/-- The finalization common to the normal exits of `run_tabu_search`
(`result.iterations = iter; result.final_obj = best_obj_found;
result.solved = (best_obj_found == 0)`). -/
def finalizeResult (s : SolState) (tb : Nat → Int → Int) (iter : Nat) (best : Int)
    (kind : ExitKind) : EngineOut :=
  ⟨s, tb, ⟨decide (best = 0), iter, best⟩, kind, best⟩

/-- The `while (iter < max_iter && obj > 0)` loop of `run_tabu_search`,
by recursion on the remaining fuel `max_iter - iter`. -/
def run_tabu_loop (I : Instance) (cfg : TabuConfig) (stop : Nat → Bool) (rng : Nat → Nat)
    (entryObj : Int) :
    Nat → SolState → (Nat → Int → Int) → Nat → Nat → Int → Nat → EngineOut
  | 0, s, tb, iter, _ni, best, _rix =>
    finalizeResult s tb iter best (if s.obj ≤ 0 then .objZero else .maxIterHit)
  | fuel + 1, s, tb, iter, ni, best, rix =>
    if s.obj ≤ 0 then finalizeResult s tb iter best .objZero
    else if iter % 128 = 0 && stop iter then
      ⟨s, tb, ⟨false, 0, entryObj⟩, .timeout, best⟩
    else if decide (cfg.perturbation_limit ≤ (ni : Int)) && decide (0 < cfg.perturbation_strength) then
      let p := perturb_pass I cfg s rng rix
      run_tabu_loop I cfg stop rng entryObj fuel p.1 (fun _ _ => 0) (iter + 1) 0 best p.2.1
    else
      let acc1 :=
        if s.n % s.k ≠ 0 then scan_transfers I cfg s tb iter best (99999999, [])
        else (99999999, [])
      let acc2 := scan_swaps I s tb iter best acc1
      match acc2.2 with
      | [] => finalizeResult s tb iter best .stuck
      | c :: cs =>
        let chosen := (c :: cs).get ⟨rng rix % (cs.length + 1), Nat.mod_lt _ (Nat.succ_pos _)⟩
        let tenure : Int :=
          ⌊cfg.alpha * (s.conflictingVertices.length : ℚ)⌋ +
            ((rng (rix + 1) % (cfg.beta + 1) : Nat) : Int)
        let rix' := rix + 2
        if chosen.type = 0 then
          let old_c := s.color chosen.v
          let s' := apply_move I s chosen.v (chosen.target : Int)
          let tb' := fun x c0 =>
            if x = chosen.v ∧ c0 = old_c then (iter : Int) + tenure else tb x c0
          let best' := if s'.obj < best then s'.obj else best
          let ni' := if s'.obj < best then 0 else ni + 1
          run_tabu_loop I cfg stop rng entryObj fuel s' tb' (iter + 1) ni' best' rix'
        else
          let c_v_old := s.color chosen.v
          let c_u_old := s.color chosen.target
          let s' := apply_swap_safe I s chosen.v chosen.target
          let tb1 := fun x c0 =>
            if x = chosen.v ∧ c0 = c_v_old then (iter : Int) + tenure else tb x c0
          let tb' := fun x c0 =>
            if x = chosen.target ∧ c0 = c_u_old then (iter : Int) + tenure else tb1 x c0
          let best' := if s'.obj < best then s'.obj else best
          let ni' := if s'.obj < best then 0 else ni + 1
          run_tabu_loop I cfg stop rng entryObj fuel s' tb' (iter + 1) ni' best' rix'

/-- `SolutionManager::run_tabu_search`.  The wall-clock `StopCriterion` is the
oracle `stop` (polled with the current iteration counter); `rng` is the draw
oracle. -/
def run_tabu_search (I : Instance) (cfg : TabuConfig) (stop : Nat → Bool)
    (rng : Nat → Nat) (s : SolState) : EngineOut :=
  if s.obj = 0 then ⟨s, fun _ _ => 0, ⟨true, 0, s.obj⟩, .entryZero, s.obj⟩
  else run_tabu_loop I cfg stop rng s.obj cfg.max_iter s (fun _ _ => 0) 0 0 s.obj 0

/-- `read_instance`, on the whitespace-separated integer tokens of the input
file: header `n kpairs`, then `kpairs` pairs converted 1-based → 0-based
verbatim (no deduplication, no self-loop or range checks).  A missing header
token models the `die(...)`/exit-1 path as `none`; a negative `kpairs` makes
the edge loop run zero times. -/
def read_edge_tokens : Nat → List Int → Option (List (Int × Int))
  | 0, _ => some []
  | m + 1, a :: b :: rest => (read_edge_tokens m rest).map (fun es => (a - 1, b - 1) :: es)
  | _ + 1, _ => none

/-- Parse the whole instance file token stream. -/
def read_instance (tokens : List Int) : Option (Int × List (Int × Int)) :=
  match tokens with
  | n :: kpairs :: rest => (read_edge_tokens kpairs.toNat rest).map (fun es => (n, es))
  | _ => none

/-- `Instance::build_adj` on edges already known to be in range: push both
endpoints onto each other's adjacency list. -/
def build_adj (_n : Nat) (edges : List (Nat × Nat)) : Nat → List Nat :=
  edges.foldl (fun adj e =>
    updF (updF adj e.1 (adj e.1 ++ [e.2])) e.2
      ((updF adj e.1 (adj e.1 ++ [e.2])) e.2 ++ [e.1])) (fun _ => [])

/-- Well-formed undirected simple instance, as `build_adj` produces from a
deduplicated, self-loop-free, in-range edge list: adjacency multiplicities
are symmetric, no vertex neighbours itself, and neighbours are in range. -/
structure GoodInst (I : Instance) : Prop where
  sym : ∀ v u, (I.adj v).count u = (I.adj u).count v
  irrefl : ∀ v, v ∉ I.adj v
  adj_lt : ∀ v u, u ∈ I.adj v → u < I.n

/-- Structural well-formedness of the `conflictingVertices` /
`conflictingIndex` pair: the index map is the inverse of list positions and
is `-1` off the list. -/
structure ListWF (s : SolState) : Prop where
  idx_of : ∀ (x i : Nat),
    s.conflictingVertices.get? i = some x ↔ s.conflictingIndex x = (i : Int)
  idx_neg : ∀ x, x ∉ s.conflictingVertices → s.conflictingIndex x = -1

/-- The conflicting-vertex list carries exactly the vertices with positive
conflict count. -/
def MemOK (s : SolState) : Prop :=
  ∀ x, x ∈ s.conflictingVertices ↔ 0 < s.conflicts x

/-- The full bookkeeping invariant of a `SolutionManager` state (the
`validate_consistency` conditions): conflicts, objective and class sizes
agree with their ground truth, colors are real and in range, and the
conflicting-vertex list is exactly `{v : conflicts v > 0}`. -/
structure Good (I : Instance) (s : SolState) : Prop where
  n_eq : s.n = I.n
  k_pos : 0 < s.k
  conf : ∀ v, s.conflicts v = confSpec I s.color v
  objEq : 2 * s.obj = objSpec I s.color
  sizes : ∀ c : Int, s.classSize c = sizeSpec I s.color c
  colors : ∀ v < I.n, 0 ≤ s.color v ∧ s.color v < (s.k : Int)
  lw : ListWF s
  mem : MemOK s

/-- The derived size fields are the ones `init` computes. -/
def FieldsOK (s : SolState) : Prop :=
  s.floor_size = ((s.n / s.k : Nat) : Int) ∧ s.big_size = s.floor_size + 1

/-- The equity invariant: every class size is `floor_size` or `big_size`, and
exactly `r = n - k·⌊n/k⌋` classes have size `big_size`. -/
def Equity (s : SolState) : Prop :=
  (∀ c < s.k, s.classSize (c : Int) = s.floor_size ∨ s.classSize (c : Int) = s.big_size) ∧
  ((Finset.range s.k).filter (fun (c : Nat) => s.classSize (c : Int) = s.big_size)).card
    = s.n - s.k * (s.n / s.k)

/-- States reachable by the solver: an initial greedy construction, a
warm-start construction from a reachable state, or a tabu-search run on a
reachable state (which applies `apply_move` / `apply_swap_safe` sequences). -/
inductive Reachable (I : Instance) : SolState → Prop where
  | initial (k : Nat) (hk : 0 < k) (order : List Nat)
      (horder : order.Perm (List.range I.n)) (rng : Nat → Nat) :
      Reachable I (construct_greedy_initial I k order rng)
  | warm (s : SolState) (hs : Reachable I s) (hk2 : 2 ≤ s.k)
      (perm : List Nat) (hperm : perm.Perm (List.range s.k))
      (shuffled : List Nat)
      (hsh : shuffled.Perm (uncolored_of I.n s.color ((perm.getD (s.k - 1) 0 : Nat) : Int)))
      (rng : Nat → Nat) :
      Reachable I (construct_greedy_from_previous I (s.k - 1) s perm shuffled rng)
  | engine (s : SolState) (hs : Reachable I s) (cfg : TabuConfig)
      (stop : Nat → Bool) (rng : Nat → Nat) :
      Reachable I ((run_tabu_search I cfg stop rng s).st)

/-! ### Concrete fixtures for witnesses and counterexamples -/

/-- Build an `Instance` from a finite adjacency-list table. -/
def mkInstance (adjL : List (List Nat)) : Instance :=
  ⟨adjL.length, fun v => adjL.getD v []⟩

/-- Decidable sufficient conditions for `GoodInst (mkInstance adjL)`. -/
def goodAdjChecks (adjL : List (List Nat)) : Prop :=
  (∀ v < adjL.length, ∀ u < adjL.length, (adjL.getD v []).count u = (adjL.getD u []).count v)
  ∧ (∀ v < adjL.length, ∀ u ∈ adjL.getD v [], u < adjL.length)
  ∧ (∀ v < adjL.length, v ∉ adjL.getD v [])

/-- Path 0 – 1 – 2. -/
def pathI : Instance := mkInstance [[1], [0, 2], [1]]

/-- Star with center 0 and leaves 1, 2. -/
def starI : Instance := mkInstance [[1, 2], [0], [0]]

/-- Four vertices, single edge 0 – 1. -/
def edgeI : Instance := mkInstance [[1], [0], [], []]

/-- Empty graph on three vertices. -/
def emptyI : Instance := mkInstance [[], [], []]

/-- Consistent 2-class state on `edgeI` with the one edge in conflict
(colors 0,0,1,1). -/
def edgeS : SolState :=
  { n := 4, k := 2
    color := fun v => if v ≤ 1 then 0 else if v ≤ 3 then 1 else -1
    classSize := fun c => if c = 0 then 2 else if c = 1 then 2 else 0
    conflicts := fun v => if v ≤ 1 then 1 else 0
    conflictingVertices := [0, 1]
    conflictingIndex := fun v => if v = 0 then 0 else if v = 1 then 1 else -1
    obj := 1
    floor_size := 2, big_size := 3 }

/-- Consistent 2-class state on `starI` with all vertices colored 0. -/
def starS : SolState :=
  { n := 3, k := 2
    color := fun v => if v ≤ 2 then 0 else -1
    classSize := fun c => if c = 0 then 3 else 0
    conflicts := fun v => if v = 0 then 2 else if v ≤ 2 then 1 else 0
    conflictingVertices := [0, 1, 2]
    conflictingIndex := fun v => if v = 0 then 0 else if v = 1 then 1 else if v = 2 then 2 else -1
    obj := 2
    floor_size := 1, big_size := 2 }

/-- Fully colored 3-class state on `emptyI` (used to exercise the
perturbation pass; `obj` is irrelevant there). -/
def rainbowS : SolState :=
  { n := 3, k := 3
    color := fun v => if v ≤ 2 then (v : Int) else -1
    classSize := fun c => if 0 ≤ c ∧ c ≤ 2 then 1 else 0
    conflicts := fun _ => 0
    conflictingVertices := []
    conflictingIndex := fun _ => -1
    obj := 5
    floor_size := 1, big_size := 2 }

/-- Configuration that perturbs immediately with strength 1/4. -/
def cfgPerturbQuarter : TabuConfig := ⟨5, 0, 0, 0, 1/4, 1⟩

/-- Configuration that perturbs immediately with strength 1/2. -/
def cfgPerturbHalf : TabuConfig := ⟨10, 0, 0, 0, 1/2, 1⟩

/-- The rng oracle drawing 1, 2, 3, …. -/
def rngSucc : Nat → Nat := fun i => i + 1

/-- The rng oracle drawing 0, 1, 0, 1, …. -/
def rngAlt : Nat → Nat := fun i => i % 2

/-- The never-firing stop criterion. -/
def stopNever : Nat → Bool := fun _ => false

/-- The always-firing stop criterion. -/
def stopNow : Nat → Bool := fun _ => true

/-- The full invariant bundle the solver maintains on every reachable
state: bookkeeping consistency, the `init`-derived size fields, and equity. -/
def GoodFull (I : Instance) (s : SolState) : Prop :=
  Good I s ∧ FieldsOK s ∧ Equity s

/-- What the neighborhood scans guarantee about every candidate they pool:
a transfer moves a conflicting vertex from a `big_size` class to a
`floor_size` class; a swap exchanges a conflicting vertex with a distinct,
differently colored vertex. -/
def CandOK (s : SolState) (m : CandidateMove) : Prop :=
  (m.type = 0 ∧ m.v ∈ s.conflictingVertices ∧ m.target < s.k
    ∧ s.classSize (s.color m.v) = s.big_size
    ∧ s.classSize ((m.target : Nat) : Int) = s.floor_size)
  ∨ (m.type = 1 ∧ m.v ∈ s.conflictingVertices ∧ m.target < s.n
    ∧ m.target ≠ m.v ∧ s.color m.v ≠ s.color m.target)

/-- The loop invariant of the shared greedy placement fold, on the
accumulator `(state, current_r, rng index)`: a partially colored state whose
bookkeeping matches the partial coloring, every class at most one above the
floor, `current_r` counting the classes currently at `floor + 1`, capped by
`max_r`. -/
structure PGreedy (I : Instance) (kk floor_nk max_r : Nat)
    (acc : SolState × Nat × Nat) : Prop where
  n_eq : acc.1.n = I.n
  k_eq : acc.1.k = kk
  k_pos : 0 < kk
  fl : acc.1.floor_size = (floor_nk : Int)
  bg : acc.1.big_size = (floor_nk : Int) + 1
  floordef : floor_nk = I.n / kk
  maxr : max_r = I.n - kk * floor_nk
  conf : ∀ v, acc.1.conflicts v = confSpec I acc.1.color v
  objEq : 2 * acc.1.obj = objSpec I acc.1.color
  sizes : ∀ c : Int, 0 ≤ c → acc.1.classSize c = sizeSpec I acc.1.color c
  sizeneg : ∀ c : Int, c < 0 → acc.1.classSize c = 0
  colors : ∀ v, acc.1.color v = -1 ∨ (0 ≤ acc.1.color v ∧ acc.1.color v < (kk : Int))
  colout : ∀ v, I.n ≤ v → acc.1.color v = -1
  lw : ListWF acc.1
  mem : MemOK acc.1
  bound : ∀ c : Int, 0 ≤ c → acc.1.classSize c ≤ (floor_nk : Int) + 1
  rcount : acc.2.1 = ((Finset.range kk).filter
      (fun c : Nat => acc.1.classSize (c : Int) = (floor_nk : Int) + 1)).card
  rmax : acc.2.1 ≤ max_r

/-- Step 3 of `construct_greedy_from_previous`: transfer one surviving
vertex to its remapped color, counting class sizes. -/
def warm_transfer_step (prev : SolState) (removed : Int) (cmap : Int → Int)
    (t : SolState) (v : Nat) : SolState :=
  let old_c := prev.color v
  if old_c = removed then t
  else
    let nc := cmap old_c
    { t with
      color := updF t.color v nc
      classSize := updF t.classSize nc (t.classSize nc + 1) }

/-- Step 4 of `construct_greedy_from_previous`: inherit the conflict counter
of one vertex, fixing the objective and the conflicting-vertex list. -/
def warm_fix_step (I : Instance) (prev : SolState) (removed : Int)
    (t : SolState) (v : Nat) : SolState :=
  if prev.color v = removed then
    let newObj := (I.adj v).foldl
      (fun o u => if v < u ∧ prev.color u = removed then o - 1 else o) t.obj
    let t1 := if 0 < prev.conflicts v then { t with obj := newObj } else t
    { t1 with
      conflicts := updF t1.conflicts v 0
      conflictingIndex := updF t1.conflictingIndex v (-1) }
  else
    let t1 := { t with conflicts := updF t.conflicts v (prev.conflicts v) }
    if 0 < t1.conflicts v then
      { t1 with
        conflictingIndex := updF t1.conflictingIndex v (t1.conflictingVertices.length : Int)
        conflictingVertices := t1.conflictingVertices ++ [v] }
    else
      { t1 with conflictingIndex := updF t1.conflictingIndex v (-1) }

/-- The removed color of the warm start: the last entry of the shuffled
color permutation. -/
def warm_removed (prev : SolState) (perm : List Nat) : Int :=
  ((perm.getD (prev.k - 1) 0 : Nat) : Int)

/-- The state of the warm start after step 3 (surviving colors transferred). -/
def warm_s1 (I : Instance) (k : Nat) (prev : SolState) (perm : List Nat) : SolState :=
  (List.range I.n).foldl
    (warm_transfer_step prev (warm_removed prev perm) (colorMapOf perm prev.k))
    (initState I k)

/-- The state of the warm start after step 4 (conflicts inherited, objective
fixed, conflicting-vertex list rebuilt). -/
def warm_s3 (I : Instance) (k : Nat) (prev : SolState) (perm : List Nat) : SolState :=
  (List.range I.n).foldl (warm_fix_step I prev (warm_removed prev perm))
    { warm_s1 I k prev perm with obj := prev.obj }

/-- The recount of `current_r` before the warm start resumes the greedy. -/
def warm_r0 (I : Instance) (k : Nat) (prev : SolState) (perm : List Nat) : Nat :=
  (List.range k).foldl
    (fun (r c : Nat) =>
      if ((I.n / k : Nat) : Int) + 1 ≤ (warm_s3 I k prev perm).classSize ((c : Nat) : Int)
      then r + 1 else r) 0

/-! ## Basic lemmas -/

theorem updF_self {α β : Type} [DecidableEq α] (f : α → β) (i : α) (x : β) :
    updF f i x i = x := by
  simp [updF]

theorem updF_ne {α β : Type} [DecidableEq α] (f : α → β) (i : α) (x : β)
    {j : α} (h : j ≠ i) : updF f i x j = f j := by
  simp [updF, h]

theorem updF_apply {α β : Type} [DecidableEq α] (f : α → β) (i : α) (x : β) (j : α) :
    updF f i x j = if j = i then x else f j := rfl

theorem get?_concat {α : Type} (l : List α) (a : α) (i : Nat) :
    (l ++ [a]).get? i =
      if i < l.length then l.get? i else if i = l.length then some a else none := by
  rcases Nat.lt_trichotomy i l.length with h | h | h
  · rw [List.get?_append h, if_pos h]
  · subst h
    simpa using List.get?_concat_length l a
  · rw [if_neg (by omega), if_neg (by omega)]
    rw [List.get?_eq_none]
    simp
    omega

theorem get?_set_dropLast {α : Type} (l : List α) (p : Nat) (b : α) (i : Nat) :
    ((l.set p b).dropLast).get? i =
      if i < l.length - 1 then (if p = i then l.get? i |>.map (fun _ => b) else l.get? i)
      else none := by
  rw [List.dropLast_eq_take]
  by_cases hi : i < l.length - 1
  · rw [List.length_set, List.get?_take (by omega), if_pos hi]
    by_cases hp : p = i
    · subst hp
      rw [List.get?_set_eq, if_pos rfl]
      rfl
    · rw [List.get?_set_ne _ _ hp, if_neg hp]
  · rw [if_neg hi, List.get?_eq_none]
    simp [List.length_take, List.length_set]
    omega

theorem mem_iff_exists_get? {α : Type} (l : List α) (a : α) :
    a ∈ l ↔ ∃ i, l.get? i = some a := List.mem_iff_get?

/-! ## Correctness of `update_conflict_status` -/

theorem listwf_not_mem {s : SolState} (hlw : ListWF s) {x : Nat}
    (h : s.conflictingIndex x = -1) : x ∉ s.conflictingVertices := by
  intro hx
  rcases (mem_iff_exists_get? _ _).1 hx with ⟨i, hi⟩
  have := (hlw.idx_of x i).1 hi
  omega

theorem listwf_mem {s : SolState} (hlw : ListWF s) {x : Nat}
    (h : s.conflictingIndex x ≠ -1) : x ∈ s.conflictingVertices := by
  by_contra hx
  exact h (hlw.idx_neg x hx)

theorem append_case_idx (l : List Nat) (idx : Nat → Int) (x : Nat)
    (hwf : ∀ (y i : Nat), l.get? i = some y ↔ idx y = (i : Int))
    (hneg : ∀ y, y ∉ l → idx y = -1)
    (hx : idx x = -1) :
    (∀ (y i : Nat), (l ++ [x]).get? i = some y ↔ updF idx x (l.length : Int) y = (i : Int))
    ∧ (∀ y, y ∉ l ++ [x] → updF idx x (l.length : Int) y = -1)
    ∧ (∀ y, y ∈ l ++ [x] ↔ (y ∈ l ∨ y = x)) := by
  have hxl : x ∉ l := by
    intro hmem
    rcases (mem_iff_exists_get? _ _).1 hmem with ⟨i, hi⟩
    have := (hwf x i).1 hi
    omega
  refine ⟨?_, ?_, ?_⟩
  · intro y i
    rw [get?_concat]
    by_cases hyx : y = x
    · subst hyx
      rw [updF_self]
      constructor
      · intro hget
        split at hget
        · exact absurd ((hwf y i).1 hget) (by omega)
        · split at hget
          · omega
          · exact absurd hget (by simp)
      · intro hi
        have : i = l.length := by omega
        subst this
        rw [if_neg (by omega), if_pos rfl]
    · rw [updF_ne _ _ _ hyx]
      constructor
      · intro hget
        split at hget
        · exact (hwf y i).1 hget
        · split at hget
          · simp at hget
            exact absurd hget.symm hyx
          · exact absurd hget (by simp)
      · intro hi
        have hlt : i < l.length := by
          have := (hwf y i).2 hi
          have := List.get?_eq_some.1 this
          exact this.1
        rw [if_pos hlt]
        exact (hwf y i).2 hi
  · intro y hy
    have hyl : y ∉ l := fun h => hy (List.mem_append_left _ h)
    have hyx : y ≠ x := by
      intro h
      exact hy (by simp [h])
    rw [updF_ne _ _ _ hyx]
    exact hneg y hyl
  · intro y
    simp

theorem remove_case_idx (l : List Nat) (idx : Nat → Int) (x : Nat)
    (hwf : ∀ (y i : Nat), l.get? i = some y ↔ idx y = (i : Int))
    (hneg : ∀ y, y ∉ l → idx y = -1)
    (hx : idx x ≠ -1) :
    (∀ (y i : Nat), ((l.set (idx x).toNat ((l.getLast?).getD 0)).dropLast).get? i = some y ↔
        (if y = x then (-1 : Int)
          else if y = (l.getLast?).getD 0 then ((idx x).toNat : Int) else idx y) = (i : Int))
    ∧ (∀ y, y ∉ (l.set (idx x).toNat ((l.getLast?).getD 0)).dropLast →
        (if y = x then (-1 : Int)
          else if y = (l.getLast?).getD 0 then ((idx x).toNat : Int) else idx y) = -1)
    ∧ (∀ y, y ∈ (l.set (idx x).toNat ((l.getLast?).getD 0)).dropLast ↔ (y ∈ l ∧ y ≠ x)) := by
  have hmem : x ∈ l := by
    by_contra h
    exact hx (hneg x h)
  have hpos : 0 < l.length := List.length_pos.2 (List.ne_nil_of_mem hmem)
  obtain ⟨i0, hi0⟩ := (mem_iff_exists_get? l x).1 hmem
  have hidx0 : idx x = (i0 : Int) := (hwf x i0).1 hi0
  have hp : (idx x).toNat = i0 := by omega
  have hi0lt : i0 < l.length := (List.get?_eq_some.1 hi0).1
  set b := (l.getLast?).getD 0 with hbdef
  have hbget : l.get? (l.length - 1) = some b := by
    rcases e : l.get? (l.length - 1) with _ | b0
    · rw [List.get?_eq_none] at e
      omega
    · have h1 := List.getLast?_eq_get? l
      rw [hbdef, h1, e]
      rfl
  have hidxb : idx b = ((l.length - 1 : Nat) : Int) := (hwf b _).1 hbget
  rw [hp]
  have hchar : ∀ (y i : Nat), ((l.set i0 b).dropLast).get? i = some y ↔
      (i < l.length - 1 ∧ ((i0 = i ∧ y = b) ∨ (i0 ≠ i ∧ l.get? i = some y))) := by
    intro y i
    rw [get?_set_dropLast]
    by_cases h1 : i < l.length - 1
    · rw [if_pos h1]
      by_cases h2 : i0 = i
      · rw [if_pos h2, ← h2, hi0]
        simp [h1, h2, eq_comm]
      · rw [if_neg h2]
        simp [h1, h2]
    · rw [if_neg h1]
      simp [h1]
  refine ⟨?_, ?_, ?_⟩
  · intro y i
    rw [hchar]
    by_cases hyx : y = x
    · subst hyx
      rw [if_pos rfl]
      constructor
      · rintro ⟨hilt, ⟨hii, hyb⟩ | ⟨hii, hget⟩⟩
        · -- y = x = b forces i0 = length - 1, contradicting i < length - 1
          have := hwf y (l.length - 1) |>.1 (hyb ▸ hbget)
          omega
        · have := (hwf y i).1 hget
          omega
      · intro h
        omega
    · rw [if_neg hyx]
      by_cases hyb : y = b
      · rw [if_pos hyb]
        have hi0ne : i0 ≠ l.length - 1 := by
          intro h
          rw [h, hbget] at hi0
          injection hi0 with hbx
          exact hyx (hyb.trans hbx)
        constructor
        · rintro ⟨hilt, ⟨hii, _⟩ | ⟨hii, hget⟩⟩
          · omega
          · have hidy := (hwf y i).1 hget
            rw [hyb] at hidy
            omega
        · intro h
          have : i = i0 := by omega
          subst this
          exact ⟨by omega, Or.inl ⟨rfl, hyb⟩⟩
      · rw [if_neg hyb]
        constructor
        · rintro ⟨hilt, ⟨hii, hyb'⟩ | ⟨hii, hget⟩⟩
          · exact absurd hyb' hyb
          · exact (hwf y i).1 hget
        · intro h
          have hget : l.get? i = some y := (hwf y i).2 h
          have hilt : i < l.length := (List.get?_eq_some.1 hget).1
          have hii0 : i0 ≠ i := by
            intro he
            rw [← he, hi0] at hget
            injection hget with hxy
            exact hyx hxy.symm
          have hine : i ≠ l.length - 1 := by
            intro he
            rw [he, hbget] at hget
            injection hget with hby
            exact hyb hby.symm
          exact ⟨by omega, Or.inr ⟨hii0, hget⟩⟩
  · intro y hy
    by_cases hyx : y = x
    · rw [if_pos hyx]
    · rw [if_neg hyx]
      by_cases hyb : y = b
      · exfalso
        have hi0ne : i0 ≠ l.length - 1 := by
          intro h
          rw [h, hbget] at hi0
          injection hi0 with hbx
          exact hyx (hyb.trans hbx)
        exact hy ((mem_iff_exists_get? _ _).2 ⟨i0, (hchar y i0).2 ⟨by omega, Or.inl ⟨rfl, hyb⟩⟩⟩)
      · rw [if_neg hyb]
        apply hneg
        intro hyl
        obtain ⟨i, hget⟩ := (mem_iff_exists_get? l y).1 hyl
        have hilt : i < l.length := (List.get?_eq_some.1 hget).1
        have hii0 : i0 ≠ i := by
          intro he
          rw [← he, hi0] at hget
          injection hget with hxy
          exact hyx hxy.symm
        have hine : i ≠ l.length - 1 := by
          intro he
          rw [he, hbget] at hget
          injection hget with hby
          exact hyb hby.symm
        exact hy ((mem_iff_exists_get? _ _).2 ⟨i, (hchar y i).2 ⟨by omega, Or.inr ⟨hii0, hget⟩⟩⟩)
  · intro y
    constructor
    · intro hy
      obtain ⟨i, hget⟩ := (mem_iff_exists_get? _ _).1 hy
      obtain ⟨hilt, ⟨hii, hyb⟩ | ⟨hii, hget'⟩⟩ := (hchar y i).1 hget
      · refine ⟨hyb ▸ (mem_iff_exists_get? l _).2 ⟨l.length - 1, hbget⟩, ?_⟩
        intro he
        have hbx : idx b = (i0 : Int) := by
          rw [← hyb, he, hidx0]
        omega
      · refine ⟨(mem_iff_exists_get? l _).2 ⟨i, hget'⟩, ?_⟩
        intro he
        rw [he] at hget'
        have := (hwf x i).1 hget'
        omega
    · rintro ⟨hyl, hyx⟩
      obtain ⟨i, hget⟩ := (mem_iff_exists_get? l y).1 hyl
      have hilt : i < l.length := (List.get?_eq_some.1 hget).1
      have hii0 : i0 ≠ i := by
        intro he
        rw [← he, hi0] at hget
        injection hget with hxy
        exact hyx hxy.symm
      by_cases hine : i = l.length - 1
      · have hyb : y = b := by
          rw [hine, hbget] at hget
          injection hget with hby
          exact hby.symm
        have hi0ne : i0 ≠ l.length - 1 := by omega
        exact (mem_iff_exists_get? _ _).2 ⟨i0, (hchar y i0).2 ⟨by omega, Or.inl ⟨rfl, hyb⟩⟩⟩
      · exact (mem_iff_exists_get? _ _).2 ⟨i, (hchar y i).2 ⟨by omega, Or.inr ⟨hii0, hget⟩⟩⟩

theorem ucs_fields (s : SolState) (x : Nat) :
    (update_conflict_status s x).n = s.n ∧
    (update_conflict_status s x).k = s.k ∧
    (update_conflict_status s x).color = s.color ∧
    (update_conflict_status s x).classSize = s.classSize ∧
    (update_conflict_status s x).conflicts = s.conflicts ∧
    (update_conflict_status s x).obj = s.obj ∧
    (update_conflict_status s x).floor_size = s.floor_size ∧
    (update_conflict_status s x).big_size = s.big_size := by
  unfold update_conflict_status
  split
  · split
    · exact ⟨rfl, rfl, rfl, rfl, rfl, rfl, rfl, rfl⟩
    · exact ⟨rfl, rfl, rfl, rfl, rfl, rfl, rfl, rfl⟩
  · split
    · exact ⟨rfl, rfl, rfl, rfl, rfl, rfl, rfl, rfl⟩
    · exact ⟨rfl, rfl, rfl, rfl, rfl, rfl, rfl, rfl⟩

theorem ucs_wf (s : SolState) (x : Nat) (hlw : ListWF s)
    (hmem : ∀ y, y ≠ x → (y ∈ s.conflictingVertices ↔ 0 < s.conflicts y)) :
    ListWF (update_conflict_status s x) ∧ MemOK (update_conflict_status s x) := by
  unfold update_conflict_status
  by_cases hpos : 0 < s.conflicts x
  · rw [if_pos hpos]
    by_cases hidx : s.conflictingIndex x = -1
    · rw [if_pos hidx]
      obtain ⟨h1, h2, h3⟩ := append_case_idx s.conflictingVertices s.conflictingIndex x
        hlw.idx_of hlw.idx_neg hidx
      refine ⟨⟨h1, h2⟩, ?_⟩
      intro y
      dsimp only
      rw [h3]
      by_cases hyx : y = x
      · subst hyx
        simp [hpos]
      · simp [hyx, hmem y hyx]
    · rw [if_neg hidx]
      refine ⟨hlw, ?_⟩
      intro y
      by_cases hyx : y = x
      · subst hyx
        simp [listwf_mem hlw hidx, hpos]
      · exact hmem y hyx
  · rw [if_neg hpos]
    by_cases hidx : s.conflictingIndex x = -1
    · rw [if_pos hidx]
      refine ⟨hlw, ?_⟩
      intro y
      by_cases hyx : y = x
      · subst hyx
        simp [listwf_not_mem hlw hidx, hpos]
      · exact hmem y hyx
    · rw [if_neg hidx]
      obtain ⟨h1, h2, h3⟩ := remove_case_idx s.conflictingVertices s.conflictingIndex x
        hlw.idx_of hlw.idx_neg hidx
      refine ⟨⟨h1, h2⟩, ?_⟩
      intro y
      dsimp only
      rw [h3]
      by_cases hyx : y = x
      · subst hyx
        simp [hpos]
      · simp [hyx, hmem y hyx]

/-! ## Counting helpers -/

theorem countP_updF (l : List Nat) (c : Nat → Int) (v : Nat) (a : Int) (p : Int → Bool) :
    ((l.countP (fun u => p (updF c v a u))) : Int)
      = (l.countP (fun u => p (c u)) : Int)
        + (l.count v : Int) * ((if p a then 1 else 0) - (if p (c v) then 1 else 0)) := by
  induction l with
  | nil => simp
  | cons u t ih =>
    simp only [List.countP_cons, List.count_cons]
    push_cast
    rw [ih]
    by_cases huv : u = v
    · subst huv
      rw [updF_self]
      have hbv : (u == u) = true := beq_self_eq_true u
      simp only [hbv, if_true]
      split_ifs <;> ring
    · rw [updF_ne _ _ _ huv]
      have hbv : (u == v) = false := beq_eq_false_iff_ne.2 huv
      simp only [hbv, Bool.false_eq_true, if_false]
      split_ifs <;> ring

theorem sum_count_indicator (n : Nat) (l : List Nat) (hl : ∀ u ∈ l, u < n) (p : Nat → Bool) :
    (∑ x ∈ Finset.range n, (l.count x : Int) * (if p x then 1 else 0))
      = (l.countP p : Int) := by
  induction l with
  | nil => simp
  | cons u t ih =>
    have hu : u < n := hl u (by simp)
    have ht : ∀ w ∈ t, w < n := fun w hw => hl w (by simp [hw])
    rw [List.countP_cons]
    push_cast
    have hsplit : ∀ x, ((u :: t).count x : Int) * (if p x then 1 else 0)
        = (t.count x : Int) * (if p x then 1 else 0)
          + (if x = u then (if p u then 1 else 0) else 0) := by
      intro x
      rw [List.count_cons]
      by_cases hxu : x = u
      · subst hxu
        simp
        by_cases hpx : p x <;> simp [hpx]
      · have : (u == x) = false := by
          simp [Ne.symm hxu]
        simp [this, hxu]
    calc (∑ x ∈ Finset.range n, ((u :: t).count x : Int) * (if p x then 1 else 0))
        = ∑ x ∈ Finset.range n, ((t.count x : Int) * (if p x then 1 else 0)
            + (if x = u then (if p u then 1 else 0) else 0)) := by
          exact Finset.sum_congr rfl (fun x _ => hsplit x)
      _ = (t.countP p : Int) + (if p u then 1 else 0) := by
          rw [Finset.sum_add_distrib, ih ht, Finset.sum_ite_eq' (Finset.range n) u]
          simp [Finset.mem_range.2 hu]
      _ = (t.countP p : Int) + (if p u = true then 1 else 0) := by norm_num

/-! ## `apply_move` characterization -/

theorem conflictAdjStep_spec (δ cc : Int) (v : Nat) (t : SolState) (u : Nat)
    (hlw : ListWF t) (hmem : MemOK t) :
    ((conflictAdjStep δ cc v t u).n = t.n
      ∧ (conflictAdjStep δ cc v t u).k = t.k
      ∧ (conflictAdjStep δ cc v t u).color = t.color
      ∧ (conflictAdjStep δ cc v t u).classSize = t.classSize
      ∧ (conflictAdjStep δ cc v t u).floor_size = t.floor_size
      ∧ (conflictAdjStep δ cc v t u).big_size = t.big_size)
    ∧ (conflictAdjStep δ cc v t u).obj = t.obj + (if t.color u = cc then δ else 0)
    ∧ (∀ x, (conflictAdjStep δ cc v t u).conflicts x
        = t.conflicts x + (if t.color u = cc then
            ((if x = v then δ else 0) + (if x = u then δ else 0)) else 0))
    ∧ ListWF (conflictAdjStep δ cc v t u) ∧ MemOK (conflictAdjStep δ cc v t u) := by
  unfold conflictAdjStep
  by_cases hc : t.color u = cc
  · rw [if_pos hc]
    set t1 : SolState :=
      { t with obj := t.obj + δ, conflicts := updF t.conflicts v (t.conflicts v + δ) } with ht1
    have h1 := ucs_fields t1 v
    have hwf1 : ListWF t1 := by
      constructor
      · exact hlw.idx_of
      · exact hlw.idx_neg
    have hmem1 : ∀ y, y ≠ v → (y ∈ t1.conflictingVertices ↔ 0 < t1.conflicts y) := by
      intro y hy
      show y ∈ t.conflictingVertices ↔ 0 < updF t.conflicts v (t.conflicts v + δ) y
      rw [updF_ne _ _ _ hy]
      exact hmem y
    obtain ⟨hwA, hmemA⟩ := ucs_wf t1 v hwf1 hmem1
    set a := update_conflict_status t1 v with ha
    set a1 : SolState := { a with conflicts := updF a.conflicts u (a.conflicts u + δ) } with ha1
    have hwfA1 : ListWF a1 := ⟨hwA.idx_of, hwA.idx_neg⟩
    have hmemA1 : ∀ y, y ≠ u → (y ∈ a1.conflictingVertices ↔ 0 < a1.conflicts y) := by
      intro y hy
      show y ∈ a.conflictingVertices ↔ 0 < updF a.conflicts u (a.conflicts u + δ) y
      rw [updF_ne _ _ _ hy]
      exact hmemA y
    obtain ⟨hwB, hmemB⟩ := ucs_wf a1 u hwfA1 hmemA1
    have h2 := ucs_fields a1 u
    have haconf : a.conflicts = updF t.conflicts v (t.conflicts v + δ) := h1.2.2.2.2.1
    refine ⟨⟨?_, ?_, ?_, ?_, ?_, ?_⟩, ?_, ?_, hwB, hmemB⟩
    · rw [h2.1]; exact h1.1
    · rw [h2.2.1]; exact h1.2.1
    · rw [h2.2.2.1]; exact h1.2.2.1
    · rw [h2.2.2.2.1]; exact h1.2.2.2.1
    · rw [h2.2.2.2.2.2.2.1]; exact h1.2.2.2.2.2.2.1
    · rw [h2.2.2.2.2.2.2.2]; exact h1.2.2.2.2.2.2.2
    · rw [h2.2.2.2.2.2.1]
      have : a.obj = t1.obj := h1.2.2.2.2.2.1
      rw [this, if_pos hc]
    · intro x
      rw [h2.2.2.2.2.1]
      show updF a.conflicts u (a.conflicts u + δ) x = _
      rw [haconf, if_pos hc]
      unfold updF
      by_cases hxu : x = u <;> by_cases hxv : x = v
      · subst hxu
        subst hxv
        split_ifs <;> omega
      · subst hxu
        split_ifs <;> omega
      · subst hxv
        split_ifs <;> omega
      · split_ifs <;> omega
  · rw [if_neg hc]
    refine ⟨⟨rfl, rfl, rfl, rfl, rfl, rfl⟩, by simp [hc], ?_, hlw, hmem⟩
    intro x
    simp [hc]

theorem count_cons_int (x u : Nat) (l : List Nat) :
    (((u :: l).count x : Nat) : Int) = (l.count x : Int) + (if x = u then 1 else 0) := by
  rw [List.count_cons]
  push_cast
  by_cases h : x = u
  · subst h
    simp
  · have hb : (u == x) = false := beq_eq_false_iff_ne.2 (Ne.symm h)
    simp [hb, h]

theorem countP_cons_int (p : Nat → Bool) (u : Nat) (l : List Nat) :
    (((u :: l).countP p : Nat) : Int) = (l.countP p : Int) + (if p u then 1 else 0) := by
  rw [List.countP_cons]
  push_cast
  rfl

theorem conflictAdjLoop_spec (δ cc : Int) (v : Nat) (l : List Nat) :
    ∀ (t : SolState), ListWF t → MemOK t →
      ((l.foldl (conflictAdjStep δ cc v) t).n = t.n
        ∧ (l.foldl (conflictAdjStep δ cc v) t).k = t.k
        ∧ (l.foldl (conflictAdjStep δ cc v) t).color = t.color
        ∧ (l.foldl (conflictAdjStep δ cc v) t).classSize = t.classSize
        ∧ (l.foldl (conflictAdjStep δ cc v) t).floor_size = t.floor_size
        ∧ (l.foldl (conflictAdjStep δ cc v) t).big_size = t.big_size)
      ∧ (l.foldl (conflictAdjStep δ cc v) t).obj
          = t.obj + δ * (l.countP (fun w => t.color w == cc) : Int)
      ∧ (∀ x, (l.foldl (conflictAdjStep δ cc v) t).conflicts x
          = t.conflicts x
            + δ * ((if x = v then (l.countP (fun w => t.color w == cc) : Int) else 0)
              + ((l.filter (fun w => t.color w == cc)).count x : Int)))
      ∧ ListWF (l.foldl (conflictAdjStep δ cc v) t)
      ∧ MemOK (l.foldl (conflictAdjStep δ cc v) t) := by
  induction l with
  | nil =>
    intro t hlw hmem
    refine ⟨⟨rfl, rfl, rfl, rfl, rfl, rfl⟩, by simp, ?_, hlw, hmem⟩
    intro x
    simp
  | cons u rest ih =>
    intro t hlw hmem
    rw [List.foldl_cons]
    obtain ⟨hfields, hobj, hconf, hlw1, hmem1⟩ := conflictAdjStep_spec δ cc v t u hlw hmem
    obtain ⟨hfields2, hobj2, hconf2, hlw2, hmem2⟩ :=
      ih (conflictAdjStep δ cc v t u) hlw1 hmem1
    have hcolor := hfields.2.2.1
    refine ⟨⟨hfields2.1.trans hfields.1, hfields2.2.1.trans hfields.2.1,
        hfields2.2.2.1.trans hfields.2.2.1, hfields2.2.2.2.1.trans hfields.2.2.2.1,
        hfields2.2.2.2.2.1.trans hfields.2.2.2.2.1,
        hfields2.2.2.2.2.2.trans hfields.2.2.2.2.2⟩, ?_, ?_, hlw2, hmem2⟩
    · rw [hcolor] at hobj2
      rw [hobj2, hobj, countP_cons_int]
      by_cases hP : t.color u = cc
      · have hb : (t.color u == cc) = true := beq_iff_eq.2 hP
        simp only [hb, eq_self_iff_true, if_true, if_pos hP]
        ring
      · have hb : (t.color u == cc) = false := beq_eq_false_iff_ne.2 hP
        simp only [hb, Bool.false_eq_true, if_false, if_neg hP]
        ring
    · intro x
      have h2 := hconf2 x
      rw [hcolor] at h2
      rw [h2, hconf x, List.filter_cons, countP_cons_int]
      by_cases hP : t.color u = cc
      · have hb : (t.color u == cc) = true := beq_iff_eq.2 hP
        simp only [hb, eq_self_iff_true, if_true, if_pos hP, count_cons_int]
        split_ifs <;> ring
      · have hb : (t.color u == cc) = false := beq_eq_false_iff_ne.2 hP
        simp only [hb, Bool.false_eq_true, if_false, if_neg hP]
        split_ifs <;> ring

theorem apply_move_spec (I : Instance) (s : SolState) (v : Nat) (new_c : Int)
    (hlw : ListWF s) (hmem : MemOK s) :
    ((apply_move I s v new_c).n = s.n
      ∧ (apply_move I s v new_c).k = s.k
      ∧ (apply_move I s v new_c).floor_size = s.floor_size
      ∧ (apply_move I s v new_c).big_size = s.big_size)
    ∧ (apply_move I s v new_c).color = updF s.color v new_c
    ∧ (apply_move I s v new_c).classSize
        = updF (updF s.classSize (s.color v) (s.classSize (s.color v) - 1)) new_c
            ((updF s.classSize (s.color v) (s.classSize (s.color v) - 1)) new_c + 1)
    ∧ (apply_move I s v new_c).obj
        = s.obj - ((I.adj v).countP (fun u => updF s.color v new_c u == s.color v) : Int)
            + ((I.adj v).countP (fun u => updF s.color v new_c u == new_c) : Int)
    ∧ (∀ x, (apply_move I s v new_c).conflicts x
        = s.conflicts x
          - ((if x = v then
                ((I.adj v).countP (fun u => updF s.color v new_c u == s.color v) : Int) else 0)
            + (((I.adj v).filter (fun u => updF s.color v new_c u == s.color v)).count x : Int))
          + ((if x = v then
                ((I.adj v).countP (fun u => updF s.color v new_c u == new_c) : Int) else 0)
            + (((I.adj v).filter (fun u => updF s.color v new_c u == new_c)).count x : Int)))
    ∧ ListWF (apply_move I s v new_c) ∧ MemOK (apply_move I s v new_c) := by
  have hs0lw : ListWF ({ s with
      color := updF s.color v new_c
      classSize := updF (updF s.classSize (s.color v) (s.classSize (s.color v) - 1)) new_c
        ((updF s.classSize (s.color v) (s.classSize (s.color v) - 1)) new_c + 1) } : SolState) :=
    ⟨hlw.idx_of, hlw.idx_neg⟩
  have hs0mem : MemOK ({ s with
      color := updF s.color v new_c
      classSize := updF (updF s.classSize (s.color v) (s.classSize (s.color v) - 1)) new_c
        ((updF s.classSize (s.color v) (s.classSize (s.color v) - 1)) new_c + 1) } : SolState) :=
    hmem
  obtain ⟨hf1, hobj1, hconf1, hlw1, hmem1⟩ :=
    conflictAdjLoop_spec (-1) (s.color v) v (I.adj v) _ hs0lw hs0mem
  obtain ⟨hf2, hobj2, hconf2, hlw2, hmem2⟩ :=
    conflictAdjLoop_spec 1 new_c v (I.adj v) _ hlw1 hmem1
  have hr : apply_move I s v new_c
      = (I.adj v).foldl (conflictAdjStep 1 new_c v)
          ((I.adj v).foldl (conflictAdjStep (-1) (s.color v) v) ({ s with
            color := updF s.color v new_c
            classSize := updF (updF s.classSize (s.color v) (s.classSize (s.color v) - 1)) new_c
              ((updF s.classSize (s.color v) (s.classSize (s.color v) - 1)) new_c + 1) } :
              SolState)) := rfl
  have hc1 : (List.foldl (conflictAdjStep (-1) (s.color v) v) ({ s with
      color := updF s.color v new_c
      classSize := updF (updF s.classSize (s.color v) (s.classSize (s.color v) - 1)) new_c
        ((updF s.classSize (s.color v) (s.classSize (s.color v) - 1)) new_c + 1) } : SolState)
      (I.adj v)).color = updF s.color v new_c := hf1.2.2.1
  refine ⟨⟨?_, ?_, ?_, ?_⟩, ?_, ?_, ?_, ?_, ?_, ?_⟩
  · rw [hr]; exact hf2.1.trans hf1.1
  · rw [hr]; exact hf2.2.1.trans hf1.2.1
  · rw [hr]; exact hf2.2.2.2.2.1.trans hf1.2.2.2.2.1
  · rw [hr]; exact hf2.2.2.2.2.2.trans hf1.2.2.2.2.2
  · rw [hr]; exact hf2.2.2.1.trans hc1
  · rw [hr]; exact hf2.2.2.2.1.trans hf1.2.2.2.1
  · rw [hr, hobj2, hobj1, hc1]
    show s.obj + _ + _ = _
    ring
  · intro x
    rw [hr, hconf2 x, hconf1 x, hc1]
    show s.conflicts x + _ + _ = _
    ring
  · rw [hr]; exact hlw2
  · rw [hr]; exact hmem2
/-! ## Graph-level counting lemmas -/

theorem adj_out (I : Instance) (hG : GoodInst I) (v : Nat) (hv : I.n ≤ v) : I.adj v = [] := by
  rw [List.eq_nil_iff_forall_not_mem]
  intro u hu
  have h1 : 0 < (I.adj v).count u := List.count_pos_iff.2 hu
  rw [hG.sym v u] at h1
  have := hG.adj_lt u v (List.count_pos_iff.1 h1)
  omega

theorem confSpec_out (I : Instance) (hG : GoodInst I) (colorf : Nat → Int) (v : Nat)
    (hv : I.n ≤ v) : confSpec I colorf v = 0 := by
  unfold confSpec
  rw [adj_out I hG v hv]
  simp

theorem countP_adj_updF (I : Instance) (hG : GoodInst I) (s0 : Nat → Int) (v : Nat) (a c : Int) :
    (I.adj v).countP (fun u => updF s0 v a u == c) = (I.adj v).countP (fun u => s0 u == c) := by
  apply List.countP_congr
  intro u hu
  have huv : u ≠ v := fun h => hG.irrefl v (h ▸ hu)
  rw [updF_ne _ _ _ huv]

theorem count_filter_ite (p : Nat → Bool) (l : List Nat) (a : Nat) :
    (l.filter p).count a = if p a then l.count a else 0 := by
  by_cases h : p a
  · rw [List.count_filter h, if_pos h]
  · rw [if_neg h, List.count_eq_zero_of_not_mem]
    intro hmem
    exact h (List.of_mem_filter hmem)

theorem countP_updF_beq (l : List Nat) (c : Nat → Int) (v : Nat) (a w : Int) :
    ((l.countP (fun u => updF c v a u == w)) : Int)
      = (l.countP (fun u => c u == w) : Int)
        + (l.count v : Int) * ((if a == w then 1 else 0) - (if c v == w then 1 else 0)) :=
  countP_updF l c v a (fun z => z == w)

theorem count_range_int (n v : Nat) (hv : v < n) : (((List.range n).count v : Nat) : Int) = 1 := by
  rw [List.count_eq_one_of_mem (List.nodup_range n) (List.mem_range.2 hv)]
  norm_num

theorem sizeSpec_updF (I : Instance) (colorf : Nat → Int) (v : Nat) (a : Int) (hv : v < I.n)
    (c : Int) :
    sizeSpec I (updF colorf v a) c
      = sizeSpec I colorf c + (if a == c then 1 else 0) - (if colorf v == c then 1 else 0) := by
  unfold sizeSpec
  rw [countP_updF_beq (List.range I.n) colorf v a c, count_range_int I.n v hv]
  ring

theorem confSpec_updF_ne (I : Instance) (colorf : Nat → Int) (v x : Nat)
    (a : Int) (hx : x ≠ v) :
    confSpec I (updF colorf v a) x
      = confSpec I colorf x
        + (if colorf x = -1 then 0 else
            ((I.adj x).count v : Int)
              * ((if a == colorf x then 1 else 0) - (if colorf v == colorf x then 1 else 0))) := by
  unfold confSpec
  rw [updF_ne _ _ _ hx]
  by_cases hcx : colorf x = -1
  · rw [if_pos hcx, if_pos hcx, if_pos hcx]
    ring
  · rw [if_neg hcx, if_neg hcx, if_neg hcx]
    rw [countP_updF_beq (I.adj x) colorf v a (colorf x)]

theorem confSpec_updF_self (I : Instance) (colorf : Nat → Int) (v : Nat) (a : Int)
    (ha : a ≠ -1) (hvv : v ∉ I.adj v) :
    confSpec I (updF colorf v a) v = ((I.adj v).countP (fun u => colorf u == a) : Int) := by
  unfold confSpec
  rw [updF_self, if_neg ha]
  congr 1
  apply List.countP_congr
  intro u hu
  have huv : u ≠ v := fun h => hvv (h ▸ hu)
  rw [updF_ne _ _ _ huv]

theorem countP_beq_comm (l : List Nat) (c : Nat → Int) (a : Int) :
    l.countP (fun u => a == c u) = l.countP (fun u => c u == a) := by
  apply List.countP_congr
  intro u _
  constructor
  · intro h
    exact beq_iff_eq.2 (beq_iff_eq.1 h).symm
  · intro h
    exact beq_iff_eq.2 (beq_iff_eq.1 h).symm

theorem objSpec_updF (I : Instance) (hG : GoodInst I) (s0 : Nat → Int) (v : Nat) (a : Int)
    (hv : v < I.n) (hvold : s0 v ≠ -1) (ha : a ≠ -1) :
    objSpec I (updF s0 v a)
      = objSpec I s0 - 2 * ((I.adj v).countP (fun u => s0 u == s0 v) : Int)
        + 2 * ((I.adj v).countP (fun u => s0 u == a) : Int) := by
  unfold objSpec
  have hsub : ∀ x ∈ Finset.range I.n,
      confSpec I (updF s0 v a) x
        = confSpec I s0 x
          + (if x = v
              then ((I.adj v).countP (fun u => s0 u == a) : Int)
                   - ((I.adj v).countP (fun u => s0 u == s0 v) : Int)
              else ((I.adj v).count x : Int)
                * ((if a == s0 x then 1 else 0) - (if s0 v == s0 x then 1 else 0))) := by
    intro x _
    by_cases hxv : x = v
    · subst hxv
      rw [if_pos rfl, confSpec_updF_self I s0 x a ha (hG.irrefl x)]
      unfold confSpec
      rw [if_neg hvold]
      ring
    · rw [if_neg hxv, confSpec_updF_ne I s0 v x a hxv]
      congr 1
      by_cases hcx : s0 x = -1
      · rw [if_pos hcx]
        have h1 : (a == s0 x) = false := beq_eq_false_iff_ne.2 (by rw [hcx]; exact ha)
        have h2 : (s0 v == s0 x) = false := beq_eq_false_iff_ne.2 (by rw [hcx]; exact hvold)
        rw [h1, h2]
        simp
      · rw [if_neg hcx, hG.sym x v]
  rw [Finset.sum_congr rfl hsub, Finset.sum_add_distrib]
  have hgv : ((I.adj v).count v : Int) * ((if a == s0 v then 1 else 0)
      - (if s0 v == s0 v then 1 else 0)) = 0 := by
    rw [List.count_eq_zero_of_not_mem (hG.irrefl v)]
    norm_num
  have hsplit : ∀ x ∈ Finset.range I.n,
      (if x = v
        then ((I.adj v).countP (fun u => s0 u == a) : Int)
             - ((I.adj v).countP (fun u => s0 u == s0 v) : Int)
        else ((I.adj v).count x : Int)
          * ((if a == s0 x then 1 else 0) - (if s0 v == s0 x then 1 else 0)))
      = (if x = v
          then ((I.adj v).countP (fun u => s0 u == a) : Int)
               - ((I.adj v).countP (fun u => s0 u == s0 v) : Int)
          else 0)
        + ((I.adj v).count x : Int)
          * ((if a == s0 x then 1 else 0) - (if s0 v == s0 x then 1 else 0)) := by
    intro x _
    by_cases hxv : x = v
    · subst hxv
      rw [if_pos rfl, if_pos rfl, hgv]
      ring
    · rw [if_neg hxv, if_neg hxv]
      ring
  rw [Finset.sum_congr rfl hsplit, Finset.sum_add_distrib]
  have hone : (∑ x ∈ Finset.range I.n,
      (if x = v
        then ((I.adj v).countP (fun u => s0 u == a) : Int)
             - ((I.adj v).countP (fun u => s0 u == s0 v) : Int)
        else 0))
      = ((I.adj v).countP (fun u => s0 u == a) : Int)
        - ((I.adj v).countP (fun u => s0 u == s0 v) : Int) := by
    rw [Finset.sum_ite_eq' (Finset.range I.n) v]
    simp [Finset.mem_range.2 hv]
  have hadj : ∀ u ∈ I.adj v, u < I.n := fun u hu => hG.adj_lt v u hu
  have htwo : (∑ x ∈ Finset.range I.n,
      ((I.adj v).count x : Int)
        * ((if a == s0 x then 1 else 0) - (if s0 v == s0 x then 1 else 0)))
      = ((I.adj v).countP (fun u => s0 u == a) : Int)
        - ((I.adj v).countP (fun u => s0 u == s0 v) : Int) := by
    have hdist : ∀ x ∈ Finset.range I.n,
        ((I.adj v).count x : Int)
          * ((if a == s0 x then 1 else 0) - (if s0 v == s0 x then 1 else 0))
        = ((I.adj v).count x : Int) * (if (fun y => a == s0 y) x then 1 else 0)
          - ((I.adj v).count x : Int) * (if (fun y => s0 v == s0 y) x then 1 else 0) := by
      intro x _
      ring
    rw [Finset.sum_congr rfl hdist, Finset.sum_sub_distrib,
      sum_count_indicator I.n (I.adj v) hadj (fun y => a == s0 y),
      sum_count_indicator I.n (I.adj v) hadj (fun y => s0 v == s0 y),
      countP_beq_comm (I.adj v) s0 a, countP_beq_comm (I.adj v) s0 (s0 v)]
  rw [hone, htwo]
  ring

theorem ite_beq_int (x y : Int) : (if x == y then (1 : Int) else 0) = if x = y then 1 else 0 := by
  by_cases h : x = y <;> simp [h]

theorem apply_move_good (I : Instance) (hG : GoodInst I) (s : SolState) (v : Nat) (new_c : Int)
    (hg : Good I s) (hv : v < I.n) (hnew0 : 0 ≤ new_c) (hnewk : new_c < (s.k : Int)) :
    Good I (apply_move I s v new_c)
    ∧ (apply_move I s v new_c).obj
        = s.obj - ((I.adj v).countP (fun u => s.color u == s.color v) : Int)
          + ((I.adj v).countP (fun u => s.color u == new_c) : Int)
    ∧ (apply_move I s v new_c).n = s.n
    ∧ (apply_move I s v new_c).k = s.k
    ∧ (apply_move I s v new_c).floor_size = s.floor_size
    ∧ (apply_move I s v new_c).big_size = s.big_size
    ∧ (apply_move I s v new_c).color = updF s.color v new_c
    ∧ (apply_move I s v new_c).classSize
        = updF (updF s.classSize (s.color v) (s.classSize (s.color v) - 1)) new_c
            ((updF s.classSize (s.color v) (s.classSize (s.color v) - 1)) new_c + 1) := by
  obtain ⟨⟨hn, hk, hfl, hbg⟩, hcol, hcs, hobj, hconf, hlw2, hmem2⟩ :=
    apply_move_spec I s v new_c hg.lw hg.mem
  have hold0 : s.color v ≠ -1 := by
    have := (hg.colors v hv).1
    omega
  have hnew1 : new_c ≠ -1 := by omega
  have hA := countP_adj_updF I hG s.color v new_c (s.color v)
  have hB := countP_adj_updF I hG s.color v new_c new_c
  have hobj2 : (apply_move I s v new_c).obj
      = s.obj - ((I.adj v).countP (fun u => s.color u == s.color v) : Int)
        + ((I.adj v).countP (fun u => s.color u == new_c) : Int) := by
    rw [hobj, hA, hB]
  have hconf2 : ∀ x, (apply_move I s v new_c).conflicts x
      = confSpec I (updF s.color v new_c) x := by
    intro x
    rw [hconf x]
    by_cases hxv : x = v
    · subst hxv
      rw [if_pos rfl, if_pos rfl]
      have hc1 : (((I.adj x).filter
          (fun u => updF s.color x new_c u == s.color x)).count x : Nat) = 0 :=
        List.count_eq_zero_of_not_mem (fun hm => hG.irrefl x (List.mem_of_mem_filter hm))
      have hc2 : (((I.adj x).filter
          (fun u => updF s.color x new_c u == new_c)).count x : Nat) = 0 :=
        List.count_eq_zero_of_not_mem (fun hm => hG.irrefl x (List.mem_of_mem_filter hm))
      rw [hc1, hc2, hA, hB, hg.conf x, confSpec_updF_self I s.color x new_c hnew1 (hG.irrefl x)]
      unfold confSpec
      rw [if_neg hold0]
      push_cast
      ring
    · rw [if_neg hxv, if_neg hxv, hg.conf x,
        confSpec_updF_ne I s.color v x new_c hxv,
        count_filter_ite, count_filter_ite, updF_ne _ _ _ hxv, hG.sym x v]
      by_cases hcx : s.color x = -1
      · rw [if_pos hcx]
        have h1 : (s.color x == s.color v) = false :=
          beq_eq_false_iff_ne.2 (by rw [hcx]; intro h; exact hold0 h.symm)
        have h2 : (s.color x == new_c) = false :=
          beq_eq_false_iff_ne.2 (by rw [hcx]; intro h; exact hnew1 h.symm)
        rw [h1, h2]
        simp
      · rw [if_neg hcx]
        have e1 : (s.color x == s.color v) = (s.color v == s.color x) := by
          by_cases h : s.color x = s.color v
          · rw [beq_iff_eq.2 h, beq_iff_eq.2 h.symm]
          · rw [beq_eq_false_iff_ne.2 h, beq_eq_false_iff_ne.2 (Ne.symm h)]
        have e2 : (s.color x == new_c) = (new_c == s.color x) := by
          by_cases h : s.color x = new_c
          · rw [beq_iff_eq.2 h, beq_iff_eq.2 h.symm]
          · rw [beq_eq_false_iff_ne.2 h, beq_eq_false_iff_ne.2 (Ne.symm h)]
        rw [e1, e2]
        split_ifs <;> push_cast <;> ring
  refine ⟨?_, hobj2, hn, hk, hfl, hbg, hcol, hcs⟩
  constructor
  · exact hn.trans hg.n_eq
  · rw [hk]
    exact hg.k_pos
  · intro x
    rw [hcol]
    exact hconf2 x
  · rw [hcol, hobj2, objSpec_updF I hG s.color v new_c hv hold0 hnew1, ← hg.objEq]
    ring
  · intro c
    rw [hcs, hcol]
    have hvI : v < I.n := hv
    rw [sizeSpec_updF I s.color v new_c hvI c, ite_beq_int, ite_beq_int]
    rw [updF_apply, updF_apply]
    by_cases h1 : c = new_c
    · rw [if_pos h1]
      by_cases h2 : new_c = s.color v
      · rw [if_pos h2, hg.sizes (s.color v), h1, h2]
        split_ifs <;> omega
      · rw [if_neg h2, hg.sizes new_c, h1]
        split_ifs <;> omega
    · rw [if_neg h1]
      rw [if_neg (fun h => h1 h.symm)]
      rw [updF_apply]
      by_cases h3 : c = s.color v
      · rw [if_pos h3, hg.sizes (s.color v), h3]
        split_ifs <;> omega
      · rw [if_neg h3, hg.sizes c]
        split_ifs <;> omega
  · intro x hx
    rw [hcol, hk, updF_apply]
    by_cases hxv : x = v
    · rw [if_pos hxv]
      exact ⟨hnew0, hnewk⟩
    · rw [if_neg hxv]
      exact hg.colors x hx
  · exact hlw2
  · exact hmem2

/-! ## Values of the delta evaluators -/

theorem countP_ne_and (l : List Nat) (u : Nat) (p : Nat → Bool) :
    ((l.countP (fun w => !(w == u) && p w)) : Int)
      = (l.countP p : Int) - (l.count u : Int) * (if p u then 1 else 0) := by
  induction l with
  | nil => simp
  | cons w t ih =>
    rw [List.countP_cons, List.countP_cons, List.count_cons]
    push_cast
    rw [ih]
    by_cases hwu : w = u
    · subst hwu
      simp only [beq_self_eq_true, Bool.not_true, Bool.false_and,
        Bool.false_eq_true, if_false]
      split_ifs <;> ring
    · have hb : (w == u) = false := beq_eq_false_iff_ne.2 hwu
      have hb2 : (u == w) = false := beq_eq_false_iff_ne.2 (Ne.symm hwu)
      simp only [hb, hb2, Bool.not_false, Bool.true_and, Bool.false_eq_true, if_false]
      split_ifs <;> ring

theorem move_delta_fold (s : SolState) (old_c new_c : Int) (hold : old_c ≠ -1)
    (hnew : new_c ≠ -1) (hne : new_c ≠ old_c) (l : List Nat) :
    ∀ d : Int,
      l.foldl (fun d u =>
        if s.color u = -1 then d
        else if s.color u = old_c then d - 1
        else if s.color u = new_c then d + 1
        else d) d
      = d + (l.countP (fun u => s.color u == new_c) : Int)
          - (l.countP (fun u => s.color u == old_c) : Int) := by
  induction l with
  | nil => intro d; simp
  | cons w t ih =>
    intro d
    rw [List.foldl_cons, ih, countP_cons_int, countP_cons_int]
    by_cases h1 : s.color w = -1
    · rw [if_pos h1]
      have e1 : (s.color w == new_c) = false :=
        beq_eq_false_iff_ne.2 (by rw [h1]; exact fun h => hnew h.symm)
      have e2 : (s.color w == old_c) = false :=
        beq_eq_false_iff_ne.2 (by rw [h1]; exact fun h => hold h.symm)
      rw [e1, e2]
      simp only [Bool.false_eq_true, if_false]
      ring
    · rw [if_neg h1]
      by_cases h2 : s.color w = old_c
      · rw [if_pos h2]
        have e1 : (s.color w == new_c) = false :=
          beq_eq_false_iff_ne.2 (by rw [h2]; exact fun h => hne h.symm)
        have e2 : (s.color w == old_c) = true := beq_iff_eq.2 h2
        rw [e1, e2]
        simp only [Bool.false_eq_true, if_false, eq_self_iff_true, if_true]
        ring
      · rw [if_neg h2]
        have e2 : (s.color w == old_c) = false := beq_eq_false_iff_ne.2 h2
        rw [e2]
        by_cases h3 : s.color w = new_c
        · rw [if_pos h3]
          have e1 : (s.color w == new_c) = true := beq_iff_eq.2 h3
          rw [e1]
          simp only [Bool.false_eq_true, if_false, eq_self_iff_true, if_true]
          ring
        · rw [if_neg h3]
          have e1 : (s.color w == new_c) = false := beq_eq_false_iff_ne.2 h3
          rw [e1]
          simp only [Bool.false_eq_true, if_false]
          ring

theorem get_move_delta_eq (I : Instance) (s : SolState) (v : Nat) (old_c new_c : Int)
    (hold : old_c ≠ -1) (hnew : new_c ≠ -1) (hne : new_c ≠ old_c) :
    get_move_delta I s v old_c new_c
      = ((I.adj v).countP (fun u => s.color u == new_c) : Int)
        - ((I.adj v).countP (fun u => s.color u == old_c) : Int) := by
  unfold get_move_delta
  rw [move_delta_fold s old_c new_c hold hnew hne (I.adj v) 0]
  ring

theorem swap_delta_fold (s : SolState) (skip : Nat) (cm cp : Int) (hne : cm ≠ cp)
    (l : List Nat) :
    ∀ d : Int,
      l.foldl (fun d w =>
        if w = skip then d
        else if s.color w = cm then d - 1
        else if s.color w = cp then d + 1
        else d) d
      = d - (l.countP (fun w => !(w == skip) && (s.color w == cm)) : Int)
          + (l.countP (fun w => !(w == skip) && (s.color w == cp)) : Int) := by
  induction l with
  | nil => intro d; simp
  | cons w t ih =>
    intro d
    rw [List.foldl_cons, ih, countP_cons_int, countP_cons_int]
    by_cases h0 : w = skip
    · rw [if_pos h0]
      have hb : (w == skip) = true := beq_iff_eq.2 h0
      rw [hb]
      simp only [Bool.not_true, Bool.false_and, Bool.false_eq_true, if_false]
      ring
    · rw [if_neg h0]
      have hb : (w == skip) = false := beq_eq_false_iff_ne.2 h0
      rw [hb]
      simp only [Bool.not_false, Bool.true_and]
      by_cases h1 : s.color w = cm
      · rw [if_pos h1]
        have e1 : (s.color w == cm) = true := beq_iff_eq.2 h1
        have e2 : (s.color w == cp) = false :=
          beq_eq_false_iff_ne.2 (by rw [h1]; exact hne)
        rw [e1, e2]
        simp only [Bool.false_eq_true, if_false, eq_self_iff_true, if_true]
        ring
      · rw [if_neg h1]
        have e1 : (s.color w == cm) = false := beq_eq_false_iff_ne.2 h1
        rw [e1]
        by_cases h2 : s.color w = cp
        · rw [if_pos h2]
          have e2 : (s.color w == cp) = true := beq_iff_eq.2 h2
          rw [e2]
          simp only [Bool.false_eq_true, if_false, eq_self_iff_true, if_true]
          ring
        · rw [if_neg h2]
          have e2 : (s.color w == cp) = false := beq_eq_false_iff_ne.2 h2
          rw [e2]
          simp only [Bool.false_eq_true, if_false]
          ring

theorem get_swap_delta_eq (I : Instance) (hG : GoodInst I) (s : SolState) (v u : Nat)
    (hne : s.color v ≠ s.color u) :
    get_swap_delta I s v u
      = - ((I.adj v).countP (fun w => s.color w == s.color v) : Int)
        + ((I.adj v).countP (fun w => s.color w == s.color u) : Int)
        - ((I.adj u).countP (fun w => s.color w == s.color u) : Int)
        + ((I.adj u).countP (fun w => s.color w == s.color v) : Int)
        - 2 * ((I.adj u).count v : Int) := by
  unfold get_swap_delta
  rw [if_neg hne,
    swap_delta_fold s u (s.color v) (s.color u) hne (I.adj v) 0,
    swap_delta_fold s v (s.color u) (s.color v) (Ne.symm hne) (I.adj u) _,
    countP_ne_and (I.adj v) u, countP_ne_and (I.adj v) u,
    countP_ne_and (I.adj u) v, countP_ne_and (I.adj u) v]
  have e1 : (s.color u == s.color v) = false := beq_eq_false_iff_ne.2 (Ne.symm hne)
  have e2 : (s.color u == s.color u) = true := beq_iff_eq.2 rfl
  have e3 : (s.color v == s.color u) = false := beq_eq_false_iff_ne.2 hne
  have e4 : (s.color v == s.color v) = true := beq_iff_eq.2 rfl
  rw [e1, e2, e3, e4]
  simp only [Bool.false_eq_true, if_false, if_true]
  rw [hG.sym v u]
  ring

theorem apply_move_obj_delta (I : Instance) (hG : GoodInst I) (s : SolState) (v : Nat)
    (new_c : Int) (hlw : ListWF s) (hmem : MemOK s)
    (hold : s.color v ≠ -1) (hnew : new_c ≠ -1) (hne : new_c ≠ s.color v) :
    (apply_move I s v new_c).obj = s.obj + get_move_delta I s v (s.color v) new_c := by
  obtain ⟨_, _, _, hobj, _, _, _⟩ := apply_move_spec I s v new_c hlw hmem
  rw [hobj, countP_adj_updF I hG s.color v new_c (s.color v),
    countP_adj_updF I hG s.color v new_c new_c,
    get_move_delta_eq I s v (s.color v) new_c hold hnew hne]
  ring

theorem apply_swap_obj (I : Instance) (hG : GoodInst I) (s : SolState) (v u : Nat)
    (hlw : ListWF s) (hmem : MemOK s) (hvu : u ≠ v) (hne : s.color v ≠ s.color u) :
    (apply_swap_safe I s v u).obj = s.obj + get_swap_delta I s v u := by
  obtain ⟨_, hcol1, _, hobj1, _, hlw1, hmem1⟩ := apply_move_spec I s v (s.color u) hlw hmem
  obtain ⟨_, _, _, hobj2, _, _, _⟩ :=
    apply_move_spec I (apply_move I s v (s.color u)) u (s.color v) hlw1 hmem1
  have hr : apply_swap_safe I s v u
      = apply_move I (apply_move I s v (s.color u)) u (s.color v) := rfl
  rw [hr, hobj2, hobj1, hcol1]
  have hsu : updF s.color v (s.color u) u = s.color u := updF_ne _ _ _ hvu
  rw [hsu,
    countP_adj_updF I hG (updF s.color v (s.color u)) u (s.color v) (s.color u),
    countP_adj_updF I hG (updF s.color v (s.color u)) u (s.color v) (s.color v),
    countP_adj_updF I hG s.color v (s.color u) (s.color v),
    countP_adj_updF I hG s.color v (s.color u) (s.color u),
    countP_updF_beq (I.adj u) s.color v (s.color u) (s.color u),
    countP_updF_beq (I.adj u) s.color v (s.color u) (s.color v),
    get_swap_delta_eq I hG s v u hne]
  have e1 : (s.color u == s.color v) = false := beq_eq_false_iff_ne.2 (Ne.symm hne)
  have e2 : (s.color u == s.color u) = true := beq_iff_eq.2 rfl
  have e3 : (s.color v == s.color u) = false := beq_eq_false_iff_ne.2 hne
  have e4 : (s.color v == s.color v) = true := beq_iff_eq.2 rfl
  rw [e1, e2, e3, e4]
  simp only [Bool.false_eq_true, if_false, if_true]
  ring

theorem apply_swap_good (I : Instance) (hG : GoodInst I) (s : SolState) (v u : Nat)
    (hg : Good I s) (hv : v < I.n) (hu : u < I.n) (hvu : u ≠ v)
    (hne : s.color v ≠ s.color u) :
    Good I (apply_swap_safe I s v u)
    ∧ (apply_swap_safe I s v u).n = s.n
    ∧ (apply_swap_safe I s v u).k = s.k
    ∧ (apply_swap_safe I s v u).floor_size = s.floor_size
    ∧ (apply_swap_safe I s v u).big_size = s.big_size
    ∧ (apply_swap_safe I s v u).classSize = s.classSize
    ∧ (apply_swap_safe I s v u).color = updF (updF s.color v (s.color u)) u (s.color v) := by
  have hb_u := hg.colors u hu
  have hb_v := hg.colors v hv
  obtain ⟨hg1, hobj1, hn1, hk1, hfl1, hbg1, hcol1, hcs1⟩ :=
    apply_move_good I hG s v (s.color u) hg hv hb_u.1 hb_u.2
  have hb2 : s.color v < ((apply_move I s v (s.color u)).k : Int) := by
    rw [hk1]
    exact hb_v.2
  obtain ⟨hg2, hobj2, hn2, hk2, hfl2, hbg2, hcol2, hcs2⟩ :=
    apply_move_good I hG (apply_move I s v (s.color u)) u (s.color v) hg1 hu hb_v.1 hb2
  have hr : apply_swap_safe I s v u
      = apply_move I (apply_move I s v (s.color u)) u (s.color v) := rfl
  have hsu : updF s.color v (s.color u) u = s.color u := updF_ne _ _ _ hvu
  refine ⟨hr ▸ hg2, ?_, ?_, ?_, ?_, ?_, ?_⟩
  · rw [hr, hn2, hn1]
  · rw [hr, hk2, hk1]
  · rw [hr, hfl2, hfl1]
  · rw [hr, hbg2, hbg1]
  · simp only [hr, hcs2, hcs1, hcol1, hsu]
    funext c
    simp only [updF_apply]
    by_cases hc1 : c = s.color v
    · rw [hc1]
      split_ifs <;> omega
    · by_cases hc2 : c = s.color u
      · rw [hc2]
        split_ifs <;> omega
      · split_ifs <;> omega
  · simp only [hr, hcol2, hcol1, hsu]

/-! ## Concrete-instance helpers -/

theorem goodInst_of_checks (adjL : List (List Nat)) (h : goodAdjChecks adjL) :
    GoodInst (mkInstance adjL) := by
  obtain ⟨hsym, hlt, hirr⟩ := h
  have hout : ∀ v, adjL.length ≤ v → (mkInstance adjL).adj v = [] := by
    intro v hv
    show adjL.getD v [] = []
    exact List.getD_eq_default _ _ hv
  have hmem_lt : ∀ v u, u ∈ (mkInstance adjL).adj v → u < adjL.length := by
    intro v u hu
    by_cases hvl : v < adjL.length
    · exact hlt v hvl u hu
    · rw [hout v (by omega)] at hu
      exact absurd hu (List.not_mem_nil u)
  refine ⟨?_, ?_, ?_⟩
  · intro v u
    by_cases hvl : v < adjL.length
    · by_cases hul : u < adjL.length
      · exact hsym v hvl u hul
      · have h1 : (mkInstance adjL).adj u = [] := hout u (by omega)
        have h2 : u ∉ (mkInstance adjL).adj v := fun hm => hul (hmem_lt v u hm)
        rw [h1, List.count_eq_zero_of_not_mem h2]
        rfl
    · have h1 : (mkInstance adjL).adj v = [] := hout v (by omega)
      have h2 : v ∉ (mkInstance adjL).adj u := fun hm => hvl (hmem_lt u v hm)
      rw [h1, List.count_eq_zero_of_not_mem h2]
      rfl
  · intro v
    by_cases hvl : v < adjL.length
    · exact hirr v hvl
    · rw [hout v (by omega)]
      exact List.not_mem_nil v
  · intro v u hu
    exact hmem_lt v u hu

theorem listwf_of_indexOf (s : SolState) (hnd : s.conflictingVertices.Nodup)
    (hidx : ∀ x, s.conflictingIndex x =
      if x ∈ s.conflictingVertices then (s.conflictingVertices.indexOf x : Int) else -1) :
    ListWF s := by
  constructor
  · intro x i
    constructor
    · intro h
      have hmem : x ∈ s.conflictingVertices := List.get?_mem h
      have hio : s.conflictingVertices.get? (s.conflictingVertices.indexOf x) = some x :=
        List.indexOf_get? hmem
      have hlen : i < s.conflictingVertices.length := (List.get?_eq_some.1 h).1
      have : i = s.conflictingVertices.indexOf x :=
        List.get?_inj hlen hnd (h.trans hio.symm)
      rw [hidx x, if_pos hmem, ← this]
    · intro h
      have hmem : x ∈ s.conflictingVertices := by
        by_contra hx
        rw [hidx x, if_neg hx] at h
        omega
      rw [hidx x, if_pos hmem] at h
      have hi : s.conflictingVertices.indexOf x = i := by omega
      rw [← hi]
      exact List.indexOf_get? hmem
  · intro x hx
    rw [hidx x, if_neg hx]

theorem pathI_good : GoodInst pathI := goodInst_of_checks _ (by unfold goodAdjChecks; decide)

theorem starI_good : GoodInst starI := goodInst_of_checks _ (by unfold goodAdjChecks; decide)

theorem edgeI_good : GoodInst edgeI := goodInst_of_checks _ (by unfold goodAdjChecks; decide)

theorem emptyI_good : GoodInst emptyI := goodInst_of_checks _ (by unfold goodAdjChecks; decide)

theorem starS_good : Good starI starS := by
  refine ⟨rfl, by decide, ?_, by decide, ?_, ?_, ?_, ?_⟩
  · intro v
    match v with
    | 0 => decide
    | 1 => decide
    | 2 => decide
    | (w + 3) =>
      show (if w + 3 = 0 then (2 : Int) else if w + 3 ≤ 2 then 1 else 0)
        = confSpec starI starS.color (w + 3)
      rw [if_neg (by omega), if_neg (by omega)]
      unfold confSpec
      have hc : starS.color (w + 3) = -1 := by
        show (if w + 3 ≤ 2 then (0 : Int) else -1) = -1
        rw [if_neg (by omega)]
      rw [hc, if_pos rfl]
  · intro c
    by_cases hc : c = 0
    · subst hc
      decide
    · show (if c = 0 then (3 : Int) else 0) = sizeSpec starI starS.color c
      rw [if_neg hc]
      unfold sizeSpec
      have h0 : (List.range starI.n).countP (fun v => starS.color v == c) = 0 := by
        rw [List.countP_eq_zero]
        intro a ha
        have halt : a < 3 := List.mem_range.1 ha
        have hca : starS.color a = 0 := by
          show (if a ≤ 2 then (0 : Int) else -1) = 0
          rw [if_pos (by omega)]
        rw [hca]
        simp [beq_eq_false_iff_ne.2 (fun h => hc h.symm)]
      rw [h0]
      rfl
  · intro v hv
    have hc : starS.color v = 0 := by
      show (if v ≤ 2 then (0 : Int) else -1) = 0
      have : v < 3 := hv
      rw [if_pos (by omega)]
    rw [hc]
    exact ⟨le_refl 0, by decide⟩
  · apply listwf_of_indexOf
    · decide
    · intro x
      match x with
      | 0 => decide
      | 1 => decide
      | 2 => decide
      | (w + 3) =>
        have hmem : (w + 3) ∉ starS.conflictingVertices := by
          show (w + 3) ∉ [0, 1, 2]
          simp
        rw [if_neg hmem]
        show (if w + 3 = 0 then (0 : Int) else if w + 3 = 1 then 1
            else if w + 3 = 2 then 2 else -1) = -1
        rw [if_neg (by omega), if_neg (by omega), if_neg (by omega)]
  · intro x
    match x with
    | 0 => decide
    | 1 => decide
    | 2 => decide
    | (w + 3) =>
      have hmem : (w + 3) ∉ starS.conflictingVertices := by
        show (w + 3) ∉ [0, 1, 2]
        simp
      have hcf : starS.conflicts (w + 3) = 0 := by
        show (if w + 3 = 0 then (2 : Int) else if w + 3 ≤ 2 then 1 else 0) = 0
        rw [if_neg (by omega), if_neg (by omega)]
      constructor
      · intro h
        exact absurd h hmem
      · intro h
        rw [hcf] at h
        omega

/-! ## Round-trip behaviour of moves and swaps -/

theorem move_roundtrip (I : Instance) (hG : GoodInst I) (s : SolState) (v : Nat) (c_new : Int)
    (hg : Good I s) (hv : v < I.n) (hnew0 : 0 ≤ c_new) (hnewk : c_new < (s.k : Int)) :
    (apply_move I (apply_move I s v c_new) v (s.color v)).color = s.color
    ∧ (apply_move I (apply_move I s v c_new) v (s.color v)).classSize = s.classSize
    ∧ (apply_move I (apply_move I s v c_new) v (s.color v)).conflicts = s.conflicts
    ∧ (apply_move I (apply_move I s v c_new) v (s.color v)).obj = s.obj
    ∧ (∀ x, x ∈ (apply_move I (apply_move I s v c_new) v (s.color v)).conflictingVertices
        ↔ x ∈ s.conflictingVertices) := by
  have hbv := hg.colors v hv
  obtain ⟨hg1, _, hn1, hk1, _, _, hcol1, hcs1⟩ := apply_move_good I hG s v c_new hg hv hnew0 hnewk
  have hb2 : s.color v < ((apply_move I s v c_new).k : Int) := by
    rw [hk1]
    exact hbv.2
  obtain ⟨hg2, _, hn2, hk2, _, _, hcol2, hcs2⟩ :=
    apply_move_good I hG (apply_move I s v c_new) v (s.color v) hg1 hv hbv.1 hb2
  have hcolor : (apply_move I (apply_move I s v c_new) v (s.color v)).color = s.color := by
    rw [hcol2, hcol1]
    funext x
    simp only [updF_apply]
    by_cases hx : x = v
    · rw [if_pos hx, hx]
    · rw [if_neg hx, if_neg hx]
  have hconfs : (apply_move I (apply_move I s v c_new) v (s.color v)).conflicts = s.conflicts := by
    funext x
    rw [hg2.conf x, hcolor, ← hg.conf x]
  refine ⟨hcolor, ?_, hconfs, ?_, ?_⟩
  · rw [hcs2, hcs1, hcol1, updF_self]
    funext c
    simp only [updF_apply]
    by_cases hnv : c_new = s.color v
    · rw [hnv]
      by_cases hc1 : c = s.color v
      · rw [hc1]
        split_ifs <;> omega
      · split_ifs <;> omega
    · by_cases hc1 : c = s.color v
      · rw [hc1]
        split_ifs <;> omega
      · by_cases hc2 : c = c_new
        · rw [hc2]
          split_ifs <;> omega
        · split_ifs <;> omega
  · have h2 := hg2.objEq
    rw [hcolor] at h2
    have h3 := hg.objEq
    omega
  · intro x
    rw [hg2.mem x, hconfs, hg.mem x]

theorem swap_roundtrip (I : Instance) (hG : GoodInst I) (s : SolState) (v u : Nat)
    (hg : Good I s) (hv : v < I.n) (hu : u < I.n) (hvu : u ≠ v)
    (hne : s.color v ≠ s.color u) :
    (apply_swap_safe I (apply_swap_safe I s v u) v u).color = s.color
    ∧ (apply_swap_safe I (apply_swap_safe I s v u) v u).classSize = s.classSize
    ∧ (apply_swap_safe I (apply_swap_safe I s v u) v u).conflicts = s.conflicts
    ∧ (apply_swap_safe I (apply_swap_safe I s v u) v u).obj = s.obj
    ∧ (∀ x, x ∈ (apply_swap_safe I (apply_swap_safe I s v u) v u).conflictingVertices
        ↔ x ∈ s.conflictingVertices) := by
  obtain ⟨hg1, hn1, hk1, _, _, hcs1, hcol1⟩ := apply_swap_good I hG s v u hg hv hu hvu hne
  have hc1v : (apply_swap_safe I s v u).color v = s.color u := by
    rw [hcol1, updF_ne _ _ _ (Ne.symm hvu), updF_self]
  have hc1u : (apply_swap_safe I s v u).color u = s.color v := by
    rw [hcol1, updF_self]
  have hne1 : (apply_swap_safe I s v u).color v ≠ (apply_swap_safe I s v u).color u := by
    rw [hc1v, hc1u]
    exact Ne.symm hne
  obtain ⟨hg2, hn2, hk2, _, _, hcs2, hcol2⟩ :=
    apply_swap_good I hG (apply_swap_safe I s v u) v u hg1 hv hu hvu hne1
  have hcolor : (apply_swap_safe I (apply_swap_safe I s v u) v u).color = s.color := by
    rw [hcol2, hc1v, hc1u, hcol1]
    funext x
    simp only [updF_apply]
    by_cases hx : x = u
    · rw [if_pos hx, hx]
    · rw [if_neg hx]
      by_cases hx2 : x = v
      · rw [if_pos hx2, hx2]
      · rw [if_neg hx2, if_neg hx, if_neg hx2]
  have hconfs : (apply_swap_safe I (apply_swap_safe I s v u) v u).conflicts = s.conflicts := by
    funext x
    rw [hg2.conf x, hcolor, ← hg.conf x]
  refine ⟨hcolor, hcs2.trans hcs1, hconfs, ?_, ?_⟩
  · have h2 := hg2.objEq
    rw [hcolor] at h2
    have h3 := hg.objEq
    omega
  · intro x
    rw [hg2.mem x, hconfs, hg.mem x]

theorem edgeS_good : Good edgeI edgeS := by
  refine ⟨rfl, by decide, ?_, by decide, ?_, ?_, ?_, ?_⟩
  · intro v
    match v with
    | 0 => decide
    | 1 => decide
    | 2 => decide
    | 3 => decide
    | (w + 4) =>
      show (if w + 4 ≤ 1 then (1 : Int) else 0) = confSpec edgeI edgeS.color (w + 4)
      rw [if_neg (by omega)]
      unfold confSpec
      have hc : edgeS.color (w + 4) = -1 := by
        show (if w + 4 ≤ 1 then (0 : Int) else if w + 4 ≤ 3 then 1 else -1) = -1
        rw [if_neg (by omega), if_neg (by omega)]
      rw [hc, if_pos rfl]
  · intro c
    by_cases hc0 : c = 0
    · subst hc0
      decide
    · by_cases hc1 : c = 1
      · subst hc1
        decide
      · show (if c = 0 then (2 : Int) else if c = 1 then 2 else 0) = sizeSpec edgeI edgeS.color c
        rw [if_neg hc0, if_neg hc1]
        unfold sizeSpec
        have h0 : (List.range edgeI.n).countP (fun v => edgeS.color v == c) = 0 := by
          rw [List.countP_eq_zero]
          intro a ha
          have halt : a < 4 := List.mem_range.1 ha
          by_cases ha1 : a ≤ 1
          · have hca : edgeS.color a = 0 := by
              show (if a ≤ 1 then (0 : Int) else if a ≤ 3 then 1 else -1) = 0
              rw [if_pos ha1]
            rw [hca]
            simp [beq_eq_false_iff_ne.2 (fun h => hc0 h.symm)]
          · have hca : edgeS.color a = 1 := by
              show (if a ≤ 1 then (0 : Int) else if a ≤ 3 then 1 else -1) = 1
              rw [if_neg ha1, if_pos (by omega)]
            rw [hca]
            simp [beq_eq_false_iff_ne.2 (fun h => hc1 h.symm)]
        rw [h0]
        rfl
  · intro v hv
    have hv4 : v < 4 := hv
    by_cases hv1 : v ≤ 1
    · have hc : edgeS.color v = 0 := by
        show (if v ≤ 1 then (0 : Int) else if v ≤ 3 then 1 else -1) = 0
        rw [if_pos hv1]
      rw [hc]
      exact ⟨le_refl 0, by decide⟩
    · have hc : edgeS.color v = 1 := by
        show (if v ≤ 1 then (0 : Int) else if v ≤ 3 then 1 else -1) = 1
        rw [if_neg hv1, if_pos (by omega)]
      rw [hc]
      exact ⟨by decide, by decide⟩
  · apply listwf_of_indexOf
    · decide
    · intro x
      match x with
      | 0 => decide
      | 1 => decide
      | (w + 2) =>
        have hmem : (w + 2) ∉ edgeS.conflictingVertices := by
          show (w + 2) ∉ [0, 1]
          simp
        rw [if_neg hmem]
        show (if w + 2 = 0 then (0 : Int) else if w + 2 = 1 then 1 else -1) = -1
        rw [if_neg (by omega), if_neg (by omega)]
  · intro x
    match x with
    | 0 => decide
    | 1 => decide
    | (w + 2) =>
      have hmem : (w + 2) ∉ edgeS.conflictingVertices := by
        show (w + 2) ∉ [0, 1]
        simp
      have hcf : edgeS.conflicts (w + 2) = 0 := by
        show (if w + 2 ≤ 1 then (1 : Int) else 0) = 0
        rw [if_neg (by omega)]
      constructor
      · intro h
        exact absurd h hmem
      · intro h
        rw [hcf] at h
        omega

/-! ## Claim theorems C3 and C9 -/

/-- C3: on a fully colored consistent state, the objective after
`apply_move(v, c_new)` (with `c_new ≠ color[v]` a real class) equals
`obj + get_move_delta(v, color[v], c_new)`, and the objective after
`apply_swap_safe(v, u)` (with `color[u] ≠ color[v]`) equals
`obj + get_swap_delta(v, u)`. -/
theorem claim_C3 (I : Instance) (s : SolState) (hG : GoodInst I) (hg : Good I s)
    (v u : Nat) (c_new : Int) (hv : v < I.n) (hu : u < I.n)
    (hnew0 : 0 ≤ c_new) (hnewk : c_new < (s.k : Int)) (hne : c_new ≠ s.color v)
    (hvu : u ≠ v) (hcc : s.color u ≠ s.color v) :
    (apply_move I s v c_new).obj = s.obj + get_move_delta I s v (s.color v) c_new
    ∧ (apply_swap_safe I s v u).obj = s.obj + get_swap_delta I s v u := by
  have hbv := hg.colors v hv
  constructor
  · exact apply_move_obj_delta I hG s v c_new hg.lw hg.mem (by omega) (by omega) hne
  · exact apply_swap_obj I hG s v u hg.lw hg.mem hvu (Ne.symm hcc)

/-- Witness for C3 at a concrete instance and state. -/
theorem claim_C3_witness :
    (apply_move edgeI edgeS 1 1).obj = edgeS.obj + get_move_delta edgeI edgeS 1 (edgeS.color 1) 1
    ∧ (apply_swap_safe edgeI edgeS 1 2).obj = edgeS.obj + get_swap_delta edgeI edgeS 1 2 :=
  claim_C3 edgeI edgeS edgeI_good edgeS_good 1 2 1 (by decide) (by decide) (by decide)
    (by decide) (by decide) (by decide) (by decide)

/-- C9 counterexample: on the fully colored consistent state `starS`
(all three vertices of the star colored 0), moving vertex 1 to color 1 and
immediately back to its prior color 0 does NOT restore the state bit-for-bit:
the ordering of `conflictingVertices` changes from `[0, 1, 2]` to `[0, 2, 1]`
(the swap-with-last removal followed by an append permutes the list). -/
theorem claim_C9_counterexample :
    Good starI starS ∧ starS.color 1 = 0 ∧ ((1 : Int) ≠ starS.color 1)
    ∧ (apply_move starI (apply_move starI starS 1 1) 1 (starS.color 1)).conflictingVertices
        ≠ starS.conflictingVertices :=
  ⟨starS_good, by decide, by decide, by decide⟩

/-- C9 (amended): on a fully colored consistent state, `apply_move(v, c_old)`
right after `apply_move(v, c_new)` restores `color`, `classSize`,
`conflicts`, `obj`, and the membership (though not necessarily the ordering)
of `conflictingVertices`; `apply_swap_safe(v, u)` applied twice likewise. -/
theorem claim_C9 (I : Instance) (s : SolState) (hG : GoodInst I) (hg : Good I s)
    (v u : Nat) (c_new : Int) (hv : v < I.n) (hu : u < I.n) (hnew0 : 0 ≤ c_new)
    (hnewk : c_new < (s.k : Int)) (hvu : u ≠ v) (hne : s.color v ≠ s.color u) :
    ((apply_move I (apply_move I s v c_new) v (s.color v)).color = s.color
      ∧ (apply_move I (apply_move I s v c_new) v (s.color v)).classSize = s.classSize
      ∧ (apply_move I (apply_move I s v c_new) v (s.color v)).conflicts = s.conflicts
      ∧ (apply_move I (apply_move I s v c_new) v (s.color v)).obj = s.obj
      ∧ (∀ x, x ∈ (apply_move I (apply_move I s v c_new) v (s.color v)).conflictingVertices
          ↔ x ∈ s.conflictingVertices))
    ∧ ((apply_swap_safe I (apply_swap_safe I s v u) v u).color = s.color
      ∧ (apply_swap_safe I (apply_swap_safe I s v u) v u).classSize = s.classSize
      ∧ (apply_swap_safe I (apply_swap_safe I s v u) v u).conflicts = s.conflicts
      ∧ (apply_swap_safe I (apply_swap_safe I s v u) v u).obj = s.obj
      ∧ (∀ x, x ∈ (apply_swap_safe I (apply_swap_safe I s v u) v u).conflictingVertices
          ↔ x ∈ s.conflictingVertices)) :=
  ⟨move_roundtrip I hG s v c_new hg hv hnew0 hnewk,
   swap_roundtrip I hG s v u hg hv hu hvu hne⟩

/-- Witness for C9 (amended) at a concrete instance and state. -/
theorem claim_C9_witness :
    (apply_move edgeI (apply_move edgeI edgeS 1 1) 1 (edgeS.color 1)).color = edgeS.color
    ∧ (apply_swap_safe edgeI (apply_swap_safe edgeI edgeS 1 2) 1 2).obj = edgeS.obj := by
  have h := claim_C9 edgeI edgeS edgeI_good edgeS_good 1 2 1 (by decide) (by decide)
    (by decide) (by decide) (by decide) (by decide)
  exact ⟨h.1.1, h.2.2.2.2.1⟩

/-! ## Claim theorems C5, C8, C6 -/

/-- C5 counterexample: with aspiration disabled in the configuration
(`cfgAsp = 0`), a tabu, strictly-improving candidate (obj 1, delta −1,
best 1) is rejected by the transfer admission test but accepted by the swap
admission test — the config flag is not applied uniformly to both kinds. -/
theorem claim_C5_counterexample :
    swapAdmit true 1 (-1) 1 = true ∧ transferAdmit true 1 (-1) 1 0 = false := by
  decide

/-- C5 (amended): a tabu transfer candidate enters evaluation iff aspiration
is enabled in the configuration AND `obj + delta < best`; a tabu swap
candidate enters evaluation iff `obj + delta < best`, with the configuration
flag not consulted. -/
theorem claim_C5 (is_tabu : Bool) (obj delta best cfgAsp : Int) :
    (is_tabu = true →
      (transferAdmit is_tabu obj delta best cfgAsp = true ↔ (obj + delta < best ∧ cfgAsp ≠ 0)))
    ∧ (is_tabu = true →
      (swapAdmit is_tabu obj delta best = true ↔ obj + delta < best)) := by
  constructor
  · intro h
    subst h
    unfold transferAdmit
    simp
  · intro h
    subst h
    unfold swapAdmit
    simp

/-- Witness for C5 (amended) at concrete inputs. -/
theorem claim_C5_witness :
    (transferAdmit true 0 (-1) 0 1 = true ↔ ((0 : Int) + (-1) < 0 ∧ (1 : Int) ≠ 0))
    ∧ (swapAdmit true 0 (-1) 0 = true ↔ (0 : Int) + (-1) < 0) :=
  ⟨(claim_C5 true 0 (-1) 0 1).1 rfl, (claim_C5 true 0 (-1) 0 1).2 rfl⟩

/-- C8 counterexample: a move applied at iteration 0 writing
`tabu_until[v][c] = 0 + 1` (tenure `T = 1`) is NOT rejected at the next
iteration 1 (`tabu_matrix[v][c] > iter` fails), although the claim promises
exactly `T = 1` subsequent rejected iterations. -/
theorem claim_C8_counterexample : isTabuAt ((0 : Int) + (1 : Int)) 1 = false := by
  decide

/-- C8 (amended): an entry `iter + T` is tabu at iteration `j` iff
`j < iter + T` (strict threshold), so among the `T` subsequent iterations
`iter+1, …, iter+T` exactly `T - 1` are rejected (the move becomes available
again at iteration `iter + T`). -/
theorem claim_C8 (iter T j : Nat) :
    (isTabuAt ((iter : Int) + (T : Int)) j = true ↔ j < iter + T)
    ∧ (Finset.filter (fun j => isTabuAt ((iter : Int) + (T : Int)) j = true)
        (Finset.Ioc iter (iter + T))).card = T - 1 := by
  constructor
  · unfold isTabuAt
    rw [decide_eq_true_eq]
    omega
  · have hset : Finset.filter (fun j => isTabuAt ((iter : Int) + (T : Int)) j = true)
        (Finset.Ioc iter (iter + T)) = Finset.Ioo iter (iter + T) := by
      ext j
      simp only [Finset.mem_filter, Finset.mem_Ioc, Finset.mem_Ioo, isTabuAt,
        decide_eq_true_eq]
      omega
    rw [hset, Nat.card_Ioo]
    omega

/-- C6 counterexample: the parser (`read_instance` on the token stream)
keeps self-loops (input edge `1 1` becomes `(0,0)`), keeps duplicate edges,
accepts `n ≤ 0`, and accepts out-of-range endpoints — no validation or
deduplication happens. -/
theorem claim_C6_counterexample :
    read_instance [2, 2, 1, 1, 1, 2] = some (2, [(0, 0), (0, 1)])
    ∧ ((0, 0) : Int × Int) ∈ [((0 : Int), (0 : Int)), (0, 1)]
    ∧ read_instance [2, 2, 1, 2, 1, 2] = some (2, [(0, 1), (0, 1)])
    ∧ ¬ ([((0 : Int), (1 : Int)), (0, 1)]).Nodup
    ∧ read_instance [-3, 0] = some (-3, [])
    ∧ read_instance [1, 1, 5, 7] = some (1, [(4, 6)]) := by
  refine ⟨rfl, by decide, rfl, by decide, rfl, rfl⟩

/-- C6 (amended): the parser converts each 1-indexed input pair to 0-indexed
verbatim, preserving order and multiplicity, with no deduplication,
self-loop rejection, or range/`n` validation; only a missing header token
makes it fail (the `die`/exit-1 path). -/
theorem claim_C6 (n : Int) (ps : List (Int × Int)) :
    read_instance (n :: ((ps.length : Nat) : Int) :: ps.flatMap (fun p => [p.1, p.2]))
      = some (n, ps.map (fun p => (p.1 - 1, p.2 - 1)))
    ∧ read_instance [] = none ∧ read_instance [n] = none := by
  refine ⟨?_, rfl, rfl⟩
  show (read_edge_tokens ((ps.length : Nat) : Int).toNat
      (ps.flatMap (fun p => [p.1, p.2]))).map (fun es => (n, es))
    = some (n, ps.map (fun p => (p.1 - 1, p.2 - 1)))
  rw [Int.toNat_natCast]
  have key : ∀ qs : List (Int × Int),
      read_edge_tokens qs.length (qs.flatMap (fun p => [p.1, p.2]))
        = some (qs.map (fun p => (p.1 - 1, p.2 - 1))) := by
    intro qs
    induction qs with
    | nil => rfl
    | cons q t ih =>
      show (read_edge_tokens t.length (t.flatMap (fun p => [p.1, p.2]))).map
          (fun es => (q.1 - 1, q.2 - 1) :: es) = _
      rw [ih]
      rfl
  rw [key ps]
  rfl

/-! ## Claim theorems C7, C10, C4 -/

/-- Each perturbation attempt applies at most one swap. -/
theorem perturb_attempt_le (I : Instance) (s : SolState) (rng : Nat → Nat) (rix : Nat) :
    (perturb_attempt I s rng rix).2.2 ≤ 1 := by
  simp only [perturb_attempt]
  split <;> simp

/-- The ghost swap counter of the perturbation fold is bounded by the number
of attempts. -/
theorem perturb_fold_ghost_le (I : Instance) (rng : Nat → Nat) (l : List Nat) :
    ∀ acc : SolState × Nat × Nat,
      (l.foldl (perturb_step I rng) acc).2.2 ≤ acc.2.2 + l.length := by
  induction l with
  | nil => intro acc; simp
  | cons a t ih =>
    intro acc
    simp only [List.foldl_cons, List.length_cons]
    have hstep := ih (perturb_step I rng acc a)
    have h22 : (perturb_step I rng acc a).2.2
        = acc.2.2 + (perturb_attempt I acc.1 rng acc.2.1).2.2 := rfl
    have hb := perturb_attempt_le I acc.1 rng acc.2.1
    omega

/-- Branch lemma: when no exit fires and the perturbation trigger holds, one
loop step is exactly the perturbation pass followed by the recursive call with
a reset tabu table and `no_improve = 0`. -/
theorem run_tabu_loop_perturb (I : Instance) (cfg : TabuConfig) (stop : Nat → Bool)
    (rng : Nat → Nat) (entryObj : Int) (fuel : Nat) (s : SolState) (tb : Nat → Int → Int)
    (iter ni : Nat) (best : Int) (rix : Nat)
    (h1 : ¬ s.obj ≤ 0) (h2 : ¬ ((decide (iter % 128 = 0) && stop iter) = true))
    (h3 : (decide (cfg.perturbation_limit ≤ (ni : Int))
        && decide (0 < cfg.perturbation_strength)) = true) :
    run_tabu_loop I cfg stop rng entryObj (fuel + 1) s tb iter ni best rix
      = run_tabu_loop I cfg stop rng entryObj fuel
          (perturb_pass I cfg s rng rix).1 (fun _ _ => 0) (iter + 1) 0 best
          (perturb_pass I cfg s rng rix).2.1 := by
  simp only [run_tabu_loop, if_neg h1, if_neg h2, if_pos h3]

/-- Branch lemma: when the objective is already ≤ 0, a loop step finalizes
through the obj-zero exit. -/
theorem run_tabu_loop_objZero (I : Instance) (cfg : TabuConfig) (stop : Nat → Bool)
    (rng : Nat → Nat) (entryObj : Int) (fuel : Nat) (s : SolState) (tb : Nat → Int → Int)
    (iter ni : Nat) (best : Int) (rix : Nat) (h1 : s.obj ≤ 0) :
    run_tabu_loop I cfg stop rng entryObj (fuel + 1) s tb iter ni best rix
      = finalizeResult s tb iter best .objZero := by
  simp only [run_tabu_loop, if_pos h1]

/-- C7 counterexample: with `n = 3` and `strength = 1/2` the pass makes
`⌈3/2⌉ = 2` attempts, not `⌊3/2⌋ = 1`; on a rainbow state both attempts
succeed and 2 swaps are applied; and on an all-same-color state the swaps are
NOT unconditional: the pass applies 0 of its 1 attempted swaps. -/
theorem claim_C7_counterexample :
    perturb_count 3 (1/2) = 2 ∧ Nat.floor ((3 : ℚ) * (1/2)) = 1
    ∧ (perturb_pass emptyI cfgPerturbHalf rainbowS rngAlt 0).2.2 = 2
    ∧ (perturb_pass emptyI cfgPerturbQuarter starS rngSucc 0).2.2 = 0 := by
  have hc2 : perturb_count 3 (1/2) = 2 := by
    unfold perturb_count
    rw [Nat.ceil_eq_iff (by norm_num)]
    norm_num
  have hc1 : perturb_count 3 (1/4) = 1 := by
    unfold perturb_count
    rw [Nat.ceil_eq_iff (by norm_num)]
    norm_num
  refine ⟨hc2, ?_, ?_, ?_⟩
  · rw [Nat.floor_eq_iff (by norm_num)]
    norm_num
  · show ((List.range (perturb_count 3 (1/2))).foldl
      (perturb_step emptyI rngAlt) (rainbowS, 0, 0)).2.2 = 2
    rw [hc2]
    rfl
  · show ((List.range (perturb_count 3 (1/4))).foldl
      (perturb_step emptyI rngSucc) (starS, 0, 0)).2.2 = 0
    rw [hc1]
    rfl

/-- C7 (amended): when `no_improve ≥ perturbation_limit` and
`perturbation_strength > 0` (and no earlier exit fires), the engine runs the
perturbation pass — `⌈strength · n⌉` ATTEMPTS (the guard `p < n * strength`
over the reals, i.e. the ceiling), each applying a swap only when the two
drawn vertices are distinct with distinct colors, so at most
`⌈strength · n⌉` swaps — then resets `no_improve` to 0, re-initializes the
tabu table to all-zero, consumes one iteration, and skips move evaluation. -/
theorem claim_C7 (I : Instance) (cfg : TabuConfig) (stop : Nat → Bool) (rng : Nat → Nat)
    (entryObj : Int) (fuel : Nat) (s : SolState) (tb : Nat → Int → Int)
    (iter ni : Nat) (best : Int) (rix : Nat)
    (hobj : 0 < s.obj) (htime : ¬ (iter % 128 = 0 ∧ stop iter = true))
    (hni : cfg.perturbation_limit ≤ (ni : Int)) (hstr : 0 < cfg.perturbation_strength) :
    (run_tabu_loop I cfg stop rng entryObj (fuel + 1) s tb iter ni best rix
      = run_tabu_loop I cfg stop rng entryObj fuel
          (perturb_pass I cfg s rng rix).1 (fun _ _ => 0) (iter + 1) 0 best
          (perturb_pass I cfg s rng rix).2.1)
    ∧ (∀ p : Nat, p < perturb_count s.n cfg.perturbation_strength ↔
        (p : ℚ) < (s.n : ℚ) * cfg.perturbation_strength)
    ∧ (perturb_pass I cfg s rng rix).2.2 ≤ perturb_count s.n cfg.perturbation_strength := by
  refine ⟨?_, ?_, ?_⟩
  · refine run_tabu_loop_perturb I cfg stop rng entryObj fuel s tb iter ni best rix
      (by omega) ?_ ?_
    · simp only [Bool.and_eq_true, decide_eq_true_eq]
      exact htime
    · simp only [Bool.and_eq_true, decide_eq_true_eq]
      exact ⟨hni, hstr⟩
  · intro p
    unfold perturb_count
    rw [Nat.lt_ceil]
  · unfold perturb_pass
    have := perturb_fold_ghost_le I rng
        (List.range (perturb_count s.n cfg.perturbation_strength)) (s, rix, 0)
    simpa using this

/-- Witness for C7 (amended) at a concrete perturbing configuration. -/
theorem claim_C7_witness :
    (run_tabu_loop emptyI cfgPerturbHalf stopNever rngAlt 5 4 rainbowS (fun _ _ => 0) 1 0 5 0
      = run_tabu_loop emptyI cfgPerturbHalf stopNever rngAlt 5 3
          (perturb_pass emptyI cfgPerturbHalf rainbowS rngAlt 0).1 (fun _ _ => 0) 2 0 5
          (perturb_pass emptyI cfgPerturbHalf rainbowS rngAlt 0).2.1)
    ∧ (∀ p : Nat, p < perturb_count rainbowS.n cfgPerturbHalf.perturbation_strength ↔
        (p : ℚ) < (rainbowS.n : ℚ) * cfgPerturbHalf.perturbation_strength)
    ∧ (perturb_pass emptyI cfgPerturbHalf rainbowS rngAlt 0).2.2
        ≤ perturb_count rainbowS.n cfgPerturbHalf.perturbation_strength :=
  claim_C7 emptyI cfgPerturbHalf stopNever rngAlt 5 3 rainbowS (fun _ _ => 0) 1 0 5 0
    (by decide) (by decide) (by decide) (by norm_num [cfgPerturbHalf])

/-- Whenever the loop exits through the periodic stop-criterion poll, the
returned `TabuResult` is the untouched initializer `{false, 0, entryObj}`. -/
theorem run_tabu_loop_timeout (I : Instance) (cfg : TabuConfig) (stop : Nat → Bool)
    (rng : Nat → Nat) (entryObj : Int) :
    ∀ (fuel : Nat) (s : SolState) (tb : Nat → Int → Int) (iter ni : Nat) (best : Int) (rix : Nat),
      (run_tabu_loop I cfg stop rng entryObj fuel s tb iter ni best rix).kind = .timeout →
      (run_tabu_loop I cfg stop rng entryObj fuel s tb iter ni best rix).result
        = ⟨false, 0, entryObj⟩ := by
  intro fuel
  induction fuel with
  | zero =>
    intro s tb iter ni best rix h
    exfalso
    revert h
    simp only [run_tabu_loop, finalizeResult]
    split <;> simp
  | succ fuel ih =>
    intro s tb iter ni best rix h
    simp only [run_tabu_loop] at h ⊢
    by_cases h1 : s.obj ≤ 0
    · rw [if_pos h1] at h
      exact absurd h (by simp [finalizeResult])
    rw [if_neg h1] at h ⊢
    by_cases h2 : (decide (iter % 128 = 0) && stop iter) = true
    · rw [if_pos h2] at h ⊢
    rw [if_neg h2] at h ⊢
    by_cases h3 : (decide (cfg.perturbation_limit ≤ (ni : Int))
        && decide (0 < cfg.perturbation_strength)) = true
    · rw [if_pos h3] at h ⊢
      exact ih _ _ _ _ _ _ h
    rw [if_neg h3] at h ⊢
    revert h
    cases hsc : (scan_swaps I s tb iter best
        (if s.n % s.k ≠ 0 then scan_transfers I cfg s tb iter best (99999999, [])
         else (99999999, []))).2 with
    | nil =>
      intro h
      exact absurd h (by simp [finalizeResult])
    | cons c cs =>
      intro h
      dsimp only at h ⊢
      split_ifs at h ⊢ <;> exact ih _ _ _ _ _ _ h

/-- C10: if `run_tabu_search` exits because the stop criterion fired at the
every-128-iterations poll, the returned `TabuResult` is the untouched
initializer: `solved = false`, `iterations = 0`, and `final_obj` equal to the
objective at entry, regardless of the iterations actually executed. -/
theorem claim_C10 (I : Instance) (cfg : TabuConfig) (stop : Nat → Bool) (rng : Nat → Nat)
    (s : SolState) (h : (run_tabu_search I cfg stop rng s).kind = .timeout) :
    (run_tabu_search I cfg stop rng s).result = ⟨false, 0, s.obj⟩ := by
  unfold run_tabu_search at h ⊢
  by_cases h0 : s.obj = 0
  · rw [if_pos h0] at h
    exact absurd h (by simp)
  rw [if_neg h0] at h ⊢
  exact run_tabu_loop_timeout I cfg stop rng s.obj cfg.max_iter s (fun _ _ => 0) 0 0 s.obj 0 h

/-- Witness for C10: with a stop criterion that fires immediately, the
engine on the one-conflict edge state times out with the initializer result. -/
theorem claim_C10_witness :
    (run_tabu_search edgeI cfgPerturbQuarter stopNow rngSucc edgeS).result
      = ⟨false, 0, edgeS.obj⟩ :=
  claim_C10 edgeI cfgPerturbQuarter stopNow rngSucc edgeS rfl

/-- C4 (code bug): when a PERTURBATION drives the objective to 0, the loop
exits through the `obj = 0` path, but `best_obj_found` was never updated (it
is only updated after evaluated moves), so the finalization
`solved = (best_obj_found == 0)` reports `solved = false` and
`final_obj = 1` even though the final state has objective 0 — contradicting
the claim that the `obj = 0` exit yields `solved = true`. -/
theorem claim_C4 :
    (run_tabu_search edgeI cfgPerturbQuarter stopNever rngSucc edgeS).st.obj = 0
    ∧ (run_tabu_search edgeI cfgPerturbQuarter stopNever rngSucc edgeS).kind = ExitKind.objZero
    ∧ (run_tabu_search edgeI cfgPerturbQuarter stopNever rngSucc edgeS).result.solved = false
    ∧ (run_tabu_search edgeI cfgPerturbQuarter stopNever rngSucc edgeS).result.final_obj = 1
    ∧ (run_tabu_search edgeI cfgPerturbQuarter stopNever rngSucc edgeS).result.iterations = 1 := by
  have hc : perturb_count 4 (1/4) = 1 := by
    unfold perturb_count
    rw [Nat.ceil_eq_iff (by norm_num)]
    norm_num
  have hobj0 : (perturb_pass edgeI cfgPerturbQuarter edgeS rngSucc 0).1.obj = 0 := by
    show (((List.range (perturb_count 4 (1/4))).foldl
      (perturb_step edgeI rngSucc) (edgeS, 0, 0)).1).obj = 0
    rw [hc]
    rfl
  have hcond : (decide (cfgPerturbQuarter.perturbation_limit ≤ ((0 : Nat) : Int))
      && decide (0 < cfgPerturbQuarter.perturbation_strength)) = true := by
    rw [Bool.and_eq_true, decide_eq_true_eq, decide_eq_true_eq]
    refine ⟨by norm_num [cfgPerturbQuarter], by norm_num [cfgPerturbQuarter]⟩
  have hrun : run_tabu_search edgeI cfgPerturbQuarter stopNever rngSucc edgeS
      = ⟨(perturb_pass edgeI cfgPerturbQuarter edgeS rngSucc 0).1, (fun _ _ => 0),
         ⟨false, 1, edgeS.obj⟩, .objZero, edgeS.obj⟩ := by
    unfold run_tabu_search
    rw [if_neg (by decide : ¬ edgeS.obj = 0)]
    show run_tabu_loop edgeI cfgPerturbQuarter stopNever rngSucc edgeS.obj (4 + 1)
        edgeS (fun _ _ => 0) 0 0 edgeS.obj 0 = _
    rw [run_tabu_loop_perturb edgeI cfgPerturbQuarter stopNever rngSucc edgeS.obj 4 edgeS
        (fun _ _ => 0) 0 0 edgeS.obj 0 (by decide) (by decide) hcond]
    show run_tabu_loop edgeI cfgPerturbQuarter stopNever rngSucc edgeS.obj (3 + 1)
        (perturb_pass edgeI cfgPerturbQuarter edgeS rngSucc 0).1 (fun _ _ => 0) (0 + 1) 0
        edgeS.obj (perturb_pass edgeI cfgPerturbQuarter edgeS rngSucc 0).2.1 = _
    rw [run_tabu_loop_objZero edgeI cfgPerturbQuarter stopNever rngSucc edgeS.obj 3 _
        (fun _ _ => 0) (0 + 1) 0 edgeS.obj _ (le_of_eq hobj0)]
    rfl
  rw [hrun]
  exact ⟨hobj0, rfl, rfl, rfl, rfl⟩

/-! ## Counting helpers for folds and class-size sums -/

theorem foldl_count_inc (p : Nat → Prop) [DecidablePred p] (l : List Nat) :
    ∀ r : Nat, l.foldl (fun r c => if p c then r + 1 else r) r
      = r + l.countP (fun c => decide (p c)) := by
  induction l with
  | nil => intro r; simp
  | cons a t ih =>
    intro r
    rw [List.foldl_cons, List.countP_cons]
    by_cases hp : p a
    · rw [if_pos hp, ih]
      simp [hp]
      omega
    · rw [if_neg hp, ih]
      simp [hp]

theorem foldl_count_dec (p : Nat → Prop) [DecidablePred p] (l : List Nat) :
    ∀ o : Int, l.foldl (fun o u => if p u then o - 1 else o) o
      = o - (l.countP (fun u => decide (p u)) : Int) := by
  induction l with
  | nil => intro o; simp
  | cons a t ih =>
    intro o
    rw [List.foldl_cons, List.countP_cons]
    by_cases hp : p a
    · rw [if_pos hp, ih]
      simp [hp]
      push_cast
      ring
    · rw [if_neg hp, ih]
      simp [hp]

theorem countP_range_sum (n : Nat) (p : Nat → Bool) :
    (((List.range n).countP p : Nat) : Int)
      = ∑ v ∈ Finset.range n, (if p v then (1 : Int) else 0) := by
  induction n with
  | zero => simp
  | succ m ih =>
    rw [List.range_succ, List.countP_append, Finset.sum_range_succ, ← ih]
    push_cast
    rw [List.countP_cons, List.countP_nil]
    split_ifs <;> simp_all

theorem card_filter_range_eq_countP (n : Nat) (p : Nat → Prop) [DecidablePred p] :
    ((Finset.range n).filter p).card = (List.range n).countP (fun c => decide (p c)) := by
  induction n with
  | zero => simp
  | succ m ih =>
    rw [Finset.range_succ, Finset.filter_insert, List.range_succ, List.countP_append,
      List.countP_cons, List.countP_nil]
    by_cases hp : p m
    · rw [if_pos hp, Finset.card_insert_of_not_mem (by simp)]
      simp [hp, ih]
    · rw [if_neg hp]
      simp [hp, ih]

theorem sum_indicator_range_eq (kk : Nat) (x : Int) (hx0 : 0 ≤ x) (hxk : x < (kk : Int)) :
    (∑ c ∈ Finset.range kk, (if x == (c : Int) then (1 : Int) else 0)) = 1 := by
  have hrw : ∀ c ∈ Finset.range kk, (if x == (c : Int) then (1 : Int) else 0)
      = if c = x.toNat then 1 else 0 := by
    intro c _
    by_cases hc : c = x.toNat
    · subst hc
      rw [Int.toNat_of_nonneg hx0]
      simp
    · have : x ≠ (c : Int) := by
        intro h
        apply hc
        omega
      simp [beq_eq_false_iff_ne.2 (fun h => this h.symm), this, hc]
  rw [Finset.sum_congr rfl hrw, Finset.sum_ite_eq' (Finset.range kk) x.toNat]
  rw [if_pos (Finset.mem_range.2 (by omega))]

theorem sum_sizeSpec_eq (I : Instance) (kk : Nat) (colorf : Nat → Int)
    (hc : ∀ v < I.n, colorf v = -1 ∨ (0 ≤ colorf v ∧ colorf v < (kk : Int))) :
    ∑ c ∈ Finset.range kk, sizeSpec I colorf (c : Int)
      = (((List.range I.n).countP (fun v => !(colorf v == -1)) : Nat) : Int) := by
  unfold sizeSpec
  have h1 : ∀ c ∈ Finset.range kk, (((List.range I.n).countP (fun v => colorf v == (c : Int)) : Nat) : Int)
      = ∑ v ∈ Finset.range I.n, (if colorf v == (c : Int) then (1 : Int) else 0) :=
    fun c _ => countP_range_sum I.n _
  rw [Finset.sum_congr rfl h1, Finset.sum_comm]
  rw [countP_range_sum I.n _]
  apply Finset.sum_congr rfl
  intro v hv
  have hvn : v < I.n := Finset.mem_range.1 hv
  rcases hc v hvn with hneg | ⟨h0, hk⟩
  · have : ∀ c ∈ Finset.range kk, (if colorf v == (c : Int) then (1 : Int) else 0) = 0 := by
      intro c _
      have : colorf v ≠ (c : Int) := by omega
      simp [beq_eq_false_iff_ne.2 this]
    rw [Finset.sum_congr rfl this, Finset.sum_const_zero]
    simp [beq_iff_eq.2 hneg]
  · rw [sum_indicator_range_eq kk (colorf v) h0 hk]
    have : colorf v ≠ -1 := by omega
    simp [beq_eq_false_iff_ne.2 this]

/-- `objSpec` change when a previously uncolored vertex receives a real
color: both the vertex and each same-colored neighbour gain one conflict. -/
theorem objSpec_updF_uncolored (I : Instance) (hG : GoodInst I) (s0 : Nat → Int) (v : Nat)
    (a : Int) (hv : v < I.n) (hvold : s0 v = -1) (ha : a ≠ -1) :
    objSpec I (updF s0 v a)
      = objSpec I s0 + 2 * ((I.adj v).countP (fun u => s0 u == a) : Int) := by
  unfold objSpec
  have hsub : ∀ x ∈ Finset.range I.n,
      confSpec I (updF s0 v a) x
        = confSpec I s0 x
          + (if x = v
              then ((I.adj v).countP (fun u => s0 u == a) : Int)
              else ((I.adj v).count x : Int) * (if a == s0 x then 1 else 0)) := by
    intro x _
    by_cases hxv : x = v
    · subst hxv
      rw [if_pos rfl, confSpec_updF_self I s0 x a ha (hG.irrefl x)]
      unfold confSpec
      rw [if_pos hvold]
      ring
    · rw [if_neg hxv, confSpec_updF_ne I s0 v x a hxv]
      congr 1
      by_cases hcx : s0 x = -1
      · rw [if_pos hcx]
        have h1 : (a == s0 x) = false := beq_eq_false_iff_ne.2 (by rw [hcx]; exact ha)
        rw [h1]
        simp
      · rw [if_neg hcx, hG.sym x v]
        have h2 : (s0 v == s0 x) = false := by
          rw [hvold]
          exact beq_eq_false_iff_ne.2 (fun h => hcx h.symm)
        rw [h2]
        simp
  rw [Finset.sum_congr rfl hsub, Finset.sum_add_distrib]
  have hsplit : ∀ x ∈ Finset.range I.n,
      (if x = v
        then ((I.adj v).countP (fun u => s0 u == a) : Int)
        else ((I.adj v).count x : Int) * (if a == s0 x then 1 else 0))
      = (if x = v then ((I.adj v).countP (fun u => s0 u == a) : Int) else 0)
        + ((I.adj v).count x : Int) * (if a == s0 x then 1 else 0) := by
    intro x _
    by_cases hxv : x = v
    · subst hxv
      rw [if_pos rfl, if_pos rfl, List.count_eq_zero_of_not_mem (hG.irrefl x)]
      push_cast
      ring
    · rw [if_neg hxv, if_neg hxv]
      ring
  rw [Finset.sum_congr rfl hsplit, Finset.sum_add_distrib]
  have hone : (∑ x ∈ Finset.range I.n,
      (if x = v then ((I.adj v).countP (fun u => s0 u == a) : Int) else 0))
      = ((I.adj v).countP (fun u => s0 u == a) : Int) := by
    rw [Finset.sum_ite_eq' (Finset.range I.n) v]
    simp [Finset.mem_range.2 hv]
  have hadj : ∀ u ∈ I.adj v, u < I.n := fun u hu => hG.adj_lt v u hu
  have htwo : (∑ x ∈ Finset.range I.n,
      ((I.adj v).count x : Int) * (if a == s0 x then 1 else 0))
      = ((I.adj v).countP (fun u => s0 u == a) : Int) := by
    rw [sum_count_indicator I.n (I.adj v) hadj (fun y => a == s0 y),
      countP_beq_comm (I.adj v) s0 a]
  rw [hone, htwo]
  ring

/-! ## The greedy inline conflict update agrees with `conflictAdjStep 1` -/

theorem greedyConflictStep_eq (v : Nat) (ch : Int) (hch : ch ≠ -1) (t : SolState) (u : Nat)
    (huv : u ≠ v) (hlw : ListWF t) (hmem : MemOK t) :
    greedyConflictStep v ch t u = conflictAdjStep 1 ch v t u := by
  by_cases hcu : t.color u = ch
  · have hneg : t.color u ≠ -1 := by rw [hcu]; exact hch
    have huv' : v ≠ u := fun h => huv h.symm
    have fv1 : t.conflictingIndex v = -1 → ¬ 0 < t.conflicts v := fun h hp =>
      listwf_not_mem hlw h ((hmem v).2 hp)
    have fv2 : t.conflictingIndex v ≠ -1 → 0 < t.conflicts v := fun h =>
      (hmem v).1 (listwf_mem hlw h)
    have fu1 : t.conflictingIndex u = -1 → ¬ 0 < t.conflicts u := fun h hp =>
      listwf_not_mem hlw h ((hmem u).2 hp)
    have fu2 : t.conflictingIndex u ≠ -1 → 0 < t.conflicts u := fun h =>
      (hmem u).1 (listwf_mem hlw h)
    unfold greedyConflictStep conflictAdjStep update_conflict_status
    rw [if_neg hneg, if_pos hcu, if_pos hcu]
    dsimp only
    simp only [updF_self, updF_ne _ _ _ huv, updF_ne _ _ _ huv']
    by_cases hv1 : t.conflictingIndex v = -1
    · have hcv0 := fv1 hv1
      by_cases hb : t.conflicts v = 0
      · simp only [if_pos (show t.conflicts v + 1 = 1 ∧ t.conflictingIndex v = -1 from
            ⟨by omega, hv1⟩),
          if_pos (show 0 < t.conflicts v + 1 by omega), if_pos hv1]
        simp only [updF_self, updF_ne _ _ _ huv, updF_ne _ _ _ huv']
        by_cases hu1 : t.conflictingIndex u = -1
        · have hcu0 := fu1 hu1
          by_cases hbu : t.conflicts u = 0
          · simp only [if_pos (show t.conflicts u + 1 = 1 ∧ t.conflictingIndex u = -1 from
                ⟨by omega, hu1⟩),
              if_pos (show 0 < t.conflicts u + 1 by omega), if_pos hu1]
          · simp only [if_neg (show ¬ (t.conflicts u + 1 = 1 ∧ t.conflictingIndex u = -1) by
                omega),
              if_neg (show ¬ 0 < t.conflicts u + 1 by omega), if_pos hu1]
        · have hcupos := fu2 hu1
          simp only [if_neg (show ¬ (t.conflicts u + 1 = 1 ∧ t.conflictingIndex u = -1) by
              omega),
            if_pos (show 0 < t.conflicts u + 1 by omega), if_neg hu1]
      · simp only [if_neg (show ¬ (t.conflicts v + 1 = 1 ∧ t.conflictingIndex v = -1) by
            omega),
          if_neg (show ¬ 0 < t.conflicts v + 1 by omega), if_pos hv1]
        simp only [updF_self, updF_ne _ _ _ huv, updF_ne _ _ _ huv']
        by_cases hu1 : t.conflictingIndex u = -1
        · have hcu0 := fu1 hu1
          by_cases hbu : t.conflicts u = 0
          · simp only [if_pos (show t.conflicts u + 1 = 1 ∧ t.conflictingIndex u = -1 from
                ⟨by omega, hu1⟩),
              if_pos (show 0 < t.conflicts u + 1 by omega), if_pos hu1]
          · simp only [if_neg (show ¬ (t.conflicts u + 1 = 1 ∧ t.conflictingIndex u = -1) by
                omega),
              if_neg (show ¬ 0 < t.conflicts u + 1 by omega), if_pos hu1]
        · have hcupos := fu2 hu1
          simp only [if_neg (show ¬ (t.conflicts u + 1 = 1 ∧ t.conflictingIndex u = -1) by
              omega),
            if_pos (show 0 < t.conflicts u + 1 by omega), if_neg hu1]
    · have hcvpos := fv2 hv1
      simp only [if_neg (show ¬ (t.conflicts v + 1 = 1 ∧ t.conflictingIndex v = -1) by
          omega),
        if_pos (show 0 < t.conflicts v + 1 by omega), if_neg hv1]
      simp only [updF_self, updF_ne _ _ _ huv, updF_ne _ _ _ huv']
      by_cases hu1 : t.conflictingIndex u = -1
      · have hcu0 := fu1 hu1
        by_cases hbu : t.conflicts u = 0
        · simp only [if_pos (show t.conflicts u + 1 = 1 ∧ t.conflictingIndex u = -1 from
              ⟨by omega, hu1⟩),
            if_pos (show 0 < t.conflicts u + 1 by omega), if_pos hu1]
        · simp only [if_neg (show ¬ (t.conflicts u + 1 = 1 ∧ t.conflictingIndex u = -1) by
              omega),
            if_neg (show ¬ 0 < t.conflicts u + 1 by omega), if_pos hu1]
      · have hcupos := fu2 hu1
        simp only [if_neg (show ¬ (t.conflicts u + 1 = 1 ∧ t.conflictingIndex u = -1) by
            omega),
          if_pos (show 0 < t.conflicts u + 1 by omega), if_neg hu1]
  · unfold greedyConflictStep conflictAdjStep
    by_cases hneg : t.color u = -1
    · rw [if_pos hneg, if_neg hcu]
    · rw [if_neg hneg, if_neg hcu, if_neg hcu]

theorem greedy_fold_eq_adj (v : Nat) (ch : Int) (hch : ch ≠ -1) (l : List Nat) :
    ∀ (t : SolState), v ∉ l → ListWF t → MemOK t →
      l.foldl (greedyConflictStep v ch) t = l.foldl (conflictAdjStep 1 ch v) t := by
  induction l with
  | nil => intros; rfl
  | cons u rest ih =>
    intro t hvl hlw hmem
    have huv : u ≠ v := fun h => hvl (h ▸ List.mem_cons_self u rest)
    obtain ⟨_, _, _, hlw1, hmem1⟩ := conflictAdjStep_spec 1 ch v t u hlw hmem
    rw [List.foldl_cons, List.foldl_cons, greedyConflictStep_eq v ch hch t u huv hlw hmem]
    exact ih _ (fun h => hvl (List.mem_cons_of_mem u h)) hlw1 hmem1

theorem countP_bang_eq (l : List Nat) (p : Nat → Bool) :
    l.countP (fun a => !p a) = l.countP (fun a => decide (¬ p a = true)) := by
  apply List.countP_congr
  intro a _
  by_cases h : p a = true <;> simp [h]

set_option maxHeartbeats 1600000 in
/-- One greedy placement step preserves the loop invariant and colors the
placed vertex with a real class. -/
theorem greedyPlaceStep_inv (I : Instance) (hG : GoodInst I) (kk floor_nk max_r : Nat)
    (fb : SolState → Nat) (rng : Nat → Nat) (s : SolState) (r rix : Nat) (v : Nat)
    (hP : PGreedy I kk floor_nk max_r (s, r, rix)) (hv : v < I.n) (hvc : s.color v = -1) :
    PGreedy I kk floor_nk max_r (greedyPlaceStep I kk floor_nk max_r fb rng (s, r, rix) v)
    ∧ ∃ ch : Nat, ch < kk
        ∧ (greedyPlaceStep I kk floor_nk max_r fb rng (s, r, rix) v).1.color
            = updF s.color v (ch : Int) := by
  have hne := hP.n_eq
  have hke := hP.k_eq
  have hkp := hP.k_pos
  have hfl := hP.fl
  have hbg := hP.bg
  have hfld := hP.floordef
  have hmr := hP.maxr
  have hconf := hP.conf
  have hobj := hP.objEq
  have hsizes := hP.sizes
  have hsizeneg := hP.sizeneg
  have hcolors := hP.colors
  have hcolout := hP.colout
  have hlw := hP.lw
  have hmem := hP.mem
  have hbound := hP.bound
  have hrc := hP.rcount
  have hrm := hP.rmax
  dsimp only at hne hke hfl hbg hconf hobj hsizes hsizeneg hcolors hcolout hlw hmem hbound hrc hrm
  -- the candidate class set
  have hsum : ∑ c ∈ Finset.range kk, s.classSize (c : Int)
      = (((List.range I.n).countP (fun w => !(s.color w == -1)) : Nat) : Int) := by
    have h1 : ∀ c ∈ Finset.range kk, s.classSize (c : Int) = sizeSpec I s.color (c : Int) :=
      fun c _ => hsizes (c : Int) (Int.ofNat_nonneg c)
    rw [Finset.sum_congr rfl h1]
    exact sum_sizeSpec_eq I kk s.color (fun w _ => hcolors w)
  have hcolored : (((List.range I.n).countP (fun w => !(s.color w == -1)) : Nat) : Int)
      ≤ (I.n : Int) - 1 := by
    have hlen := List.length_eq_countP_add_countP (fun w => !(s.color w == -1)) (List.range I.n)
    rw [List.length_range, ← countP_bang_eq] at hlen
    have hpos : 0 < (List.range I.n).countP (fun w => !(!(s.color w == -1))) := by
      apply List.countP_pos.2
      refine ⟨v, List.mem_range.2 hv, ?_⟩
      simp [hvc]
    omega
  obtain ⟨A, hA⟩ : ∃ A, A = kk * floor_nk := ⟨_, rfl⟩
  obtain ⟨B, hB⟩ : ∃ B, B = I.n % kk := ⟨_, rfl⟩
  have hdm : A + B = I.n := by
    rw [hA, hB, hfld]
    exact Nat.div_add_mod I.n kk
  have hml : B < kk := by
    rw [hB]
    exact Nat.mod_lt I.n hkp
  have hmrA : max_r = I.n - A := by rw [hA, ← hmr]
  have hmod1 : A + max_r = I.n := by omega
  have hmod2 : max_r < kk := by omega
  have hIne : (List.range kk).filter
      (fun (c : Nat) => decide (s.classSize (c : Int)
        ≤ (if r < max_r then (floor_nk : Int) + 1 else (floor_nk : Int)) - 1)) ≠ [] := by
    intro hempty
    have hall := List.filter_eq_nil_iff.1 hempty
    by_cases hrlt : r < max_r
    · have hallk : ∀ c ∈ Finset.range kk, s.classSize (c : Int) = (floor_nk : Int) + 1 := by
        intro c hc
        have h1 := hall c (List.mem_range.2 (Finset.mem_range.1 hc))
        rw [if_pos hrlt] at h1
        have h2 : ¬ (s.classSize (c : Int) ≤ (floor_nk : Int) + 1 - 1) := by
          intro hx
          exact h1 (decide_eq_true hx)
        have h3 := hbound (c : Int) (Int.ofNat_nonneg c)
        omega
      have hfull : ((Finset.range kk).filter
          (fun c : Nat => s.classSize (c : Int) = (floor_nk : Int) + 1)) = Finset.range kk :=
        Finset.filter_eq_self.2 hallk
      rw [hfull, Finset.card_range] at hrc
      omega
    · have hallge : ∀ c ∈ Finset.range kk, (floor_nk : Int) ≤ s.classSize (c : Int) := by
        intro c hc
        have h1 := hall c (List.mem_range.2 (Finset.mem_range.1 hc))
        rw [if_neg hrlt] at h1
        have h2 : ¬ (s.classSize (c : Int) ≤ (floor_nk : Int) - 1) := by
          intro hx
          exact h1 (decide_eq_true hx)
        omega
      have hsplit := Finset.sum_filter_add_sum_filter_not (Finset.range kk)
        (fun c : Nat => s.classSize (c : Int) = (floor_nk : Int) + 1)
        (fun c : Nat => s.classSize (c : Int))
      have hbigsum : ∑ c ∈ (Finset.range kk).filter
          (fun c : Nat => s.classSize (c : Int) = (floor_nk : Int) + 1), s.classSize (c : Int)
          = (((Finset.range kk).filter
            (fun c : Nat => s.classSize (c : Int) = (floor_nk : Int) + 1)).card : Int)
              * ((floor_nk : Int) + 1) := by
        rw [Finset.sum_congr rfl (fun c hc => (Finset.mem_filter.1 hc).2)]
        rw [Finset.sum_const, nsmul_eq_mul]
      have hsmallsum : (((Finset.range kk).filter
          (fun c : Nat => ¬ s.classSize (c : Int) = (floor_nk : Int) + 1)).card : Int)
            * (floor_nk : Int)
          ≤ ∑ c ∈ (Finset.range kk).filter
            (fun c : Nat => ¬ s.classSize (c : Int) = (floor_nk : Int) + 1),
              s.classSize (c : Int) := by
        have := Finset.card_nsmul_le_sum ((Finset.range kk).filter
            (fun c : Nat => ¬ s.classSize (c : Int) = (floor_nk : Int) + 1))
          (fun c : Nat => s.classSize (c : Int)) (floor_nk : Int)
          (fun c hc => hallge c (Finset.mem_filter.1 hc).1)
        rw [nsmul_eq_mul] at this
        exact this
      have hcards := Finset.filter_card_add_filter_neg_card_eq_card
        (s := Finset.range kk) (fun c : Nat => s.classSize (c : Int) = (floor_nk : Int) + 1)
      rw [Finset.card_range] at hcards
      have hkk : ((Finset.range kk).filter
          (fun c : Nat => s.classSize (c : Int) = (floor_nk : Int) + 1)).card = r := hrc.symm
      -- Σ = n would follow, contradicting Σ ≤ n - 1
      have hrmax : r = max_r := by omega
      have hc1 : (kk : Int) * (floor_nk : Int) + (r : Int) ≤ ∑ c ∈ Finset.range kk, s.classSize (c : Int) := by
        rw [← hsplit, hbigsum, hkk]
        have hcard2 : (((Finset.range kk).filter
            (fun c : Nat => ¬ s.classSize (c : Int) = (floor_nk : Int) + 1)).card : Int)
            = (kk : Int) - (r : Int) := by
          rw [hkk] at hcards
          omega
        rw [hcard2] at hsmallsum
        nlinarith [hsmallsum]
      rw [hsum] at hc1
      have hnn : (kk : Int) * (floor_nk : Int) + (max_r : Int) = (I.n : Int) := by
        have := hmod1
        rw [hA] at this
        exact_mod_cast congrArg (fun x : Nat => (x : Int)) this
      obtain ⟨C, hC⟩ : ∃ C : Int, C = (kk : Int) * (floor_nk : Int) := ⟨_, rfl⟩
      rw [← hC] at hnn hc1
      omega
  -- pick the chosen class and characterize the step
  have hchoose : ∃ (ch : Nat) (rix2 : Nat),
      ch ∈ (List.range kk).filter
        (fun (c : Nat) => decide (s.classSize (c : Int)
          ≤ (if r < max_r then (floor_nk : Int) + 1 else (floor_nk : Int)) - 1))
      ∧ greedyPlaceStep I kk floor_nk max_r fb rng (s, r, rix) v
        = ((I.adj v).foldl (greedyConflictStep v (ch : Int))
            { s with color := updF s.color v (ch : Int),
                     classSize := updF s.classSize (ch : Int) (s.classSize (ch : Int) + 1) },
           (if updF s.classSize (ch : Int) (s.classSize (ch : Int) + 1) (ch : Int)
               = (floor_nk : Int) + 1 then r + 1 else r),
           rix2) := by
    cases hf : ((List.range kk).filter
        (fun (c : Nat) => decide (s.classSize (c : Int)
          ≤ (if r < max_r then (floor_nk : Int) + 1 else (floor_nk : Int)) - 1))).find?
        (fun (c : Nat) => (I.adj v).all (fun u => !(s.color u == (c : Int)))) with
    | some c =>
      refine ⟨c, rix, List.mem_of_find?_eq_some hf, ?_⟩
      simp only [greedyPlaceStep]
      rw [hf]
    | none =>
      have hemp : ((List.range kk).filter
          (fun (c : Nat) => decide (s.classSize (c : Int)
            ≤ (if r < max_r then (floor_nk : Int) + 1 else (floor_nk : Int)) - 1))).isEmpty
          = false := by
        simp [List.isEmpty_iff, hIne]
      have hlenpos : 0 < ((List.range kk).filter
          (fun (c : Nat) => decide (s.classSize (c : Int)
            ≤ (if r < max_r then (floor_nk : Int) + 1 else (floor_nk : Int)) - 1))).length :=
        List.length_pos.2 hIne
      have hidx := Nat.mod_lt (rng rix) hlenpos
      refine ⟨((List.range kk).filter
          (fun (c : Nat) => decide (s.classSize (c : Int)
            ≤ (if r < max_r then (floor_nk : Int) + 1 else (floor_nk : Int)) - 1))).getD
          (rng rix % ((List.range kk).filter
            (fun (c : Nat) => decide (s.classSize (c : Int)
              ≤ (if r < max_r then (floor_nk : Int) + 1 else (floor_nk : Int)) - 1))).length) 0,
        rix + 1, ?_, ?_⟩
      · rw [List.getD_eq_getElem _ 0 hidx]
        exact List.getElem_mem hidx
      · simp only [greedyPlaceStep]
        rw [hf, hemp]
        simp only [Bool.false_eq_true, if_false]
  obtain ⟨ch, rix2, hchmem, heq⟩ := hchoose
  have hchk : ch < kk := List.mem_range.1 (List.mem_filter.1 hchmem).1
  have hchsz0 := of_decide_eq_true (List.mem_filter.1 hchmem).2
  have hchfl : s.classSize (ch : Int) ≤ (floor_nk : Int) := by
    by_cases hrlt : r < max_r
    · rw [if_pos hrlt] at hchsz0
      omega
    · rw [if_neg hrlt] at hchsz0
      omega
  have hch1 : ((ch : Int)) ≠ -1 := by omega
  rw [heq]
  obtain ⟨s1, hs1⟩ : ∃ s1 : SolState, s1 = ({ s with
      color := updF s.color v (ch : Int)
      classSize := updF s.classSize (ch : Int) (s.classSize (ch : Int) + 1) } : SolState) :=
    ⟨_, rfl⟩
  rw [← hs1]
  have hs1col : s1.color = updF s.color v (ch : Int) := by rw [hs1]
  have hs1cs : s1.classSize = updF s.classSize (ch : Int) (s.classSize (ch : Int) + 1) := by
    rw [hs1]
  have hs1conf : s1.conflicts = s.conflicts := by rw [hs1]
  have hs1obj : s1.obj = s.obj := by rw [hs1]
  have hs1n : s1.n = s.n := by rw [hs1]
  have hs1k : s1.k = s.k := by rw [hs1]
  have hs1fl : s1.floor_size = s.floor_size := by rw [hs1]
  have hs1bg : s1.big_size = s.big_size := by rw [hs1]
  have hlw1 : ListWF s1 := by
    rw [hs1]
    exact ⟨hlw.idx_of, hlw.idx_neg⟩
  have hmem1 : MemOK s1 := by
    rw [hs1]
    exact hmem
  have hfoldeq := greedy_fold_eq_adj v (ch : Int) hch1 (I.adj v) s1 (hG.irrefl v) hlw1 hmem1
  rw [hfoldeq]
  obtain ⟨⟨hfn, hfk, hfcol, hfcs, hffl, hfbg⟩, hfobj, hfconf, hflw, hfmem⟩ :=
    conflictAdjLoop_spec 1 (ch : Int) v (I.adj v) s1 hlw1 hmem1
  -- move the counting over `s1.color` back to `s.color`
  have hcntA : ((I.adj v).countP (fun w => s1.color w == (ch : Int)) : Int)
      = ((I.adj v).countP (fun w => s.color w == (ch : Int)) : Int) := by
    have heq2 := List.countP_congr (l := I.adj v)
      (p := fun w => s1.color w == (ch : Int)) (q := fun w => s.color w == (ch : Int))
      (fun w hw => by
        have hwv : w ≠ v := fun h => hG.irrefl v (h ▸ hw)
        simp only [hs1col]
        rw [updF_ne _ _ _ hwv])
    rw [heq2]
  have hfiltereq : (I.adj v).filter (fun w => s1.color w == (ch : Int))
      = (I.adj v).filter (fun w => s.color w == (ch : Int)) := by
    apply List.filter_congr
    intro w hw
    have hwv : w ≠ v := fun h => hG.irrefl v (h ▸ hw)
    simp only [hs1col]
    rw [updF_ne _ _ _ hwv]
  have hconfv0 : s.conflicts v = 0 := by
    rw [hconf v]
    unfold confSpec
    rw [if_pos hvc]
  refine ⟨⟨?_, ?_, hkp, ?_, ?_, hfld, hmr, ?_, ?_, ?_, ?_, ?_, ?_, hflw, hfmem, ?_, ?_, ?_⟩,
    ⟨ch, hchk, ?_⟩⟩
  · rw [hfn, hs1n]
    exact hne
  · rw [hfk, hs1k]
    exact hke
  · rw [hffl, hs1fl]
    exact hfl
  · rw [hfbg, hs1bg]
    exact hbg
  · -- conf
    intro x
    dsimp only
    rw [hfconf x, hcntA, hfiltereq, hs1conf, hfcol, hs1col]
    by_cases hxv : x = v
    · subst hxv
      rw [if_pos rfl, confSpec_updF_self I s.color x (ch : Int) hch1 (hG.irrefl x)]
      rw [List.count_eq_zero_of_not_mem
        (fun hmem2 => hG.irrefl x (List.mem_of_mem_filter hmem2))]
      rw [hconfv0]
      push_cast
      ring
    · rw [if_neg hxv, confSpec_updF_ne I s.color v x (ch : Int) hxv, hconf x, count_filter_ite]
      rw [hvc]
      by_cases hx1 : s.color x = -1
      · rw [if_pos hx1, hx1]
        have hb1 : ((-1 : Int) == (ch : Int)) = false := beq_eq_false_iff_ne.2 (by omega)
        rw [hb1]
        simp
      · rw [if_neg hx1, hG.sym x v]
        have hb2 : ((-1 : Int) == s.color x) = false :=
          beq_eq_false_iff_ne.2 (fun h => hx1 h.symm)
        rw [hb2]
        by_cases hx2 : s.color x = (ch : Int)
        · have hb3 : (s.color x == (ch : Int)) = true := beq_iff_eq.2 hx2
          have hb4 : ((ch : Int) == s.color x) = true := beq_iff_eq.2 hx2.symm
          rw [hb3, hb4]
          simp
        · have hb3 : (s.color x == (ch : Int)) = false := beq_eq_false_iff_ne.2 hx2
          have hb4 : ((ch : Int) == s.color x) = false :=
            beq_eq_false_iff_ne.2 (fun h => hx2 h.symm)
          rw [hb3, hb4]
          simp
  · -- objEq
    dsimp only
    rw [hfobj, hcntA, hs1obj, hfcol, hs1col,
      objSpec_updF_uncolored I hG s.color v (ch : Int) hv hvc hch1]
    rw [← hobj]
    ring
  · -- sizes
    intro c hc0
    dsimp only
    rw [hfcs, hs1cs, hfcol, hs1col, sizeSpec_updF I s.color v (ch : Int) hv c, hvc]
    have hbneg : ((-1 : Int) == c) = false := beq_eq_false_iff_ne.2 (by omega)
    rw [hbneg, updF_apply]
    by_cases hcch : c = ((ch : Nat) : Int)
    · subst hcch
      rw [if_pos rfl, hsizes _ hc0]
      have hb : ((((ch : Nat) : Int)) == ((ch : Nat) : Int)) = true := beq_self_eq_true _
      rw [hb]
      simp
    · rw [if_neg hcch, hsizes c hc0]
      have hb : ((((ch : Nat) : Int)) == c) = false :=
        beq_eq_false_iff_ne.2 (fun h => hcch h.symm)
      rw [hb]
      simp
  · -- sizeneg
    intro c hcneg
    dsimp only
    rw [hfcs, hs1cs, updF_ne _ _ _ (by omega : c ≠ ((ch : Nat) : Int))]
    exact hsizeneg c hcneg
  · -- colors
    intro x
    dsimp only
    rw [hfcol, hs1col, updF_apply]
    by_cases hxv : x = v
    · rw [if_pos hxv]
      right
      constructor
      · omega
      · exact_mod_cast Nat.cast_lt.2 hchk
    · rw [if_neg hxv]
      exact hcolors x
  · -- colout
    intro w hw
    dsimp only
    have hwv : w ≠ v := by omega
    rw [hfcol, hs1col, updF_ne _ _ _ hwv]
    exact hcolout w hw
  · -- bound
    intro c hc0
    dsimp only
    rw [hfcs, hs1cs, updF_apply]
    by_cases hcch : c = ((ch : Nat) : Int)
    · rw [if_pos hcch]
      omega
    · rw [if_neg hcch]
      exact hbound c hc0
  · -- rcount
    dsimp only
    rw [hfcs, hs1cs, updF_self]
    have hchnot : ch ∉ (Finset.range kk).filter
        (fun c : Nat => s.classSize (c : Int) = (floor_nk : Int) + 1) := by
      intro hmem2
      have := (Finset.mem_filter.1 hmem2).2
      omega
    by_cases hcond : s.classSize ((ch : Nat) : Int) + 1 = (floor_nk : Int) + 1
    · rw [if_pos hcond]
      have hset : (Finset.range kk).filter
          (fun c : Nat => updF s.classSize ((ch : Nat) : Int)
            (s.classSize ((ch : Nat) : Int) + 1) (c : Int) = (floor_nk : Int) + 1)
          = insert ch ((Finset.range kk).filter
            (fun c : Nat => s.classSize (c : Int) = (floor_nk : Int) + 1)) := by
        ext c
        simp only [Finset.mem_filter, Finset.mem_insert, Finset.mem_range]
        by_cases hcch : c = ch
        · subst hcch
          rw [updF_self]
          constructor
          · intro _
            left
            rfl
          · intro _
            exact ⟨hchk, hcond⟩
        · rw [updF_ne _ _ _ (by omega : ((c : Nat) : Int) ≠ ((ch : Nat) : Int))]
          constructor
          · intro hx
            exact Or.inr ⟨hx.1, hx.2⟩
          · intro hx
            rcases hx with hx | hx
            · exact absurd hx hcch
            · exact ⟨hx.1, hx.2⟩
      rw [hset, Finset.card_insert_of_not_mem hchnot, ← hrc]
    · rw [if_neg hcond]
      have hset : (Finset.range kk).filter
          (fun c : Nat => updF s.classSize ((ch : Nat) : Int)
            (s.classSize ((ch : Nat) : Int) + 1) (c : Int) = (floor_nk : Int) + 1)
          = (Finset.range kk).filter
            (fun c : Nat => s.classSize (c : Int) = (floor_nk : Int) + 1) := by
        ext c
        simp only [Finset.mem_filter, Finset.mem_range]
        by_cases hcch : c = ch
        · subst hcch
          rw [updF_self]
          constructor
          · intro hx
            exact absurd hx.2 hcond
          · intro hx
            omega
        · rw [updF_ne _ _ _ (by omega : ((c : Nat) : Int) ≠ ((ch : Nat) : Int))]
      rw [hset, ← hrc]
  · -- rmax
    dsimp only
    rw [updF_self]
    by_cases hcond : s.classSize ((ch : Nat) : Int) + 1 = (floor_nk : Int) + 1
    · rw [if_pos hcond]
      by_cases hrlt : r < max_r
      · omega
      · rw [if_neg hrlt] at hchsz0
        omega
    · rw [if_neg hcond]
      exact hrm
  · -- color equation for the progress witness
    dsimp only
    rw [hfcol, hs1col]

theorem greedy_fold_inv (I : Instance) (hG : GoodInst I) (kk floor_nk max_r : Nat)
    (fb : SolState → Nat) (rng : Nat → Nat) (l : List Nat) :
    ∀ (s : SolState) (r rix : Nat), PGreedy I kk floor_nk max_r (s, r, rix) →
      (∀ w ∈ l, w < I.n ∧ s.color w = -1) → l.Nodup →
      PGreedy I kk floor_nk max_r
        (l.foldl (greedyPlaceStep I kk floor_nk max_r fb rng) (s, r, rix))
      ∧ (∀ w, w ∉ l →
          (l.foldl (greedyPlaceStep I kk floor_nk max_r fb rng) (s, r, rix)).1.color w
            = s.color w)
      ∧ (∀ w ∈ l,
          (l.foldl (greedyPlaceStep I kk floor_nk max_r fb rng) (s, r, rix)).1.color w ≠ -1) := by
  induction l with
  | nil =>
    intro s r rix hP _ _
    exact ⟨hP, fun w _ => rfl, fun w hw => absurd hw (List.not_mem_nil w)⟩
  | cons v rest ih =>
    intro s r rix hP hl hnd
    have hv := (hl v (List.mem_cons_self v rest)).1
    have hvc := (hl v (List.mem_cons_self v rest)).2
    obtain ⟨hP1, ch, hchk, hcol1⟩ := greedyPlaceStep_inv I hG kk floor_nk max_r fb rng
      s r rix v hP hv hvc
    have hvrest : v ∉ rest := (List.nodup_cons.1 hnd).1
    have hndrest : rest.Nodup := (List.nodup_cons.1 hnd).2
    have hlrest : ∀ w ∈ rest, w < I.n
        ∧ (greedyPlaceStep I kk floor_nk max_r fb rng (s, r, rix) v).1.color w = -1 := by
      intro w hw
      have hwv : w ≠ v := fun h => hvrest (h ▸ hw)
      refine ⟨(hl w (List.mem_cons_of_mem v hw)).1, ?_⟩
      rw [hcol1, updF_ne _ _ _ hwv]
      exact (hl w (List.mem_cons_of_mem v hw)).2
    obtain ⟨hPf, hpresf, hcolf⟩ := ih
      (greedyPlaceStep I kk floor_nk max_r fb rng (s, r, rix) v).1
      (greedyPlaceStep I kk floor_nk max_r fb rng (s, r, rix) v).2.1
      (greedyPlaceStep I kk floor_nk max_r fb rng (s, r, rix) v).2.2
      hP1 hlrest hndrest
    rw [List.foldl_cons]
    refine ⟨hPf, ?_, ?_⟩
    · intro w hw
      have hw1 : w ∉ rest := fun h => hw (List.mem_cons_of_mem v h)
      have hwv : w ≠ v := fun h => hw (h ▸ List.mem_cons_self v rest)
      rw [hpresf w hw1, hcol1, updF_ne _ _ _ hwv]
    · intro w hw
      rcases List.mem_cons.1 hw with hwv | hwr
      · subst hwv
        rw [hpresf w hvrest, hcol1, updF_self]
        omega
      · exact hcolf w hwr

theorem pgreedy_init (I : Instance) (k : Nat) (hk : 0 < k) :
    PGreedy I k (I.n / k) (I.n - k * (I.n / k)) (initState I k, 0, 0) := by
  refine ⟨rfl, rfl, hk, rfl, rfl, rfl, rfl, ?_, ?_, ?_, fun c _ => rfl, fun v => Or.inl rfl,
    fun v _ => rfl, ⟨?_, fun x _ => rfl⟩, ?_, ?_, ?_, ?_⟩
  · intro v
    show (0 : Int) = confSpec I (fun _ => -1) v
    unfold confSpec
    rw [if_pos rfl]
  · show 2 * (0 : Int) = objSpec I (fun _ => -1)
    unfold objSpec confSpec
    simp
  · intro c hc0
    show (0 : Int) = sizeSpec I (fun _ => -1) c
    unfold sizeSpec
    rw [List.countP_eq_zero.2]
    · rfl
    · intro a _
      simp only [beq_iff_eq]
      omega
  · intro x i
    show ([] : List Nat).get? i = some x ↔ (-1 : Int) = (i : Int)
    constructor
    · intro h
      simp at h
    · intro h
      omega
  · intro x
    show x ∈ ([] : List Nat) ↔ (0 : Int) < 0
    simp
  · intro c _
    show (0 : Int) ≤ ((I.n / k : Nat) : Int) + 1
    have h0 : (0 : Int) ≤ ((I.n / k : Nat) : Int) := Int.ofNat_nonneg _
    omega
  · show 0 = ((Finset.range k).filter
      (fun c : Nat => (0 : Int) = ((I.n / k : Nat) : Int) + 1)).card
    rw [Finset.filter_false_of_mem, Finset.card_empty]
    intro c _
    have h0 : (0 : Int) ≤ ((I.n / k : Nat) : Int) := Int.ofNat_nonneg _
    omega
  · exact Nat.zero_le _

theorem pgreedy_final (I : Instance) (kk floor_nk max_r : Nat) (s : SolState) (r rix : Nat)
    (hP : PGreedy I kk floor_nk max_r (s, r, rix)) (hfull : ∀ v < I.n, s.color v ≠ -1) :
    Good I s ∧ FieldsOK s ∧ Equity s := by
  have hne := hP.n_eq
  have hke := hP.k_eq
  have hkp := hP.k_pos
  have hfl := hP.fl
  have hbg := hP.bg
  have hfld := hP.floordef
  have hmr := hP.maxr
  have hconf := hP.conf
  have hobj := hP.objEq
  have hsizes := hP.sizes
  have hsizeneg := hP.sizeneg
  have hcolors := hP.colors
  have hlw := hP.lw
  have hmem := hP.mem
  have hbound := hP.bound
  have hrc := hP.rcount
  have hrm := hP.rmax
  dsimp only at hne hke hfl hbg hconf hobj hsizes hsizeneg hcolors hlw hmem hbound hrc hrm
  -- all classes sum to n
  have hsum : ∑ c ∈ Finset.range kk, s.classSize (c : Int)
      = (((List.range I.n).countP (fun w => !(s.color w == -1)) : Nat) : Int) := by
    have h1 : ∀ c ∈ Finset.range kk, s.classSize (c : Int) = sizeSpec I s.color (c : Int) :=
      fun c _ => hsizes (c : Int) (Int.ofNat_nonneg c)
    rw [Finset.sum_congr rfl h1]
    exact sum_sizeSpec_eq I kk s.color (fun w _ => hcolors w)
  have hcnt : ((List.range I.n).countP (fun w => !(s.color w == -1))) = I.n := by
    have := List.countP_eq_length (p := fun w => !(s.color w == -1)) (l := List.range I.n)
    rw [List.length_range] at this
    apply this.2
    intro a ha
    have han := List.mem_range.1 ha
    simp [beq_eq_false_iff_ne.2 (hfull a han)]
  rw [hcnt] at hsum
  -- the two filter halves
  have hrkk : r ≤ kk := by
    rw [hrc]
    calc ((Finset.range kk).filter
        (fun c : Nat => s.classSize (c : Int) = (floor_nk : Int) + 1)).card
        ≤ (Finset.range kk).card := Finset.card_filter_le _ _
      _ = kk := Finset.card_range kk
  have hsplit := Finset.sum_filter_add_sum_filter_not (Finset.range kk)
    (fun c : Nat => s.classSize (c : Int) = (floor_nk : Int) + 1)
    (fun c : Nat => s.classSize (c : Int))
  have hbigsum : ∑ c ∈ (Finset.range kk).filter
      (fun c : Nat => s.classSize (c : Int) = (floor_nk : Int) + 1), s.classSize (c : Int)
      = (r : Int) * ((floor_nk : Int) + 1) := by
    rw [Finset.sum_congr rfl (fun c hc => (Finset.mem_filter.1 hc).2), Finset.sum_const,
      nsmul_eq_mul, ← hrc]
  have hsmall_le : ∀ c ∈ (Finset.range kk).filter
      (fun c : Nat => ¬ s.classSize (c : Int) = (floor_nk : Int) + 1),
      s.classSize (c : Int) ≤ (floor_nk : Int) := by
    intro c hc
    have h1 := hbound (c : Int) (Int.ofNat_nonneg c)
    have h2 := (Finset.mem_filter.1 hc).2
    omega
  have hcards := Finset.filter_card_add_filter_neg_card_eq_card
    (s := Finset.range kk) (fun c : Nat => s.classSize (c : Int) = (floor_nk : Int) + 1)
  rw [Finset.card_range] at hcards
  have hsmallcard : ((Finset.range kk).filter
      (fun c : Nat => ¬ s.classSize (c : Int) = (floor_nk : Int) + 1)).card = kk - r := by
    omega
  have hsmallsum_le : ∑ c ∈ (Finset.range kk).filter
      (fun c : Nat => ¬ s.classSize (c : Int) = (floor_nk : Int) + 1), s.classSize (c : Int)
      ≤ ((kk - r : Nat) : Int) * (floor_nk : Int) := by
    have := Finset.sum_le_card_nsmul ((Finset.range kk).filter
        (fun c : Nat => ¬ s.classSize (c : Int) = (floor_nk : Int) + 1))
      (fun c : Nat => s.classSize (c : Int)) ((floor_nk : Int)) hsmall_le
    rw [hsmallcard, nsmul_eq_mul] at this
    exact this
  have hnat : (kk : Int) * (floor_nk : Int) + (max_r : Int) = (I.n : Int) := by
    have h1 : kk * floor_nk + max_r = I.n := by
      have hdm := Nat.div_add_mod I.n kk
      have hmd : kk * (I.n / kk) ≤ I.n := Nat.mul_div_le I.n kk
      rw [hmr, hfld]
      omega
    exact_mod_cast congrArg (fun x : Nat => (x : Int)) h1
  have hcast : ((kk - r : Nat) : Int) = (kk : Int) - (r : Int) := by
    push_cast [hrkk]
    ring
  -- squeeze: r = max_r and the small classes sum is tight
  have hrmax : r = max_r ∧ ∑ c ∈ (Finset.range kk).filter
      (fun c : Nat => ¬ s.classSize (c : Int) = (floor_nk : Int) + 1), s.classSize (c : Int)
      = ((kk - r : Nat) : Int) * (floor_nk : Int) := by
    rw [hcast] at hsmallsum_le ⊢
    have h1 : (r : Int) * ((floor_nk : Int) + 1)
        = (r : Int) * (floor_nk : Int) + (r : Int) := by ring
    have h2 : ((kk : Int) - (r : Int)) * (floor_nk : Int)
        = (kk : Int) * (floor_nk : Int) - (r : Int) * (floor_nk : Int) := by ring
    rw [h2] at hsmallsum_le ⊢
    have hrm' : (r : Int) ≤ (max_r : Int) := by exact_mod_cast hrm
    constructor
    · have : (max_r : Int) ≤ (r : Int) := by linarith [hsum, hsplit, hbigsum, hsmallsum_le, hnat]
      exact_mod_cast le_antisymm hrm' this
    · linarith [hsum, hsplit, hbigsum, hsmallsum_le, hnat]
  -- every small class is exactly at the floor
  have hsmall_eq : ∀ c ∈ (Finset.range kk).filter
      (fun c : Nat => ¬ s.classSize (c : Int) = (floor_nk : Int) + 1),
      s.classSize (c : Int) = (floor_nk : Int) := by
    intro c0 hc0
    by_contra hne2
    have hlt : s.classSize ((c0 : Nat) : Int) < (floor_nk : Int) := by
      have := hsmall_le c0 hc0
      omega
    have hstrict := Finset.sum_lt_sum hsmall_le ⟨c0, hc0, hlt⟩
    rw [Finset.sum_const, nsmul_eq_mul, hsmallcard] at hstrict
    exact absurd hrmax.2 (ne_of_lt hstrict)
  refine ⟨⟨hne, by omega, hconf, hobj, ?_, ?_, hlw, hmem⟩, ⟨?_, ?_⟩, ⟨?_, ?_⟩⟩
  · -- sizes for every integer class id
    intro c
    by_cases hc0 : 0 ≤ c
    · exact hsizes c hc0
    · rw [hsizeneg c (by omega)]
      unfold sizeSpec
      rw [List.countP_eq_zero.2]
      · rfl
      · intro a ha
        have han := List.mem_range.1 ha
        rcases hcolors a with h1 | h1
        · exact absurd h1 (hfull a han)
        · simp only [beq_iff_eq]
          omega
  · -- colors are real and in range
    intro v hvn
    rcases hcolors v with h1 | h1
    · exact absurd h1 (hfull v hvn)
    · rw [hke]
      exact h1
  · rw [hfl, hne, hke, hfld]
  · rw [hbg, hfl]
  · -- every class is floor or big
    intro c hck
    have hcmem : c ∈ Finset.range kk := Finset.mem_range.2 (by omega)
    by_cases hbig : s.classSize (c : Int) = (floor_nk : Int) + 1
    · right
      rw [hbig, hbg]
    · left
      rw [hfl]
      exact hsmall_eq c (Finset.mem_filter.2 ⟨hcmem, hbig⟩)
  · -- the number of big classes
    have hfeq : (Finset.range s.k).filter (fun c : Nat => s.classSize (c : Int) = s.big_size)
        = (Finset.range kk).filter
          (fun c : Nat => s.classSize (c : Int) = (floor_nk : Int) + 1) := by
      rw [hke]
      apply Finset.filter_congr
      intro c _
      rw [hbg]
    rw [hfeq, ← hrc, hrmax.1, hmr, hfld, hne, hke]

theorem construct_greedy_initial_good (I : Instance) (hG : GoodInst I) (k : Nat) (hk : 0 < k)
    (order : List Nat) (horder : order.Perm (List.range I.n)) (rng : Nat → Nat) :
    GoodFull I (construct_greedy_initial I k order rng) := by
  show GoodFull I (order.foldl (greedyPlaceStep I k (I.n / k) (I.n - k * (I.n / k))
      (fun s => argminClassSize s k) rng) (initState I k, 0, 0)).1
  have hl : ∀ w ∈ order, w < I.n ∧ (initState I k).color w = -1 := by
    intro w hw
    exact ⟨List.mem_range.1 (horder.mem_iff.1 hw), rfl⟩
  have hnd : order.Nodup := horder.nodup_iff.2 (List.nodup_range I.n)
  obtain ⟨hPf, _, hcolf⟩ := greedy_fold_inv I hG k (I.n / k) (I.n - k * (I.n / k))
    (fun s => argminClassSize s k) rng order (initState I k) 0 0
    (pgreedy_init I k hk) hl hnd
  have hfull : ∀ v < I.n,
      (order.foldl (greedyPlaceStep I k (I.n / k) (I.n - k * (I.n / k))
        (fun s => argminClassSize s k) rng) (initState I k, 0, 0)).1.color v ≠ -1 := by
    intro v hv
    exact hcolf v (horder.mem_iff.2 (List.mem_range.2 hv))
  exact pgreedy_final I k (I.n / k) (I.n - k * (I.n / k)) _ _ _
    (by exact hPf) hfull

/-! ## Warm-start decomposition and specifications -/

theorem construct_warm_decomp (I : Instance) (k : Nat) (prev : SolState)
    (perm shuffled : List Nat) (rng : Nat → Nat) :
    construct_greedy_from_previous I k prev perm shuffled rng
      = (shuffled.foldl
          (greedyPlaceStep I k (I.n / k) (I.n - k * (I.n / k)) (fun _ => 0) rng)
          (warm_s3 I k prev perm, warm_r0 I k prev perm, 0)).1 := by
  unfold construct_greedy_from_previous warm_s3 warm_r0 warm_s1 warm_transfer_step
    warm_fix_step warm_removed colorMapOf
  rfl

theorem foldl_updF_get (m : Nat) (key : Nat → Int) (val : Nat → Int) (f0 : Int → Int)
    (hinj : ∀ i j, i < m → j < m → key i = key j → i = j) :
    (∀ j, j < m → ((List.range m).foldl (fun f i => updF f (key i) (val i)) f0) (key j) = val j)
    ∧ (∀ x : Int, (∀ j, j < m → x ≠ key j) →
        ((List.range m).foldl (fun f i => updF f (key i) (val i)) f0) x = f0 x) := by
  induction m with
  | zero => exact ⟨fun j hj => absurd hj (by omega), fun x _ => rfl⟩
  | succ p ih =>
    have hinj' : ∀ i j, i < p → j < p → key i = key j → i = j :=
      fun i j hi hj h => hinj i j (by omega) (by omega) h
    obtain ⟨ih1, ih2⟩ := ih hinj'
    constructor
    · intro j hj
      rw [List.range_succ, List.foldl_append, List.foldl_cons, List.foldl_nil]
      by_cases hjp : j = p
      · subst hjp
        rw [updF_self]
      · have hne2 : key j ≠ key p := fun h => hjp (hinj j p (by omega) (by omega) h)
        rw [updF_ne _ _ _ hne2]
        exact ih1 j (by omega)
    · intro x hx
      rw [List.range_succ, List.foldl_append, List.foldl_cons, List.foldl_nil]
      rw [updF_ne _ _ _ (hx p (by omega))]
      exact ih2 x (fun j hj => hx j (by omega))

theorem colorMapOf_get (perm : List Nat) (kp : Nat) (hlen : perm.length = kp)
    (hnd : perm.Nodup) :
    (∀ j, j < kp - 1 → colorMapOf perm kp ((perm.getD j 0 : Nat) : Int) = (j : Int))
    ∧ (∀ x : Int, (∀ j, j < kp - 1 → x ≠ ((perm.getD j 0 : Nat) : Int)) →
        colorMapOf perm kp x = -1) := by
  have hinj : ∀ i j, i < kp - 1 → j < kp - 1 →
      ((perm.getD i 0 : Nat) : Int) = ((perm.getD j 0 : Nat) : Int) → i = j := by
    intro i j hi hj h
    have hi' : i < perm.length := by omega
    have hj' : j < perm.length := by omega
    have h2 : perm.getD i 0 = perm.getD j 0 := by exact_mod_cast h
    rw [List.getD_eq_getElem _ _ hi', List.getD_eq_getElem _ _ hj'] at h2
    have h3 : perm.get ⟨i, hi'⟩ = perm.get ⟨j, hj'⟩ := h2
    have h4 := List.nodup_iff_injective_get.1 hnd h3
    exact congrArg Fin.val h4
  exact foldl_updF_get (kp - 1) (fun i => ((perm.getD i 0 : Nat) : Int)) (fun i => (i : Int))
    (fun _ => -1) hinj

theorem warm_transfer_fold_spec (I : Instance) (k : Nat) (prev : SolState) (removed : Int)
    (cmap : Int → Int) :
    ∀ m : Nat,
      ((List.range m).foldl (warm_transfer_step prev removed cmap) (initState I k)).n = I.n
      ∧ ((List.range m).foldl (warm_transfer_step prev removed cmap) (initState I k)).k = k
      ∧ ((List.range m).foldl (warm_transfer_step prev removed cmap) (initState I k)).conflicts
          = (fun _ => (0 : Int))
      ∧ ((List.range m).foldl (warm_transfer_step prev removed cmap)
          (initState I k)).conflictingVertices = ([] : List Nat)
      ∧ ((List.range m).foldl (warm_transfer_step prev removed cmap)
          (initState I k)).conflictingIndex = (fun _ => (-1 : Int))
      ∧ ((List.range m).foldl (warm_transfer_step prev removed cmap) (initState I k)).obj = 0
      ∧ ((List.range m).foldl (warm_transfer_step prev removed cmap) (initState I k)).floor_size
          = ((I.n / k : Nat) : Int)
      ∧ ((List.range m).foldl (warm_transfer_step prev removed cmap) (initState I k)).big_size
          = ((I.n / k : Nat) : Int) + 1
      ∧ (∀ v, ((List.range m).foldl (warm_transfer_step prev removed cmap)
          (initState I k)).color v
          = if v < m ∧ prev.color v ≠ removed then cmap (prev.color v) else -1)
      ∧ (∀ c : Int, ((List.range m).foldl (warm_transfer_step prev removed cmap)
          (initState I k)).classSize c
          = (((List.range m).countP
              (fun v => decide (prev.color v ≠ removed) && (cmap (prev.color v) == c))) : Int)) := by
  intro m
  induction m with
  | zero =>
    refine ⟨rfl, rfl, rfl, rfl, rfl, rfl, rfl, rfl, ?_, fun c => rfl⟩
    intro v
    rw [if_neg (by omega)]
    rfl
  | succ p ih =>
    obtain ⟨ihn, ihk, ihcf, ihcv, ihci, ihobj, ihfl, ihbg, ihcol, ihcs⟩ := ih
    rw [List.range_succ, List.foldl_append, List.foldl_cons, List.foldl_nil]
    by_cases hor : prev.color p = removed
    · have hstep : warm_transfer_step prev removed cmap
          ((List.range p).foldl (warm_transfer_step prev removed cmap) (initState I k)) p
          = (List.range p).foldl (warm_transfer_step prev removed cmap) (initState I k) := by
        unfold warm_transfer_step
        rw [if_pos hor]
      rw [hstep]
      refine ⟨ihn, ihk, ihcf, ihcv, ihci, ihobj, ihfl, ihbg, ?_, ?_⟩
      · intro v
        rw [ihcol v]
        by_cases h1 : v < p ∧ prev.color v ≠ removed
        · rw [if_pos h1, if_pos ⟨by omega, h1.2⟩]
        · rw [if_neg h1, if_neg ?h2]
          case h2 =>
            intro h2
            by_cases hvp : v = p
            · exact h2.2 (hvp ▸ hor)
            · exact h1 ⟨by omega, h2.2⟩
      · intro c
        rw [ihcs c, List.countP_append, List.countP_cons, List.countP_nil]
        have hp0 : (decide (prev.color p ≠ removed) && (cmap (prev.color p) == c)) = false := by
          simp [hor]
        rw [hp0]
        simp
    · have hstep : warm_transfer_step prev removed cmap
          ((List.range p).foldl (warm_transfer_step prev removed cmap) (initState I k)) p
          = { (List.range p).foldl (warm_transfer_step prev removed cmap) (initState I k) with
              color := updF ((List.range p).foldl (warm_transfer_step prev removed cmap)
                (initState I k)).color p (cmap (prev.color p))
              classSize := updF ((List.range p).foldl (warm_transfer_step prev removed cmap)
                  (initState I k)).classSize (cmap (prev.color p))
                (((List.range p).foldl (warm_transfer_step prev removed cmap)
                  (initState I k)).classSize (cmap (prev.color p)) + 1) } := by
        unfold warm_transfer_step
        rw [if_neg hor]
      rw [hstep]
      refine ⟨ihn, ihk, ihcf, ihcv, ihci, ihobj, ihfl, ihbg, ?_, ?_⟩
      · intro v
        show updF ((List.range p).foldl (warm_transfer_step prev removed cmap)
            (initState I k)).color p (cmap (prev.color p)) v = _
        by_cases hvp : v = p
        · subst hvp
          rw [updF_self, if_pos ⟨by omega, hor⟩]
        · rw [updF_ne _ _ _ hvp, ihcol v]
          by_cases h1 : v < p ∧ prev.color v ≠ removed
          · rw [if_pos h1, if_pos ⟨by omega, h1.2⟩]
          · rw [if_neg h1, if_neg (fun h2 => h1 ⟨by omega, h2.2⟩)]
      · intro c
        show updF ((List.range p).foldl (warm_transfer_step prev removed cmap)
            (initState I k)).classSize (cmap (prev.color p))
            (((List.range p).foldl (warm_transfer_step prev removed cmap)
              (initState I k)).classSize (cmap (prev.color p)) + 1) c = _
        rw [List.countP_append, List.countP_cons, List.countP_nil, updF_apply]
        push_cast
        by_cases hcc : c = cmap (prev.color p)
        · rw [if_pos hcc, ihcs (cmap (prev.color p)), hcc]
          have hp1 : (decide (prev.color p ≠ removed) && (cmap (prev.color p) == cmap (prev.color p))) = true := by
            simp [hor]
          rw [hp1]
          simp
        · rw [if_neg hcc, ihcs c]
          have hp1 : (decide (prev.color p ≠ removed) && (cmap (prev.color p) == c)) = false := by
            simp [hor]
            exact fun h => hcc h.symm
          rw [hp1]
          simp

theorem warm_fix_fold_spec (I : Instance) (prev : SolState) (removed : Int) (t0 : SolState)
    (h0cf : t0.conflicts = fun _ => (0 : Int))
    (h0cv : t0.conflictingVertices = ([] : List Nat))
    (h0ci : t0.conflictingIndex = fun _ => (-1 : Int))
    (hcpos : ∀ v, 0 ≤ prev.conflicts v) :
    ∀ m : Nat,
      ((List.range m).foldl (warm_fix_step I prev removed) t0).n = t0.n
      ∧ ((List.range m).foldl (warm_fix_step I prev removed) t0).k = t0.k
      ∧ ((List.range m).foldl (warm_fix_step I prev removed) t0).color = t0.color
      ∧ ((List.range m).foldl (warm_fix_step I prev removed) t0).classSize = t0.classSize
      ∧ ((List.range m).foldl (warm_fix_step I prev removed) t0).floor_size = t0.floor_size
      ∧ ((List.range m).foldl (warm_fix_step I prev removed) t0).big_size = t0.big_size
      ∧ (∀ x, ((List.range m).foldl (warm_fix_step I prev removed) t0).conflicts x
          = if x < m ∧ prev.color x ≠ removed then prev.conflicts x else 0)
      ∧ ((List.range m).foldl (warm_fix_step I prev removed) t0).obj
          = t0.obj - (((List.range m).map (fun v =>
              if prev.color v = removed ∧ 0 < prev.conflicts v
              then ((I.adj v).countP (fun u => decide (v < u ∧ prev.color u = removed)) : Int)
              else 0)).sum)
      ∧ ListWF ((List.range m).foldl (warm_fix_step I prev removed) t0)
      ∧ MemOK ((List.range m).foldl (warm_fix_step I prev removed) t0)
      ∧ (∀ x ∈ ((List.range m).foldl (warm_fix_step I prev removed) t0).conflictingVertices,
          x < m) := by
  intro m
  induction m with
  | zero =>
    refine ⟨rfl, rfl, rfl, rfl, rfl, rfl, ?_, by simp, ⟨?_, ?_⟩, ?_, ?_⟩
    · intro x
      rw [if_neg (by omega)]
      show t0.conflicts x = 0
      rw [h0cf]
    · intro x i
      show t0.conflictingVertices.get? i = some x ↔ t0.conflictingIndex x = (i : Int)
      rw [h0cv, h0ci]
      constructor
      · intro h
        simp at h
      · intro h
        have h2 : (-1 : Int) = (i : Int) := h
        omega
    · intro x hx
      show t0.conflictingIndex x = -1
      rw [h0ci]
    · intro x
      show x ∈ t0.conflictingVertices ↔ 0 < t0.conflicts x
      rw [h0cv, h0cf]
      constructor
      · intro h
        exact absurd h (List.not_mem_nil x)
      · intro h
        norm_num at h
    · intro x hx
      have hx2 : x ∈ t0.conflictingVertices := hx
      rw [h0cv] at hx2
      exact absurd hx2 (List.not_mem_nil x)
  | succ p ih =>
    obtain ⟨ihn, ihk, ihcol, ihcs, ihfl, ihbg, ihcf, ihobj, ihlw, ihmem, ihsub⟩ := ih
    have hpnot : p ∉ ((List.range p).foldl (warm_fix_step I prev removed) t0).conflictingVertices :=
      fun h => absurd (ihsub p h) (by omega)
    have hpidx : ((List.range p).foldl (warm_fix_step I prev removed) t0).conflictingIndex p = -1 :=
      ihlw.idx_neg p hpnot
    rw [List.range_succ, List.foldl_append, List.foldl_cons, List.foldl_nil]
    by_cases hor : prev.color p = removed
    · by_cases hpc : 0 < prev.conflicts p
      · have hstep : warm_fix_step I prev removed
            ((List.range p).foldl (warm_fix_step I prev removed) t0) p
            = { (List.range p).foldl (warm_fix_step I prev removed) t0 with
                obj := ((List.range p).foldl (warm_fix_step I prev removed) t0).obj
                  - ((I.adj p).countP (fun u => decide (p < u ∧ prev.color u = removed)) : Int)
                conflicts := updF ((List.range p).foldl (warm_fix_step I prev removed)
                  t0).conflicts p 0
                conflictingIndex := updF ((List.range p).foldl (warm_fix_step I prev removed)
                  t0).conflictingIndex p (-1) } := by
          simp only [warm_fix_step, if_pos hor,
            foldl_count_dec (fun u => p < u ∧ prev.color u = removed) (I.adj p), if_pos hpc]
        rw [hstep]
        refine ⟨ihn, ihk, ihcol, ihcs, ihfl, ihbg, ?_, ?_, ⟨?_, ?_⟩, ?_, ?_⟩
        · intro x
          show updF _ p 0 x = _
          by_cases hxp : x = p
          · subst hxp
            rw [updF_self, if_neg (fun h => h.2 hor)]
          · rw [updF_ne _ _ _ hxp, ihcf x]
            by_cases h1 : x < p ∧ prev.color x ≠ removed
            · rw [if_pos h1, if_pos ⟨by omega, h1.2⟩]
            · rw [if_neg h1, if_neg (fun h2 => h1 ⟨by omega, h2.2⟩)]
        · show _ - _ = _
          rw [ihobj, List.map_append, List.sum_append]
          rw [List.map_cons, List.map_nil, List.sum_cons, List.sum_nil,
            if_pos ⟨hor, hpc⟩]
          ring
        · intro y i
          show _ ↔ updF _ p (-1) y = _
          by_cases hyp : y = p
          · subst hyp
            rw [updF_self]
            constructor
            · intro h
              exact absurd ((mem_iff_exists_get? _ _).2 ⟨i, h⟩) hpnot
            · intro h
              have : (-1 : Int) = (i : Int) := h
              omega
          · rw [updF_ne _ _ _ hyp]
            exact ihlw.idx_of y i
        · intro y hy
          show updF _ p (-1) y = -1
          by_cases hyp : y = p
          · subst hyp
            rw [updF_self]
          · rw [updF_ne _ _ _ hyp]
            exact ihlw.idx_neg y hy
        · intro x
          show _ ↔ 0 < updF _ p 0 x
          by_cases hxp : x = p
          · subst hxp
            rw [updF_self]
            constructor
            · intro h
              exact absurd h hpnot
            · intro h
              norm_num at h
          · rw [updF_ne _ _ _ hxp]
            exact ihmem x
        · intro x hx
          have := ihsub x hx
          omega
      · have hstep : warm_fix_step I prev removed
            ((List.range p).foldl (warm_fix_step I prev removed) t0) p
            = { (List.range p).foldl (warm_fix_step I prev removed) t0 with
                conflicts := updF ((List.range p).foldl (warm_fix_step I prev removed)
                  t0).conflicts p 0
                conflictingIndex := updF ((List.range p).foldl (warm_fix_step I prev removed)
                  t0).conflictingIndex p (-1) } := by
          simp only [warm_fix_step, if_pos hor, if_neg hpc]
        rw [hstep]
        refine ⟨ihn, ihk, ihcol, ihcs, ihfl, ihbg, ?_, ?_, ⟨?_, ?_⟩, ?_, ?_⟩
        · intro x
          show updF _ p 0 x = _
          by_cases hxp : x = p
          · subst hxp
            rw [updF_self, if_neg (fun h => h.2 hor)]
          · rw [updF_ne _ _ _ hxp, ihcf x]
            by_cases h1 : x < p ∧ prev.color x ≠ removed
            · rw [if_pos h1, if_pos ⟨by omega, h1.2⟩]
            · rw [if_neg h1, if_neg (fun h2 => h1 ⟨by omega, h2.2⟩)]
        · show _ = _
          rw [ihobj, List.map_append, List.sum_append]
          rw [List.map_cons, List.map_nil, List.sum_cons, List.sum_nil,
            if_neg (fun h => hpc h.2)]
          ring
        · intro y i
          show _ ↔ updF _ p (-1) y = _
          by_cases hyp : y = p
          · subst hyp
            rw [updF_self]
            constructor
            · intro h
              exact absurd ((mem_iff_exists_get? _ _).2 ⟨i, h⟩) hpnot
            · intro h
              have : (-1 : Int) = (i : Int) := h
              omega
          · rw [updF_ne _ _ _ hyp]
            exact ihlw.idx_of y i
        · intro y hy
          show updF _ p (-1) y = -1
          by_cases hyp : y = p
          · subst hyp
            rw [updF_self]
          · rw [updF_ne _ _ _ hyp]
            exact ihlw.idx_neg y hy
        · intro x
          show _ ↔ 0 < updF _ p 0 x
          by_cases hxp : x = p
          · subst hxp
            rw [updF_self]
            constructor
            · intro h
              exact absurd h hpnot
            · intro h
              norm_num at h
          · rw [updF_ne _ _ _ hxp]
            exact ihmem x
        · intro x hx
          have := ihsub x hx
          omega
    · by_cases hpc : 0 < prev.conflicts p
      · have hstep : warm_fix_step I prev removed
            ((List.range p).foldl (warm_fix_step I prev removed) t0) p
            = { (List.range p).foldl (warm_fix_step I prev removed) t0 with
                conflicts := updF ((List.range p).foldl (warm_fix_step I prev removed)
                  t0).conflicts p (prev.conflicts p)
                conflictingIndex := updF ((List.range p).foldl (warm_fix_step I prev removed)
                  t0).conflictingIndex p
                  (((List.range p).foldl (warm_fix_step I prev removed)
                    t0).conflictingVertices.length : Int)
                conflictingVertices := ((List.range p).foldl (warm_fix_step I prev removed)
                  t0).conflictingVertices ++ [p] } := by
          simp only [warm_fix_step, if_neg hor, updF_self, if_pos hpc]
        rw [hstep]
        obtain ⟨hap1, hap2, hap3⟩ := append_case_idx
          ((List.range p).foldl (warm_fix_step I prev removed) t0).conflictingVertices
          ((List.range p).foldl (warm_fix_step I prev removed) t0).conflictingIndex
          p ihlw.idx_of ihlw.idx_neg hpidx
        refine ⟨ihn, ihk, ihcol, ihcs, ihfl, ihbg, ?_, ?_, ⟨hap1, hap2⟩, ?_, ?_⟩
        · intro x
          show updF _ p (prev.conflicts p) x = _
          by_cases hxp : x = p
          · subst hxp
            rw [updF_self, if_pos ⟨by omega, hor⟩]
          · rw [updF_ne _ _ _ hxp, ihcf x]
            by_cases h1 : x < p ∧ prev.color x ≠ removed
            · rw [if_pos h1, if_pos ⟨by omega, h1.2⟩]
            · rw [if_neg h1, if_neg (fun h2 => h1 ⟨by omega, h2.2⟩)]
        · show _ = _
          rw [ihobj, List.map_append, List.sum_append]
          rw [List.map_cons, List.map_nil, List.sum_cons, List.sum_nil,
            if_neg (fun h => hor h.1)]
          ring
        · intro x
          rw [hap3 x]
          show _ ↔ 0 < updF _ p (prev.conflicts p) x
          by_cases hxp : x = p
          · subst hxp
            rw [updF_self]
            constructor
            · intro _
              exact hpc
            · intro _
              right
              rfl
          · rw [updF_ne _ _ _ hxp]
            rw [← ihmem x]
            constructor
            · intro h
              rcases h with h | h
              · exact h
              · exact absurd h hxp
            · intro h
              exact Or.inl h
        · intro x hx
          rcases (hap3 x).1 hx with h | h
          · have := ihsub x h
            omega
          · omega
      · have hstep : warm_fix_step I prev removed
            ((List.range p).foldl (warm_fix_step I prev removed) t0) p
            = { (List.range p).foldl (warm_fix_step I prev removed) t0 with
                conflicts := updF ((List.range p).foldl (warm_fix_step I prev removed)
                  t0).conflicts p (prev.conflicts p)
                conflictingIndex := updF ((List.range p).foldl (warm_fix_step I prev removed)
                  t0).conflictingIndex p (-1) } := by
          simp only [warm_fix_step, if_neg hor, updF_self, if_neg hpc]
        rw [hstep]
        have hpc0 : prev.conflicts p = 0 := by
          have := hcpos p
          omega
        refine ⟨ihn, ihk, ihcol, ihcs, ihfl, ihbg, ?_, ?_, ⟨?_, ?_⟩, ?_, ?_⟩
        · intro x
          show updF _ p (prev.conflicts p) x = _
          by_cases hxp : x = p
          · subst hxp
            rw [updF_self, if_pos ⟨by omega, hor⟩]
          · rw [updF_ne _ _ _ hxp, ihcf x]
            by_cases h1 : x < p ∧ prev.color x ≠ removed
            · rw [if_pos h1, if_pos ⟨by omega, h1.2⟩]
            · rw [if_neg h1, if_neg (fun h2 => h1 ⟨by omega, h2.2⟩)]
        · show _ = _
          rw [ihobj, List.map_append, List.sum_append]
          rw [List.map_cons, List.map_nil, List.sum_cons, List.sum_nil,
            if_neg (fun h => hor h.1)]
          ring
        · intro y i
          show _ ↔ updF _ p (-1) y = _
          by_cases hyp : y = p
          · subst hyp
            rw [updF_self]
            constructor
            · intro h
              exact absurd ((mem_iff_exists_get? _ _).2 ⟨i, h⟩) hpnot
            · intro h
              have : (-1 : Int) = (i : Int) := h
              omega
          · rw [updF_ne _ _ _ hyp]
            exact ihlw.idx_of y i
        · intro y hy
          show updF _ p (-1) y = -1
          by_cases hyp : y = p
          · subst hyp
            rw [updF_self]
          · rw [updF_ne _ _ _ hyp]
            exact ihlw.idx_neg y hy
        · intro x
          show _ ↔ 0 < updF _ p (prev.conflicts p) x
          by_cases hxp : x = p
          · subst hxp
            rw [updF_self, hpc0]
            constructor
            · intro h
              exact absurd h hpnot
            · intro h
              norm_num at h
          · rw [updF_ne _ _ _ hxp]
            exact ihmem x
        · intro x hx
          have := ihsub x hx
          omega

theorem countP_split (l : List Nat) (p q : Nat → Bool) :
    l.countP p = l.countP (fun a => p a && q a) + l.countP (fun a => p a && !q a) := by
  induction l with
  | nil => rfl
  | cons a t ih =>
    rw [List.countP_cons, List.countP_cons, List.countP_cons, ih]
    by_cases hp : p a = true <;> by_cases hq : q a = true <;> simp [hp, hq] <;> omega

theorem ind_and3 (a b : Bool) (p : Prop) [Decidable p] :
    (if (a && (b && decide p)) = true then (1 : Int) else 0)
      = if a = true ∧ b = true ∧ p then 1 else 0 := by
  by_cases ha : a = true <;> by_cases hb : b = true <;> by_cases hp : p <;> simp [ha, hb, hp]

theorem handshake (I : Instance) (hG : GoodInst I) (Q : Nat → Bool) :
    ∑ x ∈ Finset.range I.n, (if Q x then ((I.adj x).countP Q : Int) else 0)
      = 2 * ∑ x ∈ Finset.range I.n,
          (if Q x then ((I.adj x).countP (fun u => decide (x < u) && Q u) : Int) else 0) := by
  have hadj : ∀ x, ∀ u ∈ I.adj x, u < I.n := fun x u hu => hG.adj_lt x u hu
  -- split each vertex count into smaller and larger neighbours
  have hsplit : ∀ x, ((I.adj x).countP Q : Int)
      = ((I.adj x).countP (fun u => Q u && decide (x < u)) : Int)
        + ((I.adj x).countP (fun u => Q u && decide (u < x)) : Int) := by
    intro x
    have h1 := countP_split (I.adj x) Q (fun u => decide (x < u))
    have h2 : (I.adj x).countP (fun u => Q u && !(decide (x < u)))
        = (I.adj x).countP (fun u => Q u && decide (u < x)) := by
      apply List.countP_congr
      intro u hu
      have hux : u ≠ x := fun h => hG.irrefl x (h ▸ hu)
      by_cases hq : Q u = true <;> by_cases hlt : x < u <;>
        simp [hq, hlt, show u < x ↔ ¬ x < u ∧ u ≠ x by omega, hux]
    rw [h1, h2]
    push_cast
    ring
  -- express both orders as a double sum
  have hdouble : ∀ (R : Nat → Nat → Bool), ∀ x ∈ Finset.range I.n,
      (if Q x then ((I.adj x).countP (fun u => Q u && R x u) : Int) else 0)
      = ∑ u ∈ Finset.range I.n,
          ((I.adj x).count u : Int) * (if (Q x && (Q u && R x u)) = true then 1 else 0) := by
    intro R x _
    by_cases hqx : Q x = true
    · rw [if_pos hqx, ← sum_count_indicator I.n (I.adj x) (hadj x) (fun u => Q u && R x u)]
      apply Finset.sum_congr rfl
      intro u _
      rw [hqx]
      simp
    · rw [if_neg hqx]
      symm
      apply Finset.sum_eq_zero
      intro u _
      have : (Q x && (Q u && R x u)) = false := by
        simp [Bool.eq_false_iff.2 hqx]
      rw [this]
      simp
  have hswap : ∑ x ∈ Finset.range I.n,
      (if Q x then ((I.adj x).countP (fun u => Q u && decide (u < x)) : Int) else 0)
      = ∑ x ∈ Finset.range I.n,
        (if Q x then ((I.adj x).countP (fun u => Q u && decide (x < u)) : Int) else 0) := by
    rw [Finset.sum_congr rfl (hdouble (fun x u => decide (u < x))),
      Finset.sum_congr rfl (hdouble (fun x u => decide (x < u))), Finset.sum_comm]
    apply Finset.sum_congr rfl
    intro u _
    apply Finset.sum_congr rfl
    intro x _
    rw [hG.sym x u, ind_and3, ind_and3]
    rw [if_congr (show (Q x = true ∧ Q u = true ∧ u < x) ↔ (Q u = true ∧ Q x = true ∧ u < x) by
      constructor
      · intro h
        exact ⟨h.2.1, h.1, h.2.2⟩
      · intro h
        exact ⟨h.2.1, h.1, h.2.2⟩) rfl rfl]
  have hsum1 : ∑ x ∈ Finset.range I.n, (if Q x then ((I.adj x).countP Q : Int) else 0)
      = ∑ x ∈ Finset.range I.n,
          ((if Q x then ((I.adj x).countP (fun u => Q u && decide (x < u)) : Int) else 0)
            + (if Q x then ((I.adj x).countP (fun u => Q u && decide (u < x)) : Int) else 0)) := by
    apply Finset.sum_congr rfl
    intro x _
    by_cases hqx : Q x = true
    · rw [if_pos hqx, if_pos hqx, if_pos hqx, hsplit x]
    · rw [if_neg hqx, if_neg hqx, if_neg hqx]
      ring
  rw [hsum1, Finset.sum_add_distrib, hswap]
  have hcomm : ∀ x ∈ Finset.range I.n,
      (if Q x then ((I.adj x).countP (fun u => Q u && decide (x < u)) : Int) else 0)
      = (if Q x then ((I.adj x).countP (fun u => decide (x < u) && Q u) : Int) else 0) := by
    intro x _
    have : (I.adj x).countP (fun u => Q u && decide (x < u))
        = (I.adj x).countP (fun u => decide (x < u) && Q u) := by
      apply List.countP_congr
      intro u _
      rw [Bool.and_comm]
    rw [this]
  rw [Finset.sum_congr rfl hcomm]
  ring


theorem perm_getD_inj (perm : List Nat) (kp : Nat) (hlen : perm.length = kp)
    (hnd : perm.Nodup) :
    ∀ i j, i < kp → j < kp → perm.getD i 0 = perm.getD j 0 → i = j := by
  intro i j hi hj h
  have hi' : i < perm.length := by omega
  have hj' : j < perm.length := by omega
  rw [List.getD_eq_getElem _ _ hi', List.getD_eq_getElem _ _ hj'] at h
  have h3 : perm.get ⟨i, hi'⟩ = perm.get ⟨j, hj'⟩ := h
  exact congrArg Fin.val (List.nodup_iff_injective_get.1 hnd h3)

theorem perm_getD_lt (perm : List Nat) (kp : Nat) (hlen : perm.length = kp)
    (hperm : perm.Perm (List.range kp)) : ∀ j, j < kp → perm.getD j 0 < kp := by
  intro j hj
  have hj' : j < perm.length := by omega
  rw [List.getD_eq_getElem _ _ hj']
  exact List.mem_range.1 (hperm.mem_iff.1 (List.getElem_mem hj'))

theorem perm_getD_surj (perm : List Nat) (kp : Nat) (hlen : perm.length = kp)
    (hperm : perm.Perm (List.range kp)) : ∀ c, c < kp → ∃ j, j < kp ∧ perm.getD j 0 = c := by
  intro c hc
  have hcm : c ∈ perm := hperm.mem_iff.2 (List.mem_range.2 hc)
  obtain ⟨j, hj, hget⟩ := List.getElem_of_mem hcm
  refine ⟨j, by omega, ?_⟩
  rw [List.getD_eq_getElem _ _ hj]
  exact hget

theorem warm_core (I : Instance) (prev : SolState) (hprev : Good I prev)
    (perm : List Nat) :
    (warm_s3 I (prev.k - 1) prev perm).n = I.n
    ∧ (warm_s3 I (prev.k - 1) prev perm).k = prev.k - 1
    ∧ (warm_s3 I (prev.k - 1) prev perm).floor_size = ((I.n / (prev.k - 1) : Nat) : Int)
    ∧ (warm_s3 I (prev.k - 1) prev perm).big_size = ((I.n / (prev.k - 1) : Nat) : Int) + 1
    ∧ (∀ v, (warm_s3 I (prev.k - 1) prev perm).color v
        = if v < I.n ∧ prev.color v ≠ warm_removed prev perm
          then colorMapOf perm prev.k (prev.color v) else -1)
    ∧ (∀ c : Int, (warm_s3 I (prev.k - 1) prev perm).classSize c
        = (((List.range I.n).countP (fun v => decide (prev.color v ≠ warm_removed prev perm)
            && (colorMapOf perm prev.k (prev.color v) == c))) : Int))
    ∧ (∀ x, (warm_s3 I (prev.k - 1) prev perm).conflicts x
        = if x < I.n ∧ prev.color x ≠ warm_removed prev perm then prev.conflicts x else 0)
    ∧ (warm_s3 I (prev.k - 1) prev perm).obj
        = prev.obj - (((List.range I.n).map (fun v =>
            if prev.color v = warm_removed prev perm ∧ 0 < prev.conflicts v
            then ((I.adj v).countP
              (fun u => decide (v < u ∧ prev.color u = warm_removed prev perm)) : Int)
            else 0)).sum)
    ∧ ListWF (warm_s3 I (prev.k - 1) prev perm)
    ∧ MemOK (warm_s3 I (prev.k - 1) prev perm) := by
  have hcpos : ∀ v, 0 ≤ prev.conflicts v := by
    intro v
    rw [hprev.conf v]
    unfold confSpec
    split
    · exact le_refl 0
    · exact Int.ofNat_nonneg _
  obtain ⟨h1n, h1k, h1cf, h1cv, h1ci, h1obj, h1fl, h1bg, h1col, h1cs⟩ :=
    warm_transfer_fold_spec I (prev.k - 1) prev (warm_removed prev perm)
      (colorMapOf perm prev.k) I.n
  obtain ⟨h3n, h3k, h3col, h3cs, h3fl, h3bg, h3cf, h3obj, h3lw, h3mem, _⟩ :=
    warm_fix_fold_spec I prev (warm_removed prev perm)
      { warm_s1 I (prev.k - 1) prev perm with obj := prev.obj }
      (by exact h1cf) (by exact h1cv) (by exact h1ci) hcpos I.n
  refine ⟨?_, ?_, ?_, ?_, ?_, ?_, ?_, ?_, ?_, ?_⟩
  · exact (h3n.trans (by exact h1n) : _)
  · exact (h3k.trans (by exact h1k) : _)
  · exact (h3fl.trans (by exact h1fl) : _)
  · exact (h3bg.trans (by exact h1bg) : _)
  · intro v
    exact ((congrFun h3col v).trans (by exact h1col v) : _)
  · intro c
    exact ((congrFun h3cs c).trans (by exact h1cs c) : _)
  · intro x
    exact (h3cf x : _)
  · have : ({ warm_s1 I (prev.k - 1) prev perm with obj := prev.obj } : SolState).obj
        = prev.obj := rfl
    exact (h3obj.trans (by rw [this]) : _)
  · exact h3lw
  · exact h3mem

theorem sum_map_range (n : Nat) (f : Nat → Int) :
    ((List.range n).map f).sum = ∑ x ∈ Finset.range n, f x := by
  induction n with
  | zero => simp
  | succ m ih =>
    rw [List.range_succ, List.map_append, List.sum_append, Finset.sum_range_succ, ih]
    simp

theorem warm_pgreedy (I : Instance) (hG : GoodInst I) (prev : SolState)
    (hprev : Good I prev) (hF : FieldsOK prev) (hE : Equity prev) (hk2 : 2 ≤ prev.k)
    (perm : List Nat) (hperm : perm.Perm (List.range prev.k)) :
    PGreedy I (prev.k - 1) (I.n / (prev.k - 1))
      (I.n - (prev.k - 1) * (I.n / (prev.k - 1)))
      (warm_s3 I (prev.k - 1) prev perm, warm_r0 I (prev.k - 1) prev perm, 0)
    ∧ (∀ v, v < I.n → prev.color v = warm_removed prev perm →
        (warm_s3 I (prev.k - 1) prev perm).color v = -1)
    ∧ (∀ v, v < I.n → prev.color v ≠ warm_removed prev perm →
        (warm_s3 I (prev.k - 1) prev perm).color v ≠ -1) := by
  obtain ⟨hcn, hck, hcfl, hcbg, hccol, hccs, hccf, hcobj, hclw, hcmem⟩ :=
    warm_core I prev hprev perm
  have hkp1 : 0 < prev.k - 1 := by omega
  have hlen : perm.length = prev.k := hperm.length_eq.trans (List.length_range _)
  have hnd : perm.Nodup := (List.Perm.nodup_iff hperm).2 (List.nodup_range _)
  have hinj := perm_getD_inj perm prev.k hlen hnd
  have hlt := perm_getD_lt perm prev.k hlen hperm
  have hsurj := perm_getD_surj perm prev.k hlen hperm
  obtain ⟨hcm1, hcm2⟩ := colorMapOf_get perm prev.k hlen hnd
  -- every surviving previous color sits at a position `j < prev.k - 1` of `perm`
  have hpos : ∀ v, v < I.n → prev.color v ≠ warm_removed prev perm →
      ∃ j, j < prev.k - 1 ∧ ((perm.getD j 0 : Nat) : Int) = prev.color v := by
    intro v hv hne
    obtain ⟨hc0, hck'⟩ := hprev.colors v hv
    obtain ⟨j, hj, hget⟩ := hsurj (prev.color v).toNat (by omega)
    refine ⟨j, ?_, ?_⟩
    · rcases Nat.lt_or_ge j (prev.k - 1) with h | h
      · exact h
      · exfalso
        apply hne
        have hj2 : j = prev.k - 1 := by omega
        unfold warm_removed
        rw [← hj2, hget, Int.toNat_of_nonneg hc0]
    · rw [hget]
      exact Int.toNat_of_nonneg hc0
  have hcolcase : ∀ v, v < I.n → prev.color v ≠ warm_removed prev perm →
      ∃ j, j < prev.k - 1
        ∧ (warm_s3 I (prev.k - 1) prev perm).color v = (j : Int)
        ∧ ((perm.getD j 0 : Nat) : Int) = prev.color v := by
    intro v hv hne
    obtain ⟨j, hj, hget⟩ := hpos v hv hne
    refine ⟨j, hj, ?_, hget⟩
    rw [hccol v, if_pos ⟨hv, hne⟩, ← hget, hcm1 j hj]
  -- conflicts agree with the ground truth of the transferred coloring
  have hconf3 : ∀ x, (warm_s3 I (prev.k - 1) prev perm).conflicts x
      = confSpec I (warm_s3 I (prev.k - 1) prev perm).color x := by
    intro x
    rw [hccf x]
    by_cases hx : x < I.n ∧ prev.color x ≠ warm_removed prev perm
    · rw [if_pos hx]
      obtain ⟨j, hj, hc3, hget⟩ := hcolcase x hx.1 hx.2
      unfold confSpec
      simp only [hc3]
      rw [if_neg (by omega : ¬((j : Int) = -1))]
      rw [hprev.conf x]
      unfold confSpec
      rw [if_neg (by rw [← hget]; omega)]
      have hcc : (I.adj x).countP (fun u => prev.color u == prev.color x)
          = (I.adj x).countP
              (fun u => (warm_s3 I (prev.k - 1) prev perm).color u == (j : Int)) := by
        apply List.countP_congr
        intro u hu
        dsimp only
        have hun : u < I.n := hG.adj_lt x u hu
        by_cases hu2 : prev.color u = warm_removed prev perm
        · rw [hccol u, if_neg (fun h => h.2 hu2)]
          have h1 : prev.color u ≠ prev.color x := by
            rw [hu2]
            exact fun h => hx.2 h.symm
          have h2 : (-1 : Int) ≠ (j : Int) := by omega
          simp [h1, h2]
        · obtain ⟨ju, hju, hcu3, hgetu⟩ := hcolcase u hun hu2
          rw [hcu3]
          by_cases heq : prev.color u = prev.color x
          · have hjeq : ju = j := by
              apply hinj ju j (by omega) (by omega)
              have h3 : ((perm.getD ju 0 : Nat) : Int) = ((perm.getD j 0 : Nat) : Int) := by
                rw [hgetu, hget, heq]
              exact_mod_cast h3
            simp [heq, hjeq]
          · have h2 : ((ju : Int)) ≠ ((j : Int)) := by
              intro hcontra
              have hjeq : ju = j := by omega
              subst hjeq
              exact heq (by rw [← hgetu, ← hget])
            simp [heq, h2]
      rw [hcc]
    · rw [if_neg hx]
      unfold confSpec
      rw [hccol x, if_neg hx, if_pos rfl]
  -- class sizes agree with the ground truth of the transferred coloring
  have hsizes3 : ∀ c : Int, 0 ≤ c →
      (warm_s3 I (prev.k - 1) prev perm).classSize c
        = sizeSpec I (warm_s3 I (prev.k - 1) prev perm).color c := by
    intro c hc0
    rw [hccs c]
    unfold sizeSpec
    have hq : (List.range I.n).countP
        (fun v => decide (prev.color v ≠ warm_removed prev perm)
          && (colorMapOf perm prev.k (prev.color v) == c))
        = (List.range I.n).countP
            (fun v => (warm_s3 I (prev.k - 1) prev perm).color v == c) := by
      apply List.countP_congr
      intro v hv
      dsimp only
      have hvn := List.mem_range.1 hv
      by_cases h : prev.color v = warm_removed prev perm
      · rw [hccol v, if_neg (fun hh => hh.2 h)]
        have hne : ¬((-1 : Int) = c) := by omega
        simp [h, hne]
      · rw [hccol v, if_pos ⟨hvn, h⟩]
        simp [h]
    rw [hq]
  have hsizeneg3 : ∀ c : Int, c < 0 →
      (warm_s3 I (prev.k - 1) prev perm).classSize c = 0 := by
    intro c hc0
    rw [hccs c]
    have hz : (List.range I.n).countP
        (fun v => decide (prev.color v ≠ warm_removed prev perm)
          && (colorMapOf perm prev.k (prev.color v) == c)) = 0 := by
      rw [List.countP_eq_zero]
      intro v hv hcontra
      simp only [Bool.and_eq_true, decide_eq_true_eq, beq_iff_eq] at hcontra
      obtain ⟨h1, h2⟩ := hcontra
      obtain ⟨j, hj, _, hget⟩ := hcolcase v (List.mem_range.1 hv) h1
      rw [← hget, hcm1 j hj] at h2
      omega
    rw [hz]
    rfl
  -- the class size of a surviving class is the previous size of its source class
  have hcs_lt : ∀ c : Int, 0 ≤ c → c < ((prev.k - 1 : Nat) : Int) →
      (warm_s3 I (prev.k - 1) prev perm).classSize c
        = prev.classSize ((perm.getD c.toNat 0 : Nat) : Int) := by
    intro c hc0 hck'
    rw [hccs c, hprev.sizes]
    unfold sizeSpec
    have hctn : c.toNat < prev.k - 1 := by omega
    have hq : (List.range I.n).countP
        (fun v => decide (prev.color v ≠ warm_removed prev perm)
          && (colorMapOf perm prev.k (prev.color v) == c))
        = (List.range I.n).countP
            (fun v => prev.color v == ((perm.getD c.toNat 0 : Nat) : Int)) := by
      apply List.countP_congr
      intro v hv
      dsimp only
      have hvn := List.mem_range.1 hv
      by_cases h : prev.color v = ((perm.getD c.toNat 0 : Nat) : Int)
      · have hsurvv : prev.color v ≠ warm_removed prev perm := by
          rw [h]
          unfold warm_removed
          intro hcontra
          have h4 : perm.getD c.toNat 0 = perm.getD (prev.k - 1) 0 := by exact_mod_cast hcontra
          have h5 := hinj c.toNat (prev.k - 1) (by omega) (by omega) h4
          omega
        have hcm : colorMapOf perm prev.k (prev.color v) = c := by
          rw [h, hcm1 c.toNat hctn, Int.toNat_of_nonneg hc0]
        simp only [Bool.and_eq_true, decide_eq_true_eq, beq_iff_eq]
        exact ⟨fun _ => h, fun _ => ⟨hsurvv, hcm⟩⟩
      · by_cases hs : prev.color v = warm_removed prev perm
        · simp only [Bool.and_eq_true, decide_eq_true_eq, beq_iff_eq]
          exact ⟨fun hh => absurd hs hh.1, fun hh => absurd hh h⟩
        · obtain ⟨j, hj, _, hget⟩ := hcolcase v hvn hs
          have hcmv : colorMapOf perm prev.k (prev.color v) = (j : Int) := by
            rw [← hget]
            exact hcm1 j hj
          have hjc : ((j : Int)) ≠ c := by
            intro hcontra
            apply h
            rw [← hget]
            have hjeq : j = c.toNat := by omega
            rw [hjeq]
          simp only [Bool.and_eq_true, decide_eq_true_eq, beq_iff_eq]
          constructor
          · intro hh
            rw [hcmv] at hh
            exact absurd hh.2 hjc
          · intro hh
            exact absurd hh h
    rw [hq]
  have hcs_ge : ∀ c : Int, ((prev.k - 1 : Nat) : Int) ≤ c →
      (warm_s3 I (prev.k - 1) prev perm).classSize c = 0 := by
    intro c hck'
    rw [hccs c]
    have hz : (List.range I.n).countP
        (fun v => decide (prev.color v ≠ warm_removed prev perm)
          && (colorMapOf perm prev.k (prev.color v) == c)) = 0 := by
      rw [List.countP_eq_zero]
      intro v hv hcontra
      simp only [Bool.and_eq_true, decide_eq_true_eq, beq_iff_eq] at hcontra
      obtain ⟨h1, h2⟩ := hcontra
      obtain ⟨j, hj, _, hget⟩ := hcolcase v (List.mem_range.1 hv) h1
      rw [← hget, hcm1 j hj] at h2
      omega
    rw [hz]
    rfl
  -- size of every previous class, by equity
  have hprevval : ∀ c' : Nat, c' < prev.k →
      prev.classSize ((c' : Nat) : Int) = ((I.n / prev.k : Nat) : Int)
      ∨ prev.classSize ((c' : Nat) : Int) = ((I.n / prev.k : Nat) : Int) + 1 := by
    intro c' hc'
    have h := hE.1 c' hc'
    rw [hF.2, hF.1, hprev.n_eq] at h
    exact h
  have hdivle : I.n / prev.k ≤ I.n / (prev.k - 1) :=
    Nat.div_le_div_left (by omega) (by omega)
  have hboundall : ∀ c : Int, 0 ≤ c →
      (warm_s3 I (prev.k - 1) prev perm).classSize c
        ≤ ((I.n / (prev.k - 1) : Nat) : Int) + 1 := by
    intro c hc0
    by_cases hck' : c < ((prev.k - 1 : Nat) : Int)
    · rw [hcs_lt c hc0 hck']
      have hgd : perm.getD c.toNat 0 < prev.k := hlt c.toNat (by omega)
      rcases hprevval (perm.getD c.toNat 0) hgd with h | h
      · rw [h]
        exact_mod_cast Nat.le_succ_of_le hdivle
      · rw [h]
        exact_mod_cast Nat.succ_le_succ hdivle
    · rw [hcs_ge c (by omega)]
      have h0 : (0 : Int) ≤ ((I.n / (prev.k - 1) : Nat) : Int) := Int.ofNat_nonneg _
      linarith
  -- the recount of current_r
  have hcount_eq : (List.range (prev.k - 1)).countP
      (fun c => decide (((I.n / (prev.k - 1) : Nat) : Int) + 1
        ≤ (warm_s3 I (prev.k - 1) prev perm).classSize ((c : Nat) : Int)))
      = (List.range (prev.k - 1)).countP
          (fun c => decide ((warm_s3 I (prev.k - 1) prev perm).classSize ((c : Nat) : Int)
            = ((I.n / (prev.k - 1) : Nat) : Int) + 1)) := by
    apply List.countP_congr
    intro c hc
    have hb := hboundall ((c : Nat) : Int) (Int.ofNat_nonneg c)
    simp only [decide_eq_true_eq]
    constructor
    · intro hle
      exact le_antisymm hb hle
    · intro heq
      exact le_of_eq heq.symm
  have hrcnt : warm_r0 I (prev.k - 1) prev perm
      = (List.range (prev.k - 1)).countP
          (fun c => decide (((I.n / (prev.k - 1) : Nat) : Int) + 1
            ≤ (warm_s3 I (prev.k - 1) prev perm).classSize ((c : Nat) : Int))) := by
    have h := foldl_count_inc
      (fun c : Nat => ((I.n / (prev.k - 1) : Nat) : Int) + 1
        ≤ (warm_s3 I (prev.k - 1) prev perm).classSize ((c : Nat) : Int))
      (List.range (prev.k - 1)) 0
    rw [Nat.zero_add] at h
    exact h
  have hfiltcnt := card_filter_range_eq_countP (prev.k - 1)
    (fun c : Nat => (warm_s3 I (prev.k - 1) prev perm).classSize ((c : Nat) : Int)
      = ((I.n / (prev.k - 1) : Nat) : Int) + 1)
  have hr0card : warm_r0 I (prev.k - 1) prev perm
      = ((Finset.range (prev.k - 1)).filter
          (fun c : Nat => (warm_s3 I (prev.k - 1) prev perm).classSize ((c : Nat) : Int)
            = ((I.n / (prev.k - 1) : Nat) : Int) + 1)).card :=
    (hrcnt.trans hcount_eq).trans hfiltcnt.symm
  -- r stays within its cap
  have hrmax : warm_r0 I (prev.k - 1) prev perm
      ≤ I.n - (prev.k - 1) * (I.n / (prev.k - 1)) := by
    rw [hr0card]
    by_cases hFe : ((Finset.range (prev.k - 1)).filter
        (fun c : Nat => (warm_s3 I (prev.k - 1) prev perm).classSize ((c : Nat) : Int)
          = ((I.n / (prev.k - 1) : Nat) : Int) + 1)) = ∅
    · rw [hFe]
      simp
    · obtain ⟨c0, hc0mem⟩ := Finset.nonempty_of_ne_empty hFe
      simp only [Finset.mem_filter, Finset.mem_range] at hc0mem
      obtain ⟨hc0k, hc0val⟩ := hc0mem
      have hvfix0 : (warm_s3 I (prev.k - 1) prev perm).classSize ((c0 : Nat) : Int)
          = prev.classSize ((perm.getD c0 0 : Nat) : Int) :=
        hcs_lt ((c0 : Nat) : Int) (Int.ofNat_nonneg c0) (by exact_mod_cast hc0k)
      have hgd0 : perm.getD c0 0 < prev.k := hlt c0 (by omega)
      have heqfl : I.n / prev.k = I.n / (prev.k - 1) := by
        rw [hvfix0] at hc0val
        rcases hprevval (perm.getD c0 0) hgd0 with hv | hv
        · exfalso
          rw [hv] at hc0val
          have h3 : I.n / prev.k = I.n / (prev.k - 1) + 1 := by exact_mod_cast hc0val
          obtain ⟨A, hA⟩ : ∃ x, x = I.n / prev.k := ⟨_, rfl⟩
          obtain ⟨B, hB⟩ : ∃ x, x = I.n / (prev.k - 1) := ⟨_, rfl⟩
          rw [← hA, ← hB] at h3 hdivle
          omega
        · rw [hv] at hc0val
          have h3 : I.n / prev.k + 1 = I.n / (prev.k - 1) + 1 := by exact_mod_cast hc0val
          obtain ⟨A, hA⟩ : ∃ x, x = I.n / prev.k := ⟨_, rfl⟩
          obtain ⟨B, hB⟩ : ∃ x, x = I.n / (prev.k - 1) := ⟨_, rfl⟩
          rw [← hA, ← hB] at h3 ⊢
          omega
      have hmapmem : ∀ c ∈ (Finset.range (prev.k - 1)).filter
          (fun c : Nat => (warm_s3 I (prev.k - 1) prev perm).classSize ((c : Nat) : Int)
            = ((I.n / (prev.k - 1) : Nat) : Int) + 1),
          perm.getD c 0 ∈ (Finset.range prev.k).filter
            (fun c : Nat => prev.classSize ((c : Nat) : Int) = prev.big_size) := by
        intro c hcmem
        simp only [Finset.mem_filter, Finset.mem_range] at hcmem ⊢
        obtain ⟨hck', hcval⟩ := hcmem
        refine ⟨hlt c (by omega), ?_⟩
        have hvfix : (warm_s3 I (prev.k - 1) prev perm).classSize ((c : Nat) : Int)
            = prev.classSize ((perm.getD c 0 : Nat) : Int) :=
          hcs_lt ((c : Nat) : Int) (Int.ofNat_nonneg c) (by exact_mod_cast hck')
        rw [hvfix] at hcval
        rw [hF.2, hF.1, hprev.n_eq, heqfl]
        exact hcval
      have hinjOn : Set.InjOn (fun c => perm.getD c 0)
          ((Finset.range (prev.k - 1)).filter
            (fun c : Nat => (warm_s3 I (prev.k - 1) prev perm).classSize ((c : Nat) : Int)
              = ((I.n / (prev.k - 1) : Nat) : Int) + 1)) := by
        intro a ha b hb hab
        simp only [Finset.coe_filter, Set.mem_setOf_eq, Finset.mem_range] at ha hb
        exact hinj a b (by omega) (by omega) hab
      have hcard := Finset.card_le_card_of_injOn (fun c => perm.getD c 0) hmapmem hinjOn
      have hbigcard := hE.2
      calc ((Finset.range (prev.k - 1)).filter
            (fun c : Nat => (warm_s3 I (prev.k - 1) prev perm).classSize ((c : Nat) : Int)
              = ((I.n / (prev.k - 1) : Nat) : Int) + 1)).card
          ≤ ((Finset.range prev.k).filter
              (fun c : Nat => prev.classSize ((c : Nat) : Int) = prev.big_size)).card := hcard
        _ = prev.n - prev.k * (prev.n / prev.k) := hbigcard
        _ ≤ I.n - (prev.k - 1) * (I.n / (prev.k - 1)) := by
            rw [hprev.n_eq, heqfl]
            exact Nat.sub_le_sub_left
              (Nat.mul_le_mul_right _ (by omega)) I.n
  -- the objective identity
  have hOA : objSpec I (warm_s3 I (prev.k - 1) prev perm).color
      = ∑ x ∈ Finset.range I.n,
          (if x < I.n ∧ prev.color x ≠ warm_removed prev perm
           then prev.conflicts x else 0) := by
    unfold objSpec
    apply Finset.sum_congr rfl
    intro x _
    dsimp only
    rw [← hconf3 x, hccf x]
  have hOB : ∑ x ∈ Finset.range I.n, prev.conflicts x
      = (∑ x ∈ Finset.range I.n,
          (if x < I.n ∧ prev.color x ≠ warm_removed prev perm
           then prev.conflicts x else 0))
        + ∑ x ∈ Finset.range I.n,
            (if prev.color x = warm_removed prev perm then prev.conflicts x else 0) := by
    rw [← Finset.sum_add_distrib]
    apply Finset.sum_congr rfl
    intro x hx
    have hxn := Finset.mem_range.1 hx
    by_cases h : prev.color x = warm_removed prev perm
    · rw [if_neg (fun hh => hh.2 h), if_pos h, zero_add]
    · rw [if_pos ⟨hxn, h⟩, if_neg h, add_zero]
  have hOC : 2 * prev.obj = ∑ x ∈ Finset.range I.n, prev.conflicts x := by
    rw [hprev.objEq]
    unfold objSpec
    apply Finset.sum_congr rfl
    intro x _
    exact (hprev.conf x).symm
  have hremne : ∀ x, prev.color x = warm_removed prev perm → ¬(prev.color x = -1) := by
    intro x h
    rw [h]
    unfold warm_removed
    omega
  have hOD : ∑ x ∈ Finset.range I.n,
      (if prev.color x = warm_removed prev perm then prev.conflicts x else 0)
      = ∑ x ∈ Finset.range I.n,
          (if prev.color x = warm_removed prev perm
           then (((I.adj x).countP
             (fun u => prev.color u == warm_removed prev perm)) : Int) else 0) := by
    apply Finset.sum_congr rfl
    intro x _
    by_cases h : prev.color x = warm_removed prev perm
    · rw [if_pos h, if_pos h, hprev.conf x]
      unfold confSpec
      rw [if_neg (hremne x h)]
      simp only [h]
    · rw [if_neg h, if_neg h]
  have hH := handshake I hG (fun v => prev.color v == warm_removed prev perm)
  simp only [beq_iff_eq] at hH
  have hORP := hOD.trans hH
  have hOE : ((List.range I.n).map (fun v =>
        if prev.color v = warm_removed prev perm ∧ 0 < prev.conflicts v
        then ((I.adj v).countP
          (fun u => decide (v < u ∧ prev.color u = warm_removed prev perm)) : Int)
        else 0)).sum
      = ∑ x ∈ Finset.range I.n,
          (if prev.color x = warm_removed prev perm
           then (((I.adj x).countP
             (fun u => decide (x < u) && (prev.color u == warm_removed prev perm))) : Int)
           else 0) := by
    rw [sum_map_range]
    apply Finset.sum_congr rfl
    intro x _
    dsimp only
    by_cases h : prev.color x = warm_removed prev perm
    · by_cases hcf : 0 < prev.conflicts x
      · rw [if_pos ⟨h, hcf⟩, if_pos h]
        have hpe : ∀ u ∈ I.adj x,
            ((decide (x < u ∧ prev.color u = warm_removed prev perm)) = true
              ↔ ((decide (x < u)) && (prev.color u == warm_removed prev perm)) = true) := by
          intro u _
          simp only [decide_eq_true_eq, Bool.and_eq_true, beq_iff_eq]
        rw [List.countP_congr hpe]
      · rw [if_neg (fun hh => hcf hh.2), if_pos h]
        have hcnt0 : (I.adj x).countP (fun u => prev.color u == prev.color x) = 0 := by
          have h1 := hprev.conf x
          unfold confSpec at h1
          rw [if_neg (hremne x h)] at h1
          omega
        have hnone := List.countP_eq_zero.1 hcnt0
        have hz : (I.adj x).countP
            (fun u => decide (x < u) && (prev.color u == warm_removed prev perm)) = 0 := by
          rw [List.countP_eq_zero]
          intro u hu hcontra
          have h2 := hnone u hu
          rw [h] at h2
          simp only [Bool.and_eq_true] at hcontra
          exact h2 hcontra.2
        rw [hz]
        rfl
    · rw [if_neg (fun hh => h hh.1), if_neg h]
  refine ⟨⟨hcn, hck, hkp1, hcfl, hcbg, rfl, rfl, hconf3, ?_, hsizes3, hsizeneg3,
      ?_, ?_, hclw, hcmem, hboundall, ?_, hrmax⟩, ?_, ?_⟩
  · dsimp only
    rw [hcobj, hOA, hOE]
    linarith [hOB, hOC, hORP]
  · intro v
    dsimp only
    by_cases hv : v < I.n ∧ prev.color v ≠ warm_removed prev perm
    · right
      obtain ⟨j, hj, hc3, _⟩ := hcolcase v hv.1 hv.2
      rw [hc3]
      constructor
      · omega
      · exact_mod_cast (by omega : j < prev.k - 1)
    · left
      rw [hccol v, if_neg hv]
  · intro v hv
    rw [hccol v, if_neg (fun hh => absurd hh.1 (by omega))]
  · dsimp only
    exact (hrcnt.trans hcount_eq).trans hfiltcnt.symm
  · intro v hv h
    rw [hccol v, if_neg (fun hh => hh.2 h)]
  · intro v hv h
    obtain ⟨j, hj, hc3, _⟩ := hcolcase v hv h
    rw [hc3]
    omega

theorem construct_greedy_from_previous_good (I : Instance) (hG : GoodInst I)
    (prev : SolState) (hprev : Good I prev) (hF : FieldsOK prev) (hE : Equity prev)
    (hk2 : 2 ≤ prev.k) (perm : List Nat) (hperm : perm.Perm (List.range prev.k))
    (shuffled : List Nat)
    (hsh : shuffled.Perm
      (uncolored_of I.n prev.color ((perm.getD (prev.k - 1) 0 : Nat) : Int)))
    (rng : Nat → Nat) :
    GoodFull I (construct_greedy_from_previous I (prev.k - 1) prev perm shuffled rng) := by
  obtain ⟨hP, horph, hsurv⟩ := warm_pgreedy I hG prev hprev hF hE hk2 perm hperm
  rw [construct_warm_decomp]
  have hmem : ∀ w ∈ shuffled, w < I.n ∧ (warm_s3 I (prev.k - 1) prev perm).color w = -1 := by
    intro w hw
    have hw2 := hsh.mem_iff.1 hw
    unfold uncolored_of at hw2
    rw [List.mem_filter, List.mem_range] at hw2
    obtain ⟨hwn, hwp⟩ := hw2
    have hwc : prev.color w = warm_removed prev perm := beq_iff_eq.1 hwp
    exact ⟨hwn, horph w hwn hwc⟩
  have hnd : shuffled.Nodup := hsh.nodup_iff.2 (List.Nodup.filter _ (List.nodup_range _))
  obtain ⟨hPf, hpres, hcolored⟩ := greedy_fold_inv I hG (prev.k - 1) (I.n / (prev.k - 1))
    (I.n - (prev.k - 1) * (I.n / (prev.k - 1))) (fun _ => 0) rng shuffled
    (warm_s3 I (prev.k - 1) prev perm) (warm_r0 I (prev.k - 1) prev perm) 0 hP hmem hnd
  obtain ⟨S, hS⟩ : ∃ S, S = shuffled.foldl
      (greedyPlaceStep I (prev.k - 1) (I.n / (prev.k - 1))
        (I.n - (prev.k - 1) * (I.n / (prev.k - 1))) (fun _ => 0) rng)
      (warm_s3 I (prev.k - 1) prev perm, warm_r0 I (prev.k - 1) prev perm, 0) := ⟨_, rfl⟩
  rw [← hS] at hPf hpres hcolored ⊢
  have hfull : ∀ v, v < I.n → S.1.color v ≠ -1 := by
    intro v hv
    by_cases hvo : prev.color v = warm_removed prev perm
    · have hvin : v ∈ shuffled := by
        rw [hsh.mem_iff]
        unfold uncolored_of
        rw [List.mem_filter, List.mem_range]
        exact ⟨hv, beq_iff_eq.2 hvo⟩
      exact hcolored v hvin
    · have hvnin : v ∉ shuffled := by
        intro hcontra
        exact hsurv v hv hvo (hmem v hcontra).2
      rw [hpres v hvnin]
      exact hsurv v hv hvo
  exact pgreedy_final I _ _ _ S.1 S.2.1 S.2.2 hPf hfull

theorem cand_accum_mem (acc : Int × List CandidateMove) (delta : Int) (m0 : CandidateMove)
    (m : CandidateMove) (hm : m ∈ (cand_accum acc delta m0).2) : m ∈ acc.2 ∨ m = m0 := by
  unfold cand_accum at hm
  split_ifs at hm
  · rw [List.mem_singleton] at hm
    exact Or.inr hm
  · rcases List.mem_append.1 hm with h | h
    · exact Or.inl h
    · exact Or.inr (List.mem_singleton.1 h)
  · exact Or.inl hm

theorem foldl_cand_mem {α : Type} (P : CandidateMove → Prop)
    (f : (Int × List CandidateMove) → α → (Int × List CandidateMove)) :
    ∀ (l : List α), (∀ acc, ∀ a ∈ l, ∀ m, m ∈ (f acc a).2 → m ∈ acc.2 ∨ P m) →
      ∀ acc m, m ∈ (l.foldl f acc).2 → m ∈ acc.2 ∨ P m := by
  intro l
  induction l with
  | nil =>
    intro _ acc m hm
    exact Or.inl hm
  | cons a t ih =>
    intro hf acc m hm
    rw [List.foldl_cons] at hm
    rcases ih (fun acc2 b hb m2 => hf acc2 b (List.mem_cons_of_mem a hb) m2) (f acc a) m hm
      with h | h
    · exact hf acc a (List.mem_cons_self a t) m h
    · exact Or.inr h

theorem scan_transfers_mem (I : Instance) (cfg : TabuConfig) (s : SolState)
    (tb : Nat → Int → Int) (iter : Nat) (best : Int) (acc0 : Int × List CandidateMove)
    (m : CandidateMove) (hm : m ∈ (scan_transfers I cfg s tb iter best acc0).2) :
    m ∈ acc0.2 ∨ CandOK s m := by
  unfold scan_transfers at hm
  refine foldl_cand_mem (CandOK s) _ s.conflictingVertices ?_ acc0 m hm
  intro acc v hv m' hm'
  by_cases hbig : s.classSize (s.color v) = s.big_size
  · rw [if_pos hbig] at hm'
    refine foldl_cand_mem (CandOK s) _ (List.range s.k) ?_ acc m' hm'
    intro acc2 j hj m2 hm2
    dsimp only at hm2
    have hjk : j < s.k := List.mem_range.1 hj
    by_cases hflr : s.classSize ((j : Nat) : Int) = s.floor_size
    · rw [if_pos hflr] at hm2
      by_cases hadm : transferAdmit (isTabuAt (tb v ((j : Nat) : Int)) iter) s.obj
          (get_move_delta I s v (s.color v) ((j : Nat) : Int)) best cfg.aspiration = true
      · rw [if_pos hadm] at hm2
        rcases cand_accum_mem acc2 _ _ m2 hm2 with h | h
        · exact Or.inl h
        · subst h
          exact Or.inr (Or.inl ⟨rfl, hv, hjk, hbig, hflr⟩)
      · rw [if_neg hadm] at hm2
        exact Or.inl hm2
    · rw [if_neg hflr] at hm2
      exact Or.inl hm2
  · rw [if_neg hbig] at hm'
    exact Or.inl hm'

theorem scan_swaps_mem (I : Instance) (s : SolState)
    (tb : Nat → Int → Int) (iter : Nat) (best : Int) (acc0 : Int × List CandidateMove)
    (m : CandidateMove) (hm : m ∈ (scan_swaps I s tb iter best acc0).2) :
    m ∈ acc0.2 ∨ CandOK s m := by
  unfold scan_swaps at hm
  refine foldl_cand_mem (CandOK s) _ s.conflictingVertices ?_ acc0 m hm
  intro acc v hv m' hm'
  refine foldl_cand_mem (CandOK s) _ (List.range s.n) ?_ acc m' hm'
  intro acc2 u hu m2 hm2
  dsimp only at hm2
  have hun : u < s.n := List.mem_range.1 hu
  by_cases huv : u = v
  · rw [if_pos huv] at hm2
    exact Or.inl hm2
  · rw [if_neg huv] at hm2
    by_cases hcc : s.color v = s.color u
    · rw [if_pos hcc] at hm2
      exact Or.inl hm2
    · rw [if_neg hcc] at hm2
      by_cases hskip : (decide (0 < s.conflicts u) && decide (s.color v < s.color u)) = true
      · rw [if_pos hskip] at hm2
        exact Or.inl hm2
      · rw [if_neg hskip] at hm2
        by_cases hadm : swapAdmit (isTabuAt (tb v (s.color u)) iter
            || isTabuAt (tb u (s.color v)) iter) s.obj (get_swap_delta I s v u) best = true
        · rw [if_pos hadm] at hm2
          rcases cand_accum_mem acc2 _ _ m2 hm2 with h | h
          · exact Or.inl h
          · subst h
            exact Or.inr (Or.inr ⟨rfl, hv, hun, huv, hcc⟩)
        · rw [if_neg hadm] at hm2
          exact Or.inl hm2

theorem conflicting_lt_n (I : Instance) (hG : GoodInst I) (s : SolState) (hg : Good I s)
    (v : Nat) (hv : v ∈ s.conflictingVertices) : v < I.n := by
  by_contra h
  have h1 := (hg.mem v).1 hv
  rw [hg.conf v, confSpec_out I hG s.color v (by omega)] at h1
  omega

theorem equity_preserved (s t : SolState) (hn : t.n = s.n) (hk : t.k = s.k)
    (hfl : t.floor_size = s.floor_size) (hbg : t.big_size = s.big_size)
    (hcs : t.classSize = s.classSize) (hF : FieldsOK s) (hE : Equity s) :
    FieldsOK t ∧ Equity t := by
  refine ⟨⟨?_, ?_⟩, ?_, ?_⟩
  · rw [hfl, hn, hk]
    exact hF.1
  · rw [hbg, hfl]
    exact hF.2
  · intro c hc
    rw [hk] at hc
    rw [hcs, hfl, hbg]
    exact hE.1 c hc
  · have hfe : (Finset.range t.k).filter
        (fun c : Nat => t.classSize ((c : Nat) : Int) = t.big_size)
        = (Finset.range s.k).filter
            (fun c : Nat => s.classSize ((c : Nat) : Int) = s.big_size) := by
      rw [hk]
      apply Finset.filter_congr
      intro c _
      rw [hcs, hbg]
    rw [hfe, hn, hk]
    exact hE.2

theorem transfer_equity (I : Instance) (hG : GoodInst I) (s : SolState) (hg : Good I s)
    (hF : FieldsOK s) (hE : Equity s) (v : Nat) (tgt : Nat) (hv : v < I.n)
    (htgt : tgt < s.k) (hbig : s.classSize (s.color v) = s.big_size)
    (hflr : s.classSize ((tgt : Nat) : Int) = s.floor_size) :
    FieldsOK (apply_move I s v ((tgt : Nat) : Int))
    ∧ Equity (apply_move I s v ((tgt : Nat) : Int)) := by
  obtain ⟨hg2, hobj2, hn2, hk2, hfl2, hbg2, hcol2, hcs2⟩ :=
    apply_move_good I hG s v ((tgt : Nat) : Int) hg hv (Int.ofNat_nonneg _)
      (by exact_mod_cast htgt)
  obtain ⟨hold0, holdk⟩ := hg.colors v hv
  have hfb : s.big_size = s.floor_size + 1 := hF.2
  have hone : s.color v ≠ ((tgt : Nat) : Int) := by
    intro hh
    rw [hh, hflr] at hbig
    omega
  have hcsval : ∀ c : Int, (apply_move I s v ((tgt : Nat) : Int)).classSize c
      = if c = ((tgt : Nat) : Int) then s.classSize ((tgt : Nat) : Int) + 1
        else if c = s.color v then s.classSize (s.color v) - 1 else s.classSize c := by
    intro c
    rw [hcs2]
    simp only [updF_apply]
    rw [if_neg (show ¬(((tgt : Nat) : Int) = s.color v) from fun hh => hone hh.symm)]
  refine ⟨⟨?_, ?_⟩, ?_, ?_⟩
  · rw [hfl2, hn2, hk2]
    exact hF.1
  · rw [hbg2, hfl2]
    exact hF.2
  · intro c hc
    rw [hk2] at hc
    rw [hcsval ((c : Nat) : Int), hfl2, hbg2]
    by_cases h1 : ((c : Nat) : Int) = ((tgt : Nat) : Int)
    · rw [if_pos h1]
      right
      rw [hflr, hfb]
    · rw [if_neg h1]
      by_cases h2 : ((c : Nat) : Int) = s.color v
      · rw [if_pos h2]
        left
        rw [hbig, hfb]
        omega
      · rw [if_neg h2]
        exact hE.1 c hc
  · rw [hn2, hk2]
    have hocn : (s.color v).toNat < s.k := by omega
    have hocv : ((((s.color v).toNat : Nat)) : Int) = s.color v := Int.toNat_of_nonneg hold0
    have htne : tgt ≠ (s.color v).toNat := by
      intro hh
      apply hone
      rw [hh, hocv]
    have hocF : (s.color v).toNat ∈ (Finset.range s.k).filter
        (fun c : Nat => s.classSize ((c : Nat) : Int) = s.big_size) := by
      rw [Finset.mem_filter, Finset.mem_range]
      refine ⟨hocn, ?_⟩
      rw [hocv]
      exact hbig
    have htgtF : tgt ∉ (Finset.range s.k).filter
        (fun c : Nat => s.classSize ((c : Nat) : Int) = s.big_size) := by
      rw [Finset.mem_filter]
      intro hh
      rw [hflr] at hh
      omega
    have hset : (Finset.range s.k).filter
        (fun c : Nat => (apply_move I s v ((tgt : Nat) : Int)).classSize ((c : Nat) : Int)
          = (apply_move I s v ((tgt : Nat) : Int)).big_size)
        = insert tgt (((Finset.range s.k).filter
            (fun c : Nat => s.classSize ((c : Nat) : Int) = s.big_size)).erase
              (s.color v).toNat) := by
      ext c
      simp only [Finset.mem_insert, Finset.mem_erase, Finset.mem_filter, Finset.mem_range]
      rw [hcsval ((c : Nat) : Int), hbg2]
      constructor
      · rintro ⟨hck, hcv⟩
        by_cases h1 : c = tgt
        · exact Or.inl h1
        · have h1c : ¬(((c : Nat) : Int) = ((tgt : Nat) : Int)) := by
            intro hh
            exact h1 (by exact_mod_cast hh)
          rw [if_neg h1c] at hcv
          by_cases h2 : ((c : Nat) : Int) = s.color v
          · rw [if_pos h2] at hcv
            rw [hbig] at hcv
            omega
          · rw [if_neg h2] at hcv
            refine Or.inr ⟨?_, hck, hcv⟩
            intro hh
            apply h2
            rw [hh, hocv]
      · rintro (h1 | ⟨hcoc, hck, hcv⟩)
        · subst h1
          refine ⟨htgt, ?_⟩
          rw [if_pos rfl, hflr, hfb]
        · refine ⟨hck, ?_⟩
          have h1c : ¬(((c : Nat) : Int) = ((tgt : Nat) : Int)) := by
            intro hh
            have hct : c = tgt := by exact_mod_cast hh
            subst hct
            rw [hflr] at hcv
            omega
          have h2c : ¬(((c : Nat) : Int) = s.color v) := by
            intro hh
            apply hcoc
            omega
          rw [if_neg h1c, if_neg h2c]
          exact hcv
    rw [hset, Finset.card_insert_of_not_mem
      (fun hh => htgtF (Finset.mem_of_mem_erase hh)),
      Finset.card_erase_of_mem hocF]
    have h1 : 1 ≤ ((Finset.range s.k).filter
        (fun c : Nat => s.classSize ((c : Nat) : Int) = s.big_size)).card :=
      Finset.card_pos.2 ⟨(s.color v).toNat, hocF⟩
    have h2 := hE.2
    obtain ⟨D, hD⟩ : ∃ x, x = s.n - s.k * (s.n / s.k) := ⟨_, rfl⟩
    rw [← hD] at h2 ⊢
    omega

theorem perturb_attempt_goodfull (I : Instance) (hG : GoodInst I) (s : SolState)
    (hGF : GoodFull I s) (hn : 0 < I.n) (rng : Nat → Nat) (rix : Nat) :
    GoodFull I (perturb_attempt I s rng rix).1 := by
  obtain ⟨hg, hF, hE⟩ := hGF
  have hsn : 0 < s.n := by
    rw [hg.n_eq]
    exact hn
  simp only [perturb_attempt]
  split_ifs with h
  · obtain ⟨h1, h2⟩ := h
    have hv1 : rng rix % s.n < I.n := by
      rw [← hg.n_eq]
      exact Nat.mod_lt _ hsn
    have hv2 : rng (rix + 1) % s.n < I.n := by
      rw [← hg.n_eq]
      exact Nat.mod_lt _ hsn
    obtain ⟨hg2, hn2, hk2, hfl2, hbg2, hcs2, hcol2⟩ :=
      apply_swap_good I hG s (rng rix % s.n) (rng (rix + 1) % s.n) hg hv1 hv2
        (fun hh => h1 hh.symm) h2
    obtain ⟨hF2, hE2⟩ := equity_preserved s _ hn2 hk2 hfl2 hbg2 hcs2 hF hE
    exact ⟨hg2, hF2, hE2⟩
  · exact ⟨hg, hF, hE⟩

theorem perturb_fold_goodfull (I : Instance) (hG : GoodInst I) (rng : Nat → Nat)
    (hn : 0 < I.n) (l : List Nat) :
    ∀ acc : SolState × Nat × Nat, GoodFull I acc.1 →
      GoodFull I ((l.foldl (perturb_step I rng) acc).1) := by
  induction l with
  | nil =>
    intro acc h
    exact h
  | cons a t ih =>
    intro acc h
    rw [List.foldl_cons]
    exact ih (perturb_step I rng acc a)
      (perturb_attempt_goodfull I hG acc.1 h hn rng acc.2.1)

theorem run_tabu_loop_goodfull (I : Instance) (hG : GoodInst I) (cfg : TabuConfig)
    (stop : Nat → Bool) (rng : Nat → Nat) (entryObj : Int) (hn : 0 < I.n) :
    ∀ (fuel : Nat) (s : SolState) (tb : Nat → Int → Int) (iter ni : Nat) (best : Int)
      (rix : Nat), GoodFull I s →
      GoodFull I (run_tabu_loop I cfg stop rng entryObj fuel s tb iter ni best rix).st := by
  intro fuel
  induction fuel with
  | zero =>
    intro s tb iter ni best rix hGF
    exact hGF
  | succ f ih =>
    intro s tb iter ni best rix hGF
    simp only [run_tabu_loop]
    by_cases h1 : s.obj ≤ 0
    · rw [if_pos h1]
      exact hGF
    rw [if_neg h1]
    by_cases h2 : (decide (iter % 128 = 0) && stop iter) = true
    · rw [if_pos h2]
      exact hGF
    rw [if_neg h2]
    by_cases h3 : (decide (cfg.perturbation_limit ≤ (ni : Int))
        && decide (0 < cfg.perturbation_strength)) = true
    · rw [if_pos h3]
      exact ih _ _ _ _ _ _ (perturb_fold_goodfull I hG rng hn _ _ hGF)
    rw [if_neg h3]
    cases hsc : (scan_swaps I s tb iter best
        (if s.n % s.k ≠ 0 then scan_transfers I cfg s tb iter best (99999999, [])
         else (99999999, []))).2 with
    | nil => exact hGF
    | cons c cs =>
      dsimp only
      generalize hm : (c :: cs).get
        ⟨rng rix % (cs.length + 1), Nat.mod_lt _ (Nat.succ_pos _)⟩ = m
      have hmmem : m ∈ c :: cs := by
        rw [← hm]
        exact List.get_mem _ _ _
      rw [← hsc] at hmmem
      have hcand : CandOK s m := by
        rcases scan_swaps_mem I s tb iter best _ m hmmem with h | h
        · by_cases hnk : s.n % s.k ≠ 0
          · rw [if_pos hnk] at h
            rcases scan_transfers_mem I cfg s tb iter best _ m h with h4 | h4
            · exact absurd h4 (List.not_mem_nil m)
            · exact h4
          · rw [if_neg hnk] at h
            exact absurd h (List.not_mem_nil m)
        · exact h
      by_cases hty : m.type = 0
      · rw [if_pos hty]
        rcases hcand with ⟨_, hvm, htk, hbig, hflr⟩ | ⟨hty1, _⟩
        · have hvn : m.v < I.n := conflicting_lt_n I hG s hGF.1 m.v hvm
          have hg2 := apply_move_good I hG s m.v ((m.target : Nat) : Int) hGF.1 hvn
            (Int.ofNat_nonneg _) (by exact_mod_cast htk)
          obtain ⟨hF2, hE2⟩ := transfer_equity I hG s hGF.1 hGF.2.1 hGF.2.2 m.v m.target
            hvn htk hbig hflr
          exact ih _ _ _ _ _ _ ⟨hg2.1, hF2, hE2⟩
        · rw [hty1] at hty
          exact absurd hty (by omega)
      · rw [if_neg hty]
        rcases hcand with ⟨hty0, _⟩ | ⟨_, hvm, htn, hne_uv, hnecol⟩
        · exact absurd hty0 hty
        · have hvn : m.v < I.n := conflicting_lt_n I hG s hGF.1 m.v hvm
          have hun : m.target < I.n := by
            rw [← hGF.1.n_eq]
            exact htn
          obtain ⟨hg2, hn2, hk2, hfl2, hbg2, hcs2, hcol2⟩ :=
            apply_swap_good I hG s m.v m.target hGF.1 hvn hun hne_uv hnecol
          obtain ⟨hF2, hE2⟩ := equity_preserved s _ hn2 hk2 hfl2 hbg2 hcs2 hGF.2.1 hGF.2.2
          exact ih _ _ _ _ _ _ ⟨hg2, hF2, hE2⟩

theorem run_tabu_search_goodfull (I : Instance) (hG : GoodInst I) (cfg : TabuConfig)
    (stop : Nat → Bool) (rng : Nat → Nat) (s : SolState) (hGF : GoodFull I s)
    (hn : 0 < I.n) : GoodFull I ((run_tabu_search I cfg stop rng s).st) := by
  unfold run_tabu_search
  split_ifs with h0
  · exact hGF
  · exact run_tabu_loop_goodfull I hG cfg stop rng s.obj hn cfg.max_iter s
      (fun _ _ => 0) 0 0 s.obj 0 hGF

theorem reachable_goodfull (I : Instance) (hG : GoodInst I) (hn : 0 < I.n)
    (s : SolState) (hs : Reachable I s) : GoodFull I s := by
  induction hs with
  | initial k hk order horder rng =>
    exact construct_greedy_initial_good I hG k hk order horder rng
  | warm t ht hk2 perm hperm shuffled hsh rng ih =>
    exact construct_greedy_from_previous_good I hG t ih.1 ih.2.1 ih.2.2 hk2 perm hperm
      shuffled hsh rng
  | engine t ht cfg stop rng ih =>
    exact run_tabu_search_goodfull I hG cfg stop rng t ih hn

/-- C1: on every solver state — after the initial greedy construction, after a
warm start from a feasible `k+1` state, and after every move the engine applies
(each selected transfer, each selected swap, and each perturbation swap) —
every `class_size[c]` is `floor_size` or `big_size` and exactly
`n - k*(n/k)` classes have size `big_size` (`Equity`), with
`floor_size = n/k` and `big_size = floor_size + 1` (`FieldsOK`).  Stated as:
every reachable state is equitable, and equity is preserved by every transfer
the scans can select and by every swap of differently colored vertices (the
shape of all engine swaps, perturbation included). -/
theorem claim_C1 (I : Instance) (s : SolState) (hG : GoodInst I) (hn : 0 < I.n)
    (hs : Reachable I s) :
    (Equity s ∧ FieldsOK s)
    ∧ (∀ m : CandidateMove, CandOK s m → m.type = 0 →
        Equity (apply_move I s m.v ((m.target : Nat) : Int))
        ∧ FieldsOK (apply_move I s m.v ((m.target : Nat) : Int)))
    ∧ (∀ v u : Nat, v < I.n → u < I.n → u ≠ v → s.color v ≠ s.color u →
        Equity (apply_swap_safe I s v u) ∧ FieldsOK (apply_swap_safe I s v u)) := by
  obtain ⟨hg, hF, hE⟩ := reachable_goodfull I hG hn s hs
  refine ⟨⟨hE, hF⟩, ?_, ?_⟩
  · intro m hcand hty
    rcases hcand with ⟨_, hvm, htk, hbig, hflr⟩ | ⟨hty1, _⟩
    · have hvn : m.v < I.n := conflicting_lt_n I hG s hg m.v hvm
      obtain ⟨hF2, hE2⟩ := transfer_equity I hG s hg hF hE m.v m.target hvn htk hbig hflr
      exact ⟨hE2, hF2⟩
    · rw [hty1] at hty
      exact absurd hty (by omega)
  · intro v u hv hu huv hne
    obtain ⟨_, hn2, hk2, hfl2, hbg2, hcs2, _⟩ :=
      apply_swap_good I hG s v u hg hv hu huv hne
    obtain ⟨hF2, hE2⟩ := equity_preserved s _ hn2 hk2 hfl2 hbg2 hcs2 hF hE
    exact ⟨hE2, hF2⟩

/-- Witness for C1 on the concrete path instance: the greedy initial state for
`k = 2` is equitable with the `init`-derived size fields. -/
theorem claim_C1_witness :
    GoodInst pathI ∧ 0 < pathI.n
    ∧ (Equity (construct_greedy_initial pathI 2 (List.range 3) (fun _ => 0))
        ∧ FieldsOK (construct_greedy_initial pathI 2 (List.range 3) (fun _ => 0))) :=
  ⟨pathI_good, by decide,
    (claim_C1 pathI _ pathI_good (by decide)
      (Reachable.initial 2 (by decide) (List.range 3) (List.Perm.refl _) (fun _ => 0))).1⟩

/-- C2: on every reachable solver state (initial construction, warm starts,
and any engine run, whose state changes are `apply_move` / `apply_swap_safe`
sequences), the incrementally maintained `obj` equals
`recompute_objective_slow`, and `conflicts[v]` is the number of neighbours of
`v` sharing `v`'s color. -/
theorem claim_C2 (I : Instance) (s : SolState) (hG : GoodInst I) (hn : 0 < I.n)
    (hs : Reachable I s) :
    s.obj = recompute_objective_slow I s
    ∧ ∀ v, v < I.n →
        s.conflicts v = ((I.adj v).countP (fun u => s.color u == s.color v) : Int) := by
  obtain ⟨hg, _, _⟩ := reachable_goodfull I hG hn s hs
  have hconf : ∀ v, v < I.n →
      s.conflicts v = ((I.adj v).countP (fun u => s.color u == s.color v) : Int) := by
    intro v hv
    rw [hg.conf v]
    unfold confSpec
    rw [if_neg (by have := (hg.colors v hv).1; omega)]
  refine ⟨?_, hconf⟩
  unfold recompute_objective_slow
  rw [hg.n_eq, sum_map_range]
  show s.obj = (∑ v ∈ Finset.range I.n,
    ((I.adj v).countP (fun u => s.color u == s.color v) : Int)) / 2
  have hsum : ∑ v ∈ Finset.range I.n,
      ((I.adj v).countP (fun u => s.color u == s.color v) : Int) = 2 * s.obj := by
    have h1 : objSpec I s.color = ∑ v ∈ Finset.range I.n,
        ((I.adj v).countP (fun u => s.color u == s.color v) : Int) := by
      unfold objSpec
      apply Finset.sum_congr rfl
      intro v hv
      unfold confSpec
      rw [if_neg (by have := (hg.colors v (Finset.mem_range.1 hv)).1; omega)]
    rw [← h1, ← hg.objEq]
  rw [hsum, Int.mul_ediv_cancel_left _ (by norm_num : (2 : Int) ≠ 0)]

/-- Witness for C2 on the concrete star instance: the greedy initial state for
`k = 2` has `obj = recompute_objective_slow` and correct conflict counters. -/
theorem claim_C2_witness :
    GoodInst starI ∧ 0 < starI.n
    ∧ ((construct_greedy_initial starI 2 (List.range 3) (fun _ => 0)).obj
        = recompute_objective_slow starI
            (construct_greedy_initial starI 2 (List.range 3) (fun _ => 0))
      ∧ ∀ v, v < starI.n →
          (construct_greedy_initial starI 2 (List.range 3) (fun _ => 0)).conflicts v
            = ((starI.adj v).countP (fun u =>
                (construct_greedy_initial starI 2 (List.range 3) (fun _ => 0)).color u
                  == (construct_greedy_initial starI 2 (List.range 3) (fun _ => 0)).color v)
                : Int)) :=
  ⟨starI_good, by decide,
    claim_C2 starI _ starI_good (by decide)
      (Reachable.initial 2 (by decide) (List.range 3) (List.Perm.refl _) (fun _ => 0))⟩
end TabuEqcol